import Mathlib

/-!
# sveger: schema resolution, reference collection and identifier synthesis

A shallow embedding of `generator/typescript.go`.

Modelling conventions
* Go `string` is Lean `String`; the `strings` package functions used by the
  source are re-stated over the character list of a string.  Every call site
  in the source passes a one-character pattern, so patterns are `Char`s.
  Case mapping is the ASCII one (Go's mapping agrees with it on ASCII text).
* A Go pointer `*T` is `Option T`; a Go slice is a `List`; a Go
  `map[string]T` is an association list whose order is the order in which
  the map happens to be enumerated.
* `findTypesInSchema` and `findReferencedTypes` follow references through
  the schema map, which is not structurally decreasing; they carry a fuel
  argument bounding the call depth and return `none` when it is exhausted.
-/

namespace Sveger

/-! ## The `strings` helpers used by the source -/

namespace Strs

/-- The list form of `strings.ReplaceAll s old new` for a one-character `old`. -/
def replaceAllL (old : Char) (new : List Char) : List Char → List Char
  | [] => []
  | c :: cs => (if c = old then new else [c]) ++ replaceAllL old new cs

/-- The function `strings.ReplaceAll(s, old, new)` for a one-character `old`. -/
def replaceAll (s : String) (old : Char) (new : String) : String :=
  ⟨replaceAllL old new.data s.data⟩

/-- The list form of `strings.Split s sep` for a one-character `sep`. -/
def splitL (sep : Char) : List Char → List (List Char)
  | [] => [[]]
  | c :: cs =>
    if c = sep then [] :: splitL sep cs
    else
      match splitL sep cs with
      | [] => [[c]]
      | p :: ps => (c :: p) :: ps

/-- The function `strings.Split(s, sep)` for a one-character `sep`. -/
def split (s : String) (sep : Char) : List String :=
  (splitL sep s.data).map String.mk

/-- The list form of `strings.TrimPrefix s p` for a one-character `p`. -/
def trimLeadingL (p : Char) : List Char → List Char
  | [] => []
  | c :: cs => if c = p then cs else c :: cs

/-- The function `strings.TrimPrefix(s, p)` for a one-character `p`. -/
def trimLeading (s : String) (p : Char) : String :=
  ⟨trimLeadingL p s.data⟩

/-- The function `strings.ToLower`. -/
def toLower (s : String) : String := ⟨s.data.map Char.toLower⟩

/-- The function `strings.ToUpper`. -/
def toUpper (s : String) : String := ⟨s.data.map Char.toUpper⟩

/-- The slice expression `s[:n]`. -/
def sliceTo (s : String) (n : Nat) : String := ⟨s.data.take n⟩

/-- The slice expression `s[n:]`. -/
def sliceFrom (s : String) (n : Nat) : String := ⟨s.data.drop n⟩

/-- The last element of a slice, `parts[len(parts)-1]`, with the zero value for an empty one. -/
def lastOr : List String → String
  | [] => ""
  | [x] => x
  | _ :: y :: ys => lastOr (y :: ys)

end Strs

/-! ## Data model -/

/-- A Go `map[string]T`, as the list of its entries in enumeration order. -/
abbrev GoMap (α : Type) := List (String × α)

namespace GoMap

/-- The map read `m[k]` with its presence flag. -/
def get? {α : Type} (m : GoMap α) (k : String) : Option α :=
  match m with
  | [] => none
  | (k1, v) :: rest => if k1 = k then some v else get? rest k

/-- The map write `m[k] = v`. -/
def set {α : Type} (m : GoMap α) (k : String) (v : α) : GoMap α :=
  match m with
  | [] => [(k, v)]
  | (k1, v1) :: rest => if k1 = k then (k1, v) :: rest else (k1, v1) :: set rest k v

/-- The keys of the map. -/
def keys {α : Type} (m : GoMap α) : List String := m.map Prod.fst

end GoMap

/-- A decoded enum literal (`interface{}`); `other` carries the `%v` rendering of any
value that is not a string, an integer, a boolean or nil. -/
inductive EnumVal where
  | str (s : String)
  | int (i : Int)
  | bool (b : Bool)
  | null
  | other (rendered : String)
  deriving DecidableEq, Repr

/-- The `%v` rendering of an enum literal. -/
def EnumVal.fmtV : EnumVal → String
  | .str s => s
  | .int i => toString i
  | .bool b => if b then "true" else "false"
  | .null => "<nil>"
  | .other r => r

/-- The Go struct `Schema`; the constructor arguments are its fields in declaration order. -/
inductive Schema where
  | mk (type : String) (format : String)
       (properties : List (String × Option Schema))
       (items : Option Schema)
       (required : List String)
       (ref : String)
       (allOf : List (Option Schema))
       (oneOf : List (Option Schema))
       (anyOf : List (Option Schema))
       (enum : List EnumVal)
       (xEnumVarnames : List String)

namespace Schema

/-- Field `Type`. -/
def Typ : Schema → String | mk t _ _ _ _ _ _ _ _ _ _ => t
/-- Field `Format`. -/
def Format : Schema → String | mk _ f _ _ _ _ _ _ _ _ _ => f
/-- Field `Properties`. -/
def Properties : Schema → GoMap (Option Schema) | mk _ _ p _ _ _ _ _ _ _ _ => p
/-- Field `Items`. -/
def Items : Schema → Option Schema | mk _ _ _ i _ _ _ _ _ _ _ => i
/-- Field `Required`. -/
def Required : Schema → List String | mk _ _ _ _ r _ _ _ _ _ _ => r
/-- Field `Ref`. -/
def Ref : Schema → String | mk _ _ _ _ _ r _ _ _ _ _ => r
/-- Field `AllOf`. -/
def AllOf : Schema → List (Option Schema) | mk _ _ _ _ _ _ a _ _ _ _ => a
/-- Field `OneOf`. -/
def OneOf : Schema → List (Option Schema) | mk _ _ _ _ _ _ _ o _ _ _ => o
/-- Field `AnyOf`. -/
def AnyOf : Schema → List (Option Schema) | mk _ _ _ _ _ _ _ _ a _ _ => a
/-- Field `Enum`. -/
def Enum : Schema → List EnumVal | mk _ _ _ _ _ _ _ _ _ e _ => e
/-- Field `XEnumVarnames`. -/
def XEnumVarnames : Schema → List String | mk _ _ _ _ _ _ _ _ _ _ x => x

/-- The zero value `Schema{}`. -/
def zero : Schema := mk "" "" [] none [] "" [] [] [] [] []

end Schema

structure Info where
  Title : String := ""
  Version : String := ""

structure Server where
  URL : String := ""

structure MediaTypeObject where
  Schema : Option Schema := none

structure RequestBody where
  Required : Bool := false
  Content : GoMap MediaTypeObject := []

structure Response where
  Description : String := ""
  Content : GoMap MediaTypeObject := []
  Schema : Option Schema := none

structure Parameter where
  Name : String := ""
  In : String := ""
  Required : Bool := false
  Schema : Option Schema := none
  Description : String := ""
  Typ : String := ""
  Format : String := ""

structure Operation where
  OperationID : String := ""
  Summary : String := ""
  Tags : List String := []
  Parameters : List Parameter := []
  RequestBody : Option RequestBody := none
  Responses : GoMap Response := []

structure PathItem where
  Get : Option Operation := none
  Post : Option Operation := none
  Put : Option Operation := none
  Delete : Option Operation := none
  Patch : Option Operation := none

structure Components where
  Schemas : GoMap (Option Schema) := []

structure OpenAPISpec where
  OpenAPI : String := ""
  Swagger : String := ""
  Info : Info := {}
  Host : String := ""
  BasePath : String := ""
  Servers : List Server := []
  Paths : GoMap PathItem := []
  Components : Components := {}
  Definitions : GoMap (Option Schema) := []

structure EnumMember where
  Name : String
  Value : String
  deriving DecidableEq, Repr

structure PropertyDef where
  Typ : String
  Optional : Bool
  deriving DecidableEq, Repr

structure TypeDef where
  IsReference : Bool := false
  IsInterface : Bool := false
  IsArray : Bool := false
  IsEnum : Bool := false
  RefName : String := ""
  Typ : String := ""
  ItemType : String := ""
  Properties : GoMap PropertyDef := []
  EnumValues : List String := []
  EnumMembers : List EnumMember := []
  deriving DecidableEq, Repr

/-! ## Schema resolution -/

/-- Sanitize the name to be a valid TypeScript identifier. -/
def sanitizeTypeName (name : String) : String :=
  let name := Strs.replaceAll name '.' "_"
  let name := Strs.replaceAll name '-' "_"
  let name := Strs.replaceAll name ' ' "_"
  name

/-- The last '/'-delimited part of a reference, sanitized. -/
def getRefName (ref : String) : String :=
  let parts := Strs.split ref '/'
  let name := Strs.lastOr parts
  sanitizeTypeName name

/-- Linear search of a string slice. -/
def contains (slice : List String) (item : String) : Bool :=
  match slice with
  | [] => false
  | s :: rest => if s = item then true else contains rest item

mutual
/-- The body of `getTypeFromSchemaWithContext` below its nil check. -/
def getTypeOfSchema : Schema → OpenAPISpec → Bool → String
  | .mk type _ _ items _ ref _ _ _ _ _, spec, isTypesFile =>
    if ref ≠ "" then
      let refName := getRefName ref
      if isTypesFile then refName else "Types." ++ refName
    else if type = "string" then "string"
    else if type = "number" ∨ type = "integer" then "number"
    else if type = "boolean" then "boolean"
    else if type = "array" then
      let itemType := getTypeFromSchemaWithContext items spec isTypesFile
      itemType ++ "[]"
    else if type = "object" then "any"
    else "any"
termination_by structural s => s
/-- The TypeScript type text of a schema; `isTypesFile` selects the bare reference name. -/
def getTypeFromSchemaWithContext : Option Schema → OpenAPISpec → Bool → String
  | none, _, _ => "any"
  | some schema, spec, isTypesFile => getTypeOfSchema schema spec isTypesFile
termination_by structural s => s
end

/-- The usage-site rendering. -/
def getTypeFromSchema (schema : Option Schema) (spec : OpenAPISpec) : String :=
  getTypeFromSchemaWithContext schema spec false

/-- The format verb of the enum branches: the literal between double quotes. -/
def quoteV (val : EnumVal) : String := "\"" ++ val.fmtV ++ "\""

/-- The named-member loop of the enum branch, from index `i` on. -/
def enumMembersLoop (names : List String) : Nat → List EnumVal → List EnumMember → List EnumMember
  | _, [], acc => acc
  | i, val :: rest, acc =>
    enumMembersLoop names (i + 1) rest (acc ++ [{ Name := names.getD i "", Value := quoteV val }])

/-- Convert schema to TypeDef for template. -/
def schemaToTypeDef (_name : String) (schema : Schema) (spec : OpenAPISpec) : TypeDef :=
  let typeDef : TypeDef := {}
  if schema.Ref ≠ "" then
    { typeDef with IsReference := true, RefName := getRefName schema.Ref }
  else if schema.Typ = "array" ∧ schema.Items.isSome then
    { typeDef with
      IsArray := true,
      ItemType := getTypeFromSchemaWithContext schema.Items spec true }
  else if schema.Enum.length > 0 then
    if schema.XEnumVarnames.length = schema.Enum.length then
      { typeDef with IsEnum := true, EnumMembers := enumMembersLoop schema.XEnumVarnames 0 schema.Enum [] }
    else
      { typeDef with
        IsEnum := true,
        EnumValues := schema.Enum.foldl (fun acc val => acc ++ [quoteV val]) [] }
  else if schema.Typ = "object" ∨ schema.Properties.length > 0 then
    { typeDef with
      IsInterface := true,
      Properties := schema.Properties.foldl
        (fun props kv =>
          props.set kv.1
            { Typ := getTypeFromSchemaWithContext kv.2 spec true,
              Optional := !contains schema.Required kv.1 })
        [] }
  else
    { typeDef with Typ := getTypeFromSchemaWithContext (some schema) spec true }

/-! ## Reference collection -/

/-- The set write `relatedTypes[name] = true`. -/
def markRelated (relatedTypes : List String) (name : String) : List String :=
  if name ∈ relatedTypes then relatedTypes else relatedTypes ++ [name]

/-- Find types referenced by a schema; `none` when the call depth exceeds the fuel. -/
def findReferencedTypes :
    Nat → Option Schema → GoMap (Option Schema) → List String → Option (List String)
  | 0, _, _, _ => none
  | _ + 1, none, _, relatedTypes => some relatedTypes
  | fuel + 1, some schema, allSchemas, relatedTypes =>
    -- Check direct reference
    (if schema.Ref ≠ "" then
      (match allSchemas.get? (getRefName schema.Ref) with
        | some refSchema =>
          findReferencedTypes fuel refSchema allSchemas
            (markRelated relatedTypes (getRefName schema.Ref))
        | none => some relatedTypes)
     else some relatedTypes).bind fun r1 =>
    -- Check properties
    (schema.Properties.foldlM
      (fun acc kv => findReferencedTypes fuel kv.2 allSchemas acc) r1).bind fun r2 =>
    -- Check array items
    (if schema.Items.isSome then findReferencedTypes fuel schema.Items allSchemas r2
     else some r2).bind fun r3 =>
    -- Check allOf, oneOf, anyOf
    (schema.AllOf.foldlM
      (fun acc sub => findReferencedTypes fuel sub allSchemas acc) r3).bind fun r4 =>
    (schema.OneOf.foldlM
      (fun acc sub => findReferencedTypes fuel sub allSchemas acc) r4).bind fun r5 =>
    schema.AnyOf.foldlM (fun acc sub => findReferencedTypes fuel sub allSchemas acc) r5

/-- Find types referenced in a schema for type collection; `none` when the call depth
exceeds the fuel. -/
def findTypesInSchema :
    Nat → Option Schema → GoMap (Option Schema) → List String → Option (List String)
  | 0, _, _, _ => none
  | _ + 1, none, _, relatedTypes => some relatedTypes
  | fuel + 1, some schema, allSchemas, relatedTypes =>
    -- Check direct reference
    (if schema.Ref ≠ "" then
      (match allSchemas.get? (getRefName schema.Ref) with
        | some refSchema =>
          findReferencedTypes fuel refSchema allSchemas
            (markRelated relatedTypes (getRefName schema.Ref))
        | none => some relatedTypes)
     else some relatedTypes).bind fun r1 =>
    -- Check properties
    (schema.Properties.foldlM
      (fun acc kv => findTypesInSchema fuel kv.2 allSchemas acc) r1).bind fun r2 =>
    -- Check array items
    (if schema.Items.isSome then findTypesInSchema fuel schema.Items allSchemas r2
     else some r2).bind fun r3 =>
    -- Check allOf, oneOf, anyOf
    (schema.AllOf.foldlM
      (fun acc sub => findTypesInSchema fuel sub allSchemas acc) r3).bind fun r4 =>
    (schema.OneOf.foldlM
      (fun acc sub => findTypesInSchema fuel sub allSchemas acc) r4).bind fun r5 =>
    schema.AnyOf.foldlM (fun acc sub => findTypesInSchema fuel sub allSchemas acc) r5

/-! ## Identifier synthesis -/

/-- The loop body of `generateOperationID`: append the capitalised part when it is non-empty. -/
def writePart (result part : String) : String :=
  if part ≠ "" then
    if part.length > 0 then
      result ++ (Strs.toUpper (Strs.sliceTo part 1) ++ Strs.toLower (Strs.sliceFrom part 1))
    else result
  else result

/-- Generate operation ID from HTTP method and path when missing. -/
def generateOperationID (httpMethod path : String) : String :=
  let cleanPath := Strs.trimLeading path '/'
  let cleanPath := Strs.replaceAll cleanPath '/' "_"
  let cleanPath := Strs.replaceAll cleanPath '\x7b' "_"
  let cleanPath := Strs.replaceAll cleanPath '\x7d' ""
  let cleanPath := Strs.replaceAll cleanPath '-' "_"
  let cleanPath := Strs.replaceAll cleanPath '.' "_"
  let parts := Strs.split cleanPath '_'
  if parts.length > 0 then
    parts.foldl writePart (Strs.toLower httpMethod)
  else ""

/-- The path-only part of a synthesized identifier. -/
def pathSuffix (path : String) : String :=
  let cleanPath := Strs.trimLeading path '/'
  let cleanPath := Strs.replaceAll cleanPath '/' "_"
  let cleanPath := Strs.replaceAll cleanPath '\x7b' "_"
  let cleanPath := Strs.replaceAll cleanPath '\x7d' ""
  let cleanPath := Strs.replaceAll cleanPath '-' "_"
  let cleanPath := Strs.replaceAll cleanPath '.' "_"
  (Strs.split cleanPath '_').foldl writePart ""

/-! ## Concrete schemas used in the examples -/

/-- A schema that only carries a reference. -/
def refSchema (ref : String) : Schema := .mk "" "" [] none [] ref [] [] [] [] []

/-- A schema that only carries properties. -/
def propsSchema (props : GoMap (Option Schema)) : Schema :=
  .mk "" "" props none [] "" [] [] [] [] []

/-- Two named schemas that reference each other through a property. -/
def cyclicSchemas : GoMap (Option Schema) :=
  [("A", some (propsSchema [("b", some (refSchema "#/definitions/B"))])),
   ("B", some (propsSchema [("a", some (refSchema "#/definitions/A"))]))]

/-- A schema map whose only key needs sanitizing. -/
def dottedSchemas : GoMap (Option Schema) := [("pkg.Response", some Schema.zero)]

/-! ## The dispatch order of schema resolution, as specified -/

/-- The shapes a schema can resolve to.  The last three carry no flag and are told apart
by the type text: a primitive, an array of the dynamic type, and the dynamic type. -/
inductive Shape where
  | reference
  | array
  | enum
  | object
  | primitive
  | dynamicArray
  | fallback
  deriving DecidableEq, Repr

/-- The first matching case in the order reference, array, enum, object, primitive,
fallback, where the array case is a schema of type array. -/
def claimedFirstMatch (s : Schema) : Shape :=
  if s.Ref ≠ "" then .reference
  else if s.Typ = "array" then .array
  else if s.Enum ≠ [] then .enum
  else if s.Typ = "object" ∨ s.Properties.length > 0 then .object
  else if s.Typ = "string" ∨ s.Typ = "number" ∨ s.Typ = "integer" ∨ s.Typ = "boolean" then
    .primitive
  else .fallback

/-- The first matching case in the order reference, array with items, enum, object,
primitive, array without items, fallback. -/
def firstMatch (s : Schema) : Shape :=
  if s.Ref ≠ "" then .reference
  else if s.Typ = "array" ∧ s.Items.isSome then .array
  else if s.Enum ≠ [] then .enum
  else if s.Typ = "object" ∨ s.Properties.length > 0 then .object
  else if s.Typ = "string" ∨ s.Typ = "number" ∨ s.Typ = "integer" ∨ s.Typ = "boolean" then
    .primitive
  else if s.Typ = "array" then .dynamicArray
  else .fallback

/-- The type text of a primitive schema type. -/
def primitiveText (typ : String) : String :=
  if typ = "string" then "string" else if typ = "boolean" then "boolean" else "number"

/-- A type definition has a shape when exactly the flag of that shape is set; the three
flagless shapes are told apart by the type text, which is `any` for the fallback and
`any[]` for an array without items. -/
def TypeDef.hasShape (td : TypeDef) : Shape → Prop
  | .reference =>
    td.IsReference = true ∧ td.IsArray = false ∧ td.IsEnum = false ∧ td.IsInterface = false
  | .array =>
    td.IsReference = false ∧ td.IsArray = true ∧ td.IsEnum = false ∧ td.IsInterface = false
  | .enum =>
    td.IsReference = false ∧ td.IsArray = false ∧ td.IsEnum = true ∧ td.IsInterface = false
  | .object =>
    td.IsReference = false ∧ td.IsArray = false ∧ td.IsEnum = false ∧ td.IsInterface = true
  | .primitive =>
    td.IsReference = false ∧ td.IsArray = false ∧ td.IsEnum = false ∧ td.IsInterface = false ∧
      (td.Typ = "string" ∨ td.Typ = "number" ∨ td.Typ = "boolean")
  | .dynamicArray =>
    td.IsReference = false ∧ td.IsArray = false ∧ td.IsEnum = false ∧ td.IsInterface = false ∧
      td.Typ = "any[]"
  | .fallback =>
    td.IsReference = false ∧ td.IsArray = false ∧ td.IsEnum = false ∧ td.IsInterface = false ∧
      td.Typ = "any"

/-- An array schema without items that lists one enum literal. -/
def arrayEnumSchema : Schema := .mk "array" "" [] none [] "" [] [] [] [.str "a"] []

/-- An object schema with a required integer property and a nil property. -/
def petSchema : Schema :=
  .mk "object" "" [("id", some (.mk "integer" "" [] none [] "" [] [] [] [] [])), ("tag", none)]
    none ["id"] "" [] [] [] [] []

/-! ## Reference rendering, as specified -/

mutual
/-- The reference found by following `items` through nested arrays, with the number of
array levels passed; `none` when the innermost element is not a reference. -/
def innermostRefOf : Schema → Option (String × Nat)
  | .mk type _ _ items _ ref _ _ _ _ _ =>
    if ref ≠ "" then some (ref, 0)
    else if type = "array" then
      match innermostRef items with
      | some (r, levels) => some (r, levels + 1)
      | none => none
    else none
termination_by structural s => s
/-- The same on a possibly nil schema. -/
def innermostRef : Option Schema → Option (String × Nat)
  | none => none
  | some schema => innermostRefOf schema
termination_by structural s => s
end

/-- One `[]` per array level. -/
def brackets : Nat → String
  | 0 => ""
  | levels + 1 => brackets levels ++ "[]"

/-- An array of arrays of references to `Pet`. -/
def petMatrixSchema : Schema :=
  .mk "array" "" [] (some (.mk "array" "" [] (some (refSchema "#/components/schemas/Pet"))
    [] "" [] [] [] [] [])) [] "" [] [] [] [] []

/-! ## Identifier synthesis, as specified -/

/-- A lower-case ASCII letter or an ASCII digit. -/
abbrev isLowerOrDigit (c : Char) : Prop :=
  (97 ≤ c.toNat ∧ c.toNat ≤ 122) ∨ (48 ≤ c.toNat ∧ c.toNat ≤ 57)

/-- A path segment: its name and whether it is a braced placeholder. -/
structure Segment where
  name : String
  isParam : Bool

namespace Segment

/-- A non-empty run of lower-case ASCII letters and digits. -/
abbrev wellFormed (sg : Segment) : Prop :=
  sg.name.data ≠ [] ∧ ∀ c ∈ sg.name.data, isLowerOrDigit c

/-- The segment as written in the path. -/
def text (sg : Segment) : String :=
  if sg.isParam then "\x7b" ++ sg.name ++ "\x7d" else sg.name

end Segment

/-- The segments joined with `/`. -/
def slashJoin : List String → String
  | [] => ""
  | [x] => x
  | x :: y :: rest => x ++ "/" ++ slashJoin (y :: rest)

/-- The path made of the segments, with or without a leading slash. -/
def pathOfSegments (leadingSlash : Bool) (segs : List Segment) : String :=
  (if leadingSlash then "/" else "") ++ slashJoin (segs.map Segment.text)

/-- The name with its first character upper-cased. -/
def capitalize (name : String) : String :=
  Strs.toUpper (Strs.sliceTo name 1) ++ Strs.sliceFrom name 1

/-- The capitalized segment names, concatenated in path order. -/
def camelConcat : List Segment → String
  | [] => ""
  | sg :: rest => capitalize sg.name ++ camelConcat rest

/-! ## Auxiliary list forms used in the proofs -/

/-- The five replacements of `generateOperationID` on a character list. -/
def cleanL (l : List Char) : List Char :=
  Strs.replaceAllL '.' ['_'] (Strs.replaceAllL '-' ['_'] (Strs.replaceAllL '\x7d' []
    (Strs.replaceAllL '\x7b' ['_'] (Strs.replaceAllL '/' ['_'] l))))

/-- The camel-casing loop of `generateOperationID` on a cleaned character list. -/
def camelL (l : List Char) : String :=
  ((Strs.splitL '_' l).map String.mk).foldl writePart ""

/-- The cleaned form of a segment. -/
def Segment.piece (sg : Segment) : List Char :=
  if sg.isParam then '_' :: sg.name.data else sg.name.data

/-- The cleaned form of a segment list. -/
def underscoreJoin : List Segment → List Char
  | [] => []
  | [sg] => sg.piece
  | sg :: sg2 :: rest => sg.piece ++ '_' :: underscoreJoin (sg2 :: rest)

/-! ## Further `strings` helpers -/

namespace Strs

/-- Whether the text starts with the pattern. -/
def startsWithL : List Char → List Char → Bool
  | [], _ => true
  | _ :: _, [] => false
  | p :: ps, c :: cs => p == c && startsWithL ps cs

/-- The list form of `strings.Contains`. -/
def containsL (sub : List Char) : List Char → Bool
  | [] => startsWithL sub []
  | c :: cs => startsWithL sub (c :: cs) || containsL sub cs

/-- The function `strings.Contains(s, substr)`. -/
def containsStr (s substr : String) : Bool := containsL substr.data s.data

/-- The function `strings.Trim(s, cutset)` for a one-character cutset. -/
def trimBoth (s : String) (cut : Char) : String :=
  ⟨((s.data.dropWhile (· == cut)).reverse.dropWhile (· == cut)).reverse⟩

/-- The function `strings.EqualFold`. -/
def equalFold (s t : String) : Bool := toLower s == toLower t

/-- The function `strings.Join(elems, sep)`. -/
def join : List String → String → String
  | [], _ => ""
  | [x], _ => x
  | x :: y :: rest, sep => x ++ sep ++ join (y :: rest) sep

end Strs

/-! ## Method definitions -/

structure ParamDef where
  Name : String := ""
  ParamName : String := ""
  Required : Bool := false
  Typ : String := ""
  Description : String := ""
  deriving DecidableEq, Repr

structure PathParamDef where
  Name : String := ""
  ParamName : String := ""
  IsLast : Bool := false
  Typ : String := ""
  Description : String := ""
  deriving DecidableEq, Repr

structure MethodDef where
  Name : String := ""
  Params : String := ""
  ReturnType : String := ""
  MethodBody : String := ""
  Method : String := ""
  Path : String := ""
  PathTemplate : String := ""
  HasConfig : Bool := false
  HasQueryParams : Bool := false
  HasFormData : Bool := false
  HasRequestBody : Bool := false
  HasPathParams : Bool := false
  HasTypes : Bool := false
  QueryParams : List ParamDef := []
  FormParams : List ParamDef := []
  PathParams : List PathParamDef := []
  RequestBody : String := ""
  RequestBodyType : String := ""
  Description : String := ""
  Summary : String := ""
  Tags : String := ""
  HttpMethod : String := ""
  deriving DecidableEq, Repr

/-- The summary of the operation, or a fixed text. -/
def getOperationDescription (op : Operation) : String :=
  if op.Summary ≠ "" then op.Summary else "API operation"

/-- The summary of the operation, or a fixed text. -/
def getOperationSummary (op : Operation) : String :=
  if op.Summary ≠ "" then op.Summary else "API operation"

/-- The tags of the operation joined with a comma, or a fixed text. -/
def getOperationTags (op : Operation) : String :=
  if op.Tags.length > 0 then Strs.join op.Tags ", " else "API"

/-- The TypeScript type of a directly typed (Swagger 2.0) parameter. -/
def getParamTypeFromDirectType (paramType : String) : String :=
  if paramType = "string" then "string"
  else if paramType = "number" ∨ paramType = "integer" then "number"
  else if paramType = "boolean" then "boolean"
  else if paramType = "array" then "any[]"
  else "any"

/-- The TypeScript type of a parameter, from its schema or its direct type. -/
def getParamTypeString (param : Parameter) : String :=
  match param.Schema with
  | some schema =>
    if schema.Typ = "string" then "string"
    else if schema.Typ = "number" ∨ schema.Typ = "integer" then "number"
    else if schema.Typ = "boolean" then "boolean"
    else if schema.Typ = "array" then
      match schema.Items with
      | some items => getParamTypeFromDirectType items.Typ ++ "[]"
      | none => "any[]"
    else "any"
  | none =>
    if param.Typ ≠ "" then getParamTypeFromDirectType param.Typ
    else "any"

/-! ## Return type inference

A nil dereference aborts the run; the functions below return `none` for it. -/

/-- The inner loop of `generateAllOfReturnType` over `dataProperty.AllOf`: `some (some t)`
when it returns `t`, `some none` when it falls through. -/
def nestedDataLoop (spec : OpenAPISpec) : List (Option Schema) → Option (Option String)
  | [] => some none
  | none :: _ => none
  | some dataSubSchema :: rest =>
    match dataSubSchema.Properties.get? "data" with
    | some none => none
    | some (some arrayProperty) =>
      match arrayProperty.Items with
      | some items =>
        if arrayProperty.Typ = "array" ∧ items.Ref ≠ "" then
          some (some ("\x7b data: \x7b data: " ++ getTypeFromSchema (some items) spec
            ++ "[]; pagination: any \x7d; error: boolean; message: string \x7d"))
        else nestedDataLoop spec rest
      | none => nestedDataLoop spec rest
    | none => nestedDataLoop spec rest

/-- The part of the loop body of `generateAllOfReturnType` that looks at the `data`
property. -/
def dataPropertyStep (spec : OpenAPISpec) (subSchema : Schema) : Option (Option String) :=
  match subSchema.Properties.get? "data" with
  | some none => none
  | some (some dataProperty) =>
    match (if dataProperty.AllOf.length > 0 then nestedDataLoop spec dataProperty.AllOf
           else some none) with
    | none => none
    | some (some t) => some (some t)
    | some none =>
      match dataProperty.Items with
      | some items =>
        if dataProperty.Typ = "array" ∧ items.Ref ≠ "" then
          some (some (getTypeFromSchema (some items) spec ++ "[]"))
        else some none
      | none => some none
  | none => some none

/-- The part of the loop body of `generateAllOfReturnType` that looks at a direct
reference. -/
def directRefStep (spec : OpenAPISpec) (subSchema : Schema) : Option String :=
  if subSchema.Ref ≠ "" then
    let refType := getTypeFromSchema (some subSchema) spec
    if refType ≠ "any" ∧ ¬ Strs.containsStr refType "pkg_" ∧ ¬ Strs.containsStr refType "fiber_"
    then some refType
    else none
  else none

/-- Generate return type for allOf schemas. -/
def generateAllOfReturnType (spec : OpenAPISpec) : List (Option Schema) → Option String
  | [] => some "any"
  | none :: _ => none
  | some subSchema :: rest =>
    match dataPropertyStep spec subSchema with
    | none => none
    | some (some t) => some t
    | some none =>
      match directRefStep spec subSchema with
      | some t => some t
      | none => generateAllOfReturnType spec rest

/-- The loop over `response.Content`: the first schema that renders to something else
than `any`. -/
def contentLoop (spec : OpenAPISpec) : GoMap MediaTypeObject → Option String
  | [] => none
  | (_, content) :: rest =>
    if content.Schema.isSome ∧ getTypeFromSchema content.Schema spec ≠ "any" then
      some (getTypeFromSchema content.Schema spec)
    else contentLoop spec rest

/-- The body of the loop of `generateReturnType` for a success response: `some (some t)`
when it returns `t`, `some none` when it falls through. -/
def responseStep (spec : OpenAPISpec) (response : Response) : Option (Option String) :=
  match contentLoop spec response.Content with
  | some t => some (some t)
  | none =>
    match response.Schema with
    | some schema =>
      if getTypeFromSchema (some schema) spec ≠ "any" then
        some (some (getTypeFromSchema (some schema) spec))
      else if schema.AllOf.length > 0 then
        (generateAllOfReturnType spec schema.AllOf).map some
      else some none
    | none => some none

/-- The loop of `generateReturnType` over the responses in enumeration order. -/
def returnTypeLoop (spec : OpenAPISpec) : GoMap Response → Option String
  | [] => some "any"
  | (code, response) :: rest =>
    if code = "200" ∨ code = "201" then
      match responseStep spec response with
      | none => none
      | some (some t) => some t
      | some none => returnTypeLoop spec rest
    else returnTypeLoop spec rest

/-- The return type of an operation, from its success responses. -/
def generateReturnType (op : Operation) (spec : OpenAPISpec) : Option String :=
  returnTypeLoop spec op.Responses

/-! ## Operation classification -/

/-- The resource an operation is filed under: its first tag, or the first part of the
trimmed path. -/
def resourceNameOf (op : Operation) (path : String) : String :=
  match op.Tags with
  | tag :: _ => tag
  | [] =>
    match Strs.split (Strs.trimBoth path '/') '/' with
    | part :: _ => part
    | [] => "default"

/-- The body of the parameter loop of `groupOperationsByTag`. -/
def processParam (spec : OpenAPISpec) (methodDef : MethodDef) (param : Parameter) : MethodDef :=
  if param.In = "query" then
    { methodDef with
      HasQueryParams := true,
      QueryParams := methodDef.QueryParams ++
        [{ Name := param.Name, Typ := getParamTypeString param, Required := param.Required,
           Description := param.Description }] }
  else if param.In = "path" then
    { methodDef with
      HasPathParams := true,
      PathParams := methodDef.PathParams ++
        [{ Name := param.Name, Typ := getParamTypeString param,
           Description := param.Description }] }
  else if param.In = "body" then
    { methodDef with
      HasRequestBody := true,
      RequestBodyType :=
        match param.Schema with
        | some schema => getTypeFromSchema (some schema) spec
        | none => "any" }
  else methodDef

/-- The step of `groupOperationsByTag` that handles an OpenAPI 3.0 request body. -/
def applyRequestBody (spec : OpenAPISpec) (requestBody : Option RequestBody)
    (methodDef : MethodDef) : MethodDef :=
  match requestBody with
  | some body =>
    if ¬ methodDef.HasRequestBody then
      { methodDef with
        HasRequestBody := true,
        RequestBodyType :=
          match body.Content.get? "application/json" with
          | some content =>
            (match content.Schema with
              | some schema => getTypeFromSchema (some schema) spec
              | none => "any")
          | none => "any" }
    else methodDef
  | none => methodDef

/-- The method definition `groupOperationsByTag` builds for an operation whose identifier
is already set; `none` when the return type inference aborts. -/
def buildMethodDef (spec : OpenAPISpec) (methodName path : String) (op : Operation) :
    Option MethodDef :=
  match generateReturnType op spec with
  | none => none
  | some returnType =>
    let methodDef : MethodDef :=
      { Name := op.OperationID,
        HttpMethod := methodName,
        Path := path,
        PathTemplate := path,
        Method := Strs.toLower methodName,
        ReturnType := returnType,
        Description := getOperationDescription op,
        Summary := getOperationSummary op,
        Tags := getOperationTags op,
        HasQueryParams := false,
        HasPathParams := false,
        HasRequestBody := false,
        QueryParams := [],
        PathParams := [],
        RequestBodyType := "any" }
    let methodDef := op.Parameters.foldl (processParam spec) methodDef
    some (applyRequestBody spec op.RequestBody methodDef)

/-- The operation after the step "generate operationId if missing". -/
def withOperationID (methodName path : String) (op : Operation) : Operation :=
  if op.OperationID = "" then { op with OperationID := generateOperationID methodName path }
  else op

/-- The append `resources[resourceName] = append(resources[resourceName], methodDef)`. -/
def fileUnder (resources : GoMap (List MethodDef)) (resourceName : String)
    (methodDef : MethodDef) : GoMap (List MethodDef) :=
  resources.set resourceName ((resources.get? resourceName).getD [] ++ [methodDef])

/-- The body of the method loop of `groupOperationsByTag`: the operation as it is left in
the document and the resources after it. -/
def processMethod (spec : OpenAPISpec) (path : String) (resources : GoMap (List MethodDef))
    (methodName : String) (operation : Option Operation) :
    Option (Option Operation × GoMap (List MethodDef)) :=
  match operation with
  | none => some (none, resources)
  | some op =>
    match buildMethodDef spec methodName path (withOperationID methodName path op) with
    | none => none
    | some methodDef =>
      some (some (withOperationID methodName path op),
        fileUnder resources (resourceNameOf (withOperationID methodName path op) path) methodDef)

/-- The body of the path loop of `groupOperationsByTag`: GET, POST, PUT, DELETE, PATCH in
this order. -/
def processPathItem (spec : OpenAPISpec) (path : String) (pathItem : PathItem)
    (resources : GoMap (List MethodDef)) : Option (PathItem × GoMap (List MethodDef)) :=
  (processMethod spec path resources "GET" pathItem.Get).bind fun r1 =>
  (processMethod spec path r1.2 "POST" pathItem.Post).bind fun r2 =>
  (processMethod spec path r2.2 "PUT" pathItem.Put).bind fun r3 =>
  (processMethod spec path r3.2 "DELETE" pathItem.Delete).bind fun r4 =>
  (processMethod spec path r4.2 "PATCH" pathItem.Patch).bind fun r5 =>
  some ({ Get := r1.1, Post := r2.1, Put := r3.1, Delete := r4.1, Patch := r5.1 }, r5.2)

/-- The path loop of `groupOperationsByTag` from a given state. -/
def groupLoop (spec : OpenAPISpec) :
    GoMap PathItem → GoMap PathItem × GoMap (List MethodDef) →
      Option (GoMap PathItem × GoMap (List MethodDef))
  | [], state => some state
  | (path, pathItem) :: rest, state =>
    (processPathItem spec path pathItem state.2).bind fun r =>
    groupLoop spec rest (state.1 ++ [(path, r.1)], r.2)

/-- Group operations by tag/resource.  The result is the document as the function leaves
it (missing identifiers are written into the operations) and the resources; `none` when
the run aborts on a nil dereference. -/
def groupOperationsByTag (spec : OpenAPISpec) :
    Option (OpenAPISpec × GoMap (List MethodDef)) :=
  (groupLoop spec spec.Paths ([], [])).map fun r => ({ spec with Paths := r.1 }, r.2)

/-- The defined operations of a document in processing order: path, method name and
operation. -/
def PathItem.methods (pathItem : PathItem) : List (String × Option Operation) :=
  [("GET", pathItem.Get), ("POST", pathItem.Post), ("PUT", pathItem.Put),
   ("DELETE", pathItem.Delete), ("PATCH", pathItem.Patch)]

/-! ## Auxiliary forms of the grouping loop used in the proofs -/

/-- The resources after one defined operation. -/
def fileOp (spec : OpenAPISpec) (resources : GoMap (List MethodDef))
    (entry : String × String × Operation) : Option (GoMap (List MethodDef)) :=
  (buildMethodDef spec entry.2.1 entry.1 (withOperationID entry.2.1 entry.1 entry.2.2)).map
    (fileUnder resources (resourceNameOf entry.2.2 entry.1))

/-- The resources after one method slot of a path item. -/
def stepMethod (spec : OpenAPISpec) (path : String) (resources : GoMap (List MethodDef))
    (method : String × Option Operation) : Option (GoMap (List MethodDef)) :=
  match method.2 with
  | none => some resources
  | some op => fileOp spec resources (path, method.1, op)

/-- The defined operations of a path item, in processing order. -/
def definedOps (path : String) (pathItem : PathItem) : List (String × String × Operation) :=
  pathItem.methods.filterMap fun method => method.2.map fun op => (path, method.1, op)

/-- The defined operations of a path map, in processing order. -/
def operationsOf : GoMap PathItem → List (String × String × Operation)
  | [] => []
  | (path, pathItem) :: rest => definedOps path pathItem ++ operationsOf rest

/-- The method definition is in the list stored under the key. -/
def Filed (resources : GoMap (List MethodDef)) (key : String) (methodDef : MethodDef) : Prop :=
  ∃ ms, resources.get? key = some ms ∧ methodDef ∈ ms

/-! ## Parameter buckets and request body, as specified -/

/-- The entry of `QueryParams` for a parameter. -/
def queryParamOf (param : Parameter) : ParamDef :=
  { Name := param.Name, Typ := getParamTypeString param, Required := param.Required,
    Description := param.Description }

/-- The entry of `PathParams` for a parameter. -/
def pathParamOf (param : Parameter) : PathParamDef :=
  { Name := param.Name, Typ := getParamTypeString param, Description := param.Description }

/-- The request body type derived from a body parameter. -/
def bodyParamType (spec : OpenAPISpec) (param : Parameter) : String :=
  match param.Schema with
  | some schema => getTypeFromSchema (some schema) spec
  | none => "any"

/-- The request body type derived from the `application/json` media type of a request
body. -/
def requestBodyJsonType (spec : OpenAPISpec) (body : RequestBody) : String :=
  match body.Content.get? "application/json" with
  | some content =>
    (match content.Schema with
      | some schema => getTypeFromSchema (some schema) spec
      | none => "any")
  | none => "any"

/-! ## Documents used in the examples -/

/-- Two operations whose tags differ only in case. -/
def caseDoc : OpenAPISpec :=
  { Paths := [("/pets", { Get := some { Tags := ["Pets"] }, Post := some { Tags := ["pets"] } })] }

/-- Untagged operations on the root path and on the empty path, and one operation that
declares its identifier. -/
def rootDoc : OpenAPISpec :=
  { Paths := [("/", { Get := some {} }), ("", { Post := some {} }),
      ("/x", { Put := some { OperationID := "putIt" } })] }

/-- An operation with query, path, header and body parameters and a request body. -/
def searchOp : Operation :=
  { Parameters :=
      [{ Name := "q", In := "query", Required := true, Typ := "string" },
       { Name := "id", In := "path", Schema := some (.mk "integer" "" [] none [] "" [] [] [] [] []) },
       { Name := "X-Trace", In := "header", Typ := "string" },
       { Name := "payload", In := "body", Schema := some (refSchema "#/definitions/Pet") },
       { Name := "limit", In := "query", Typ := "integer" }],
    RequestBody := some
      { Content := [("application/json", { Schema := some (refSchema "#/definitions/Order") })] } }

/-- A document whose only operation is `searchOp`, on `//orders//{id}`. -/
def searchDoc : OpenAPISpec :=
  { Paths := [("//orders//{id}", { Post := some searchOp })] }

/-- An operation without body parameter and with a request body. -/
def createOp : Operation :=
  { Tags := ["Orders", "Admin"],
    RequestBody := some
      { Content := [("application/json", { Schema := some (refSchema "#/definitions/Order") })] } }

/-- A document whose only operation is `createOp`. -/
def createDoc : OpenAPISpec :=
  { Paths := [("/orders", { Post := some createOp })] }

/-- A response with a direct schema of the given primitive type. -/
def typedResponse (type : String) : Response :=
  { Schema := some (.mk type "" [] none [] "" [] [] [] [] []) }

/-- An operation whose responses are enumerated with `201` first. -/
def createdFirstOp : Operation :=
  { Responses := [("201", typedResponse "string"), ("200", typedResponse "number")] }

/-- The same operation with its responses enumerated with `200` first. -/
def okFirstOp : Operation :=
  { Responses := [("200", typedResponse "number"), ("201", typedResponse "string")] }

/-- The paginated envelope around an array of references. -/
def envelopeSchema (ref : String) : Schema :=
  .mk "" "" [] none [] ""
    [some (propsSchema [("data", some (.mk "" "" [] none [] ""
      [some (propsSchema [("data", some (.mk "array" "" [] (some (refSchema ref)) [] ""
        [] [] [] [] []))])] [] [] [] []))])]
    [] [] [] []

/-- An operation whose only response is the envelope around `Pet`. -/
def listPetsOp : Operation :=
  { Responses := [("404", {}), ("200", { Schema := some (envelopeSchema "#/definitions/Pet") })] }

/-- An operation whose success response is a direct reference to `pkg.Response`. -/
def degenerateOp : Operation :=
  { Responses := [("200", { Schema := some (refSchema "#/definitions/pkg.Response") })] }

/-- An operation whose success response composes only a reference to `pkg.Response`. -/
def composedDegenerateOp : Operation :=
  { Responses := [("200", { Schema := some (.mk "" "" [] none [] ""
      [some (refSchema "#/definitions/pkg.Response")] [] [] [] []) })] }

/-! ## Resource partition -/

/-- The schema map of `filterTypesForResource`: the component schemas, then the
definitions. -/
def mergeSchemas (spec : OpenAPISpec) : GoMap (Option Schema) :=
  let allSchemas := spec.Components.Schemas.foldl (fun m kv => GoMap.set m kv.1 kv.2) []
  spec.Definitions.foldl (fun m kv => GoMap.set m kv.1 kv.2) allSchemas

/-- The call `findTypesInSchema(schema, ...)` behind its guard `schema != nil`. -/
def collectSchema (fuel : Nat) (allSchemas : GoMap (Option Schema)) (schema : Option Schema)
    (relatedTypes : List String) : Option (List String) :=
  if schema.isSome then findTypesInSchema fuel schema allSchemas relatedTypes
  else some relatedTypes

/-- The loop "find types in parameters". -/
def collectParams (fuel : Nat) (allSchemas : GoMap (Option Schema))
    (params : List Parameter) (relatedTypes : List String) : Option (List String) :=
  params.foldlM (fun acc param => collectSchema fuel allSchemas param.Schema acc) relatedTypes

/-- The loop over the media types of a request body or of a response. -/
def collectContent (fuel : Nat) (allSchemas : GoMap (Option Schema))
    (content : GoMap MediaTypeObject) (relatedTypes : List String) : Option (List String) :=
  content.foldlM (fun acc kv => collectSchema fuel allSchemas kv.2.Schema acc) relatedTypes

/-- The loop "find types in responses". -/
def collectResponses (fuel : Nat) (allSchemas : GoMap (Option Schema))
    (responses : GoMap Response) (relatedTypes : List String) : Option (List String) :=
  responses.foldlM
    (fun acc kv =>
      (collectContent fuel allSchemas kv.2.Content acc).bind fun acc2 =>
      collectSchema fuel allSchemas kv.2.Schema acc2)
    relatedTypes

/-- The body of the method loop of `filterTypesForResource`. -/
def collectOperation (fuel : Nat) (allSchemas : GoMap (Option Schema))
    (resourceName path : String) (operation : Option Operation) (relatedTypes : List String) :
    Option (List String) :=
  match operation with
  | none => some relatedTypes
  | some op =>
    if Strs.equalFold (resourceNameOf op path) resourceName then
      (collectParams fuel allSchemas op.Parameters relatedTypes).bind fun r1 =>
      (match op.RequestBody with
        | some body => collectContent fuel allSchemas body.Content r1
        | none => some r1).bind fun r2 =>
      collectResponses fuel allSchemas op.Responses r2
    else some relatedTypes

/-- The path loop of `filterTypesForResource`. -/
def collectPaths (fuel : Nat) (allSchemas : GoMap (Option Schema)) (resourceName : String)
    (paths : GoMap PathItem) (relatedTypes : List String) : Option (List String) :=
  paths.foldlM
    (fun acc entry =>
      entry.2.methods.foldlM
        (fun acc2 method => collectOperation fuel allSchemas resourceName entry.1 method.2 acc2)
        acc)
    relatedTypes

/-- The loop "also find types that directly match the resource name". -/
def collectNamed (fuel : Nat) (allSchemas : GoMap (Option Schema)) (resourceName : String)
    (entries : GoMap (Option Schema)) (relatedTypes : List String) : Option (List String) :=
  entries.foldlM
    (fun acc kv =>
      if Strs.containsStr (Strs.toLower kv.1) (Strs.toLower resourceName) ||
          Strs.equalFold kv.1 resourceName then
        findReferencedTypes fuel kv.2 allSchemas (markRelated acc kv.1)
      else some acc)
    relatedTypes

/-- The loop "convert all related types to TypeDef"; `none` when a related schema is nil,
which `schemaToTypeDef` dereferences. -/
def convertTypes (spec : OpenAPISpec) (allSchemas : GoMap (Option Schema))
    (relatedTypes : List String) : Option (GoMap TypeDef) :=
  relatedTypes.foldlM
    (fun types name =>
      match allSchemas.get? name with
      | some (some schema) =>
        some (GoMap.set types (sanitizeTypeName name) (schemaToTypeDef name schema spec))
      | some none => none
      | none => some types)
    []

/-- Filter types for a specific resource; `none` when a collector call exceeds the fuel or
a nil schema is dereferenced. -/
def filterTypesForResource (fuel : Nat) (spec : OpenAPISpec) (resourceName : String) :
    Option (GoMap TypeDef) :=
  (collectPaths fuel (mergeSchemas spec) resourceName spec.Paths []).bind fun r1 =>
  (collectNamed fuel (mergeSchemas spec) resourceName (mergeSchemas spec) r1).bind fun r2 =>
  convertTypes spec (mergeSchemas spec) r2

/-! ## The reference graph -/

mutual
/-- The references that occur in a schema at any depth. -/
def Schema.refs : Schema → List String
  | .mk _ _ properties items _ ref allOf oneOf anyOf _ _ =>
    ref :: (refsOfProps properties ++ refsOfOption items ++ refsOfList allOf
      ++ refsOfList oneOf ++ refsOfList anyOf)
termination_by structural s => s
/-- The references of a possibly nil schema. -/
def refsOfOption : Option Schema → List String
  | none => []
  | some schema => schema.refs
termination_by structural s => s
/-- The references of a schema slice. -/
def refsOfList : List (Option Schema) → List String
  | [] => []
  | schema :: rest => refsOfOption schema ++ refsOfList rest
termination_by structural l => l
/-- The references of a property map. -/
def refsOfProps : List (String × Option Schema) → List String
  | [] => []
  | (_, schema) :: rest => refsOfOption schema ++ refsOfProps rest
termination_by structural l => l
end

/-- The schema a reference names: the key given by the text after its last `/`. -/
def refTarget (ref : String) : String :=
  Strs.lastOr (Strs.split ref '/')

/-- The schema graph is acyclic: a rank on the names decreases along every reference from
a named schema to the named schema it refers to. -/
def Acyclic (allSchemas : GoMap (Option Schema)) : Prop :=
  ∃ rank : String → Nat, ∀ name schema, allSchemas.get? name = some (some schema) →
    ∀ ref ∈ schema.refs, ref ≠ "" → (allSchemas.get? (refTarget ref)).isSome →
      rank (refTarget ref) < rank name

/-- The graph that the collector walks has no cycle: a rank on the names decreases along
every step from a named schema to the entry that `findReferencedTypes` looks up for one of
its references, which is the entry under the sanitized name `getRefName`. -/
def LookupAcyclic (allSchemas : GoMap (Option Schema)) : Prop :=
  ∃ rank : String → Nat, ∀ name schema, allSchemas.get? name = some (some schema) →
    ∀ ref ∈ schema.refs, ref ≠ "" → (allSchemas.get? (getRefName ref)).isSome →
      rank (getRefName ref) < rank name

/-- The name holds none of the characters that `sanitizeTypeName` replaces. -/
def plainName (name : String) : Bool :=
  name.data.all fun c => c != '.' && c != '-' && c != ' '

/-- Every reference in the list names a schema with a plain name. -/
def PlainRefs (refs : List String) : Prop :=
  ∀ ref ∈ refs, plainName (refTarget ref) = true

/-- The references that occur in the named schemas of a schema map. -/
def schemaRefs (allSchemas : GoMap (Option Schema)) : List String :=
  (allSchemas.map fun kv => refsOfOption kv.2).flatten

/-- Two named schemas whose names differ only in the character that sanitizing replaces;
the second refers to the first. -/
def dottedPair : GoMap (Option Schema) :=
  [("a.b", some (propsSchema [])),
   ("a_b", some (propsSchema [("x", some (refSchema "#/definitions/a.b"))]))]

/-- A rank on the names of `dottedPair` that decreases along its reference. -/
def dottedRank (name : String) : Nat :=
  if name = "a_b" then 1 else 0

/-- A collector step returns for every large enough fuel, on every accumulated set, and
only adds names. -/
def Terminates (f : Nat → List String → Option (List String)) : Prop :=
  ∃ N, ∀ fuel, N ≤ fuel → ∀ R, ∃ R2, f fuel R = some R2 ∧ R ⊆ R2

/-- A response whose direct schema is a reference. -/
def typedRefResponse (ref : String) : Response :=
  { Schema := some (refSchema ref) }

/-- A document with an unreferenced schema and a schema that references another. -/
def shopDoc : OpenAPISpec :=
  { Paths := [("/orders/{id}",
      { Get := some { Responses := [("200", typedRefResponse "#/definitions/Order")] } })],
    Components := { Schemas := [("OrderItem", some (propsSchema []))] },
    Definitions :=
      [("Order", some (propsSchema [("items", some (.mk "array" "" []
          (some (refSchema "#/definitions/OrderItem")) [] "" [] [] [] [] []))])),
       ("OrdersPage", some (propsSchema [("data", some (refSchema "#/definitions/Order"))])),
       ("Pet", some (propsSchema []))] }

/-- A rank on the schema names of `shopDoc` that decreases along its references. -/
def shopRank (name : String) : Nat :=
  if name = "OrdersPage" then 2 else if name = "Order" then 1 else 0

/-! ## Configuration and index lists -/

structure Config where
  InputPath : String := ""
  OutputPath : String := ""
  Language : String := ""
  SplitFiles : Bool := false
  UseAxios : Bool := false
  BaseURL : String := ""
  Timeout : String := ""
  AuthType : String := ""
  WithInterceptors : Bool := false

/-- The step "determine base URL" of `generateConfigFiles`: the value handed to the
constants template. -/
def determineBaseURL (spec : OpenAPISpec) (config : Config) : String :=
  let baseURL := config.BaseURL
  let baseURL :=
    if baseURL = "" ∧ spec.Servers.length > 0 then
      (match spec.Servers with
        | server :: _ => server.URL
        | [] => baseURL)
    else baseURL
  if baseURL = "" then "https://api.example.com" else baseURL

/-- Convert string to TitleCase. -/
def toTitleCase (s : String) : String :=
  if s.length = 0 then s
  else Strs.toUpper (Strs.sliceTo s 1) ++ Strs.sliceFrom s 1

/-- An entry of the resource list of the main index. -/
structure ResourceEntry where
  ResourceName : String
  ResourceNameLower : String
  deriving DecidableEq, Repr

/-- The list form of the string comparison `a <= b`: lexicographic on the characters. -/
def lessEqL : List Char → List Char → Bool
  | [], _ => true
  | _ :: _, [] => false
  | a :: as, b :: bs => decide (a.toNat < b.toNat) || (decide (a.toNat = b.toNat) && lessEqL as bs)

/-- The string comparison `a <= b`. -/
def lessEq (a b : String) : Prop := lessEqL a.data b.data = true

instance lessEqDecidable (a b : String) : Decidable (lessEq a b) :=
  inferInstanceAs (Decidable (lessEqL a.data b.data = true))

/-- The library call `sort.Strings`, which leaves the slice in ascending order. -/
def sortStrings (names : List String) : List String :=
  names.insertionSort lessEq

/-- The library call `sort.Slice` with the comparison of `generateMainIndex`, which leaves
the slice in ascending order of `ResourceName`. -/
def sortByResourceName (entries : List ResourceEntry) : List ResourceEntry :=
  entries.insertionSort (fun a b => lessEq a.ResourceName b.ResourceName)

/-- The resource list `generateMainIndex` hands to its template, from the resources in
enumeration order. -/
def mainIndexResources (resources : GoMap (List MethodDef)) : List ResourceEntry :=
  sortByResourceName (resources.map fun entry =>
    { ResourceName := toTitleCase entry.1, ResourceNameLower := Strs.toLower entry.1 })

/-- The loop of `generateTypesIndexWithFiles` that keeps the resources whose type file has
content; `none` when `filterTypesForResource` does not return. -/
def typedResourceNames (fuel : Nat) (spec : OpenAPISpec) :
    GoMap (List MethodDef) → Option (List String)
  | [] => some []
  | (resourceName, _) :: rest =>
    (filterTypesForResource fuel spec resourceName).bind fun resourceTypes =>
    (typedResourceNames fuel spec rest).map fun names =>
      if resourceTypes.length > 0 then Strs.toLower resourceName :: names else names

/-- The export list `generateTypesIndexWithFiles` writes, from the resources in
enumeration order. -/
def typesIndexNames (fuel : Nat) (spec : OpenAPISpec) (resources : GoMap (List MethodDef)) :
    Option (List String) :=
  (typedResourceNames fuel spec resources).map sortStrings

/-! ## Identifiers, as specified -/

/-- A character that may start a TypeScript identifier: a letter, `_` or `$`. -/
def isIdentStart (c : Char) : Bool := c.isAlpha || c == '_' || c == '$'

/-- A character that may continue a TypeScript identifier: a letter, a digit, `_` or `$`. -/
def isIdentPart (c : Char) : Bool := c.isAlphanum || c == '_' || c == '$'

/-- A valid TypeScript identifier. -/
def validIdentifier (s : String) : Bool :=
  match s.data with
  | [] => false
  | c :: rest => isIdentStart c && rest.all isIdentPart

/-! ## Documents used in the examples of the configuration and of the identifiers -/

/-- A Swagger 2.0 document that declares a host and no server. -/
def hostDoc : OpenAPISpec :=
  { Swagger := "2.0", Host := "api.pets.io", BasePath := "/v1" }

/-- An array parameter in the Swagger 2.0 style. -/
def tagsParamV2 : Parameter := { Name := "tags", In := "query", Typ := "array" }

/-- The same parameter in the OpenAPI 3.0 style. -/
def tagsParamV3 : Parameter :=
  { Name := "tags", In := "query", Schema := some (.mk "array" "" [] none [] "" [] [] [] [] []) }

/-! ## The document after classification, as amended -/

/-- The path item with the missing identifiers of its operations written. -/
def fillOperationIDs (path : String) (pathItem : PathItem) : PathItem :=
  { Get := pathItem.Get.map (withOperationID "GET" path),
    Post := pathItem.Post.map (withOperationID "POST" path),
    Put := pathItem.Put.map (withOperationID "PUT" path),
    Delete := pathItem.Delete.map (withOperationID "DELETE" path),
    Patch := pathItem.Patch.map (withOperationID "PATCH" path) }

/-- The identifiers of the GET operations of a document, by path. -/
def getOperationIDs (spec : OpenAPISpec) : List (String × Option String) :=
  spec.Paths.map fun entry => (entry.1, entry.2.Get.map Operation.OperationID)


/-! ## Reachability in the reference graph -/

/-- The names reachable from a list of references: a non-empty reference reaches the
named schema it refers to, and so do the references that occur in a reached schema. -/
inductive Reach (allSchemas : GoMap (Option Schema)) (roots : List String) : String → Prop
  | root (ref : String) : ref ∈ roots → ref ≠ "" →
      (allSchemas.get? (refTarget ref)).isSome → Reach allSchemas roots (refTarget ref)
  | step (name : String) (schema : Schema) (ref : String) : Reach allSchemas roots name →
      allSchemas.get? name = some (some schema) → ref ∈ schema.refs → ref ≠ "" →
      (allSchemas.get? (refTarget ref)).isSome → Reach allSchemas roots (refTarget ref)

/-- The references that occur in the media types of a content map. -/
def contentRefs (content : GoMap MediaTypeObject) : List String :=
  (content.map fun kv => refsOfOption kv.2.Schema).flatten

/-- The references that occur in the parameter schemas, the request body schemas and the
response schemas of an operation. -/
def operationRefs (op : Operation) : List String :=
  (op.Parameters.map fun param => refsOfOption param.Schema).flatten
    ++ (match op.RequestBody with
        | some body => contentRefs body.Content
        | none => [])
    ++ (op.Responses.map fun kv => contentRefs kv.2.Content ++ refsOfOption kv.2.Schema).flatten

/-- The test of the loop "also find types that directly match the resource name". -/
def nameMatches (name resourceName : String) : Bool :=
  Strs.containsStr (Strs.toLower name) (Strs.toLower resourceName) ||
    Strs.equalFold name resourceName

/-- The schema names related to a resource: those reachable from a schema of an operation
whose resource name equals the resource under case folding, the named schemas whose name
matches the resource, and those reachable from such a schema. -/
def Related (spec : OpenAPISpec) (resourceName name : String) : Prop :=
  (∃ path pathItem methodName op,
    (path, pathItem) ∈ spec.Paths ∧ (methodName, some op) ∈ pathItem.methods ∧
    Strs.equalFold (resourceNameOf op path) resourceName = true ∧
    Reach (mergeSchemas spec) (operationRefs op) name) ∨
  (∃ key schema,
    (key, schema) ∈ mergeSchemas spec ∧ nameMatches key resourceName = true ∧
    (name = key ∨ Reach (mergeSchemas spec) (refsOfOption schema) name))

/-- An operation tagged `Pets` that responds with a `Pet`. -/
def taggedPetsOp : Operation :=
  { Tags := ["Pets"], Responses := [("200", typedRefResponse "#/definitions/Pet")] }

/-- An untagged operation that responds with an `Order`. -/
def untaggedOrderOp : Operation :=
  { Responses := [("200", typedRefResponse "#/definitions/Order")] }

/-- Two operations tagged `Pets`, one untagged operation on `/orders/{id}`, and a schema
`OrdersPage` that no operation references. -/
def partitionDoc : OpenAPISpec :=
  { Paths :=
      [("/pets", { Get := some taggedPetsOp, Post := some taggedPetsOp }),
       ("/orders/{id}", { Get := some untaggedOrderOp })],
    Definitions :=
      [("Order", some (propsSchema [])),
       ("OrdersPage", some (propsSchema [("data", some (refSchema "#/definitions/Order"))])),
       ("Pet", some (propsSchema []))] }

/-- The references that occur in the schemas of the defined operations of a document. -/
def pathRefs (paths : GoMap PathItem) : List String :=
  ((operationsOf paths).map fun entry => operationRefs entry.2.2).flatten

/-- The references that occur in a document: in its named schemas and in the schemas of
its operations. -/
def documentRefs (spec : OpenAPISpec) : List String :=
  schemaRefs (mergeSchemas spec) ++ pathRefs spec.Paths

/-- A document without operations whose definitions are `dottedPair`. -/
def dottedDoc : OpenAPISpec :=
  { Definitions := dottedPair }

/-- An untagged operation on the root path in a document whose definitions are
`dottedPair`. -/
def rootDottedDoc : OpenAPISpec :=
  { Paths := [("/", { Get := some {} })], Definitions := dottedPair }
/-! # Theorems -/

/-! ## Lemmas on identifier synthesis -/

theorem splitL_ne_nil (sep : Char) (l : List Char) : Strs.splitL sep l ≠ [] := by
  cases l with
  | nil => simp [Strs.splitL]
  | cons c cs =>
    simp only [Strs.splitL]
    split
    · simp
    · split <;> simp

theorem writePart_append (a r part : String) :
    writePart (a ++ r) part = a ++ writePart r part := by
  unfold writePart
  split
  · split
    · rw [String.append_assoc]
    · rfl
  · rfl

theorem foldl_writePart_append (parts : List String) (a r : String) :
    parts.foldl writePart (a ++ r) = a ++ parts.foldl writePart r := by
  induction parts generalizing r with
  | nil => rfl
  | cons p ps ih => simp only [List.foldl_cons, writePart_append, ih]

theorem generateOperationID_eq (m path : String) :
    generateOperationID m path = Strs.toLower m ++ pathSuffix path := by
  unfold generateOperationID pathSuffix
  simp only
  rw [if_pos]
  · have h := foldl_writePart_append
      (Strs.split (Strs.replaceAll (Strs.replaceAll (Strs.replaceAll (Strs.replaceAll
        (Strs.replaceAll (Strs.trimLeading path '/') '/' "_") '\x7b' "_") '\x7d' "") '-' "_")
        '.' "_") '_') (Strs.toLower m) ""
    simpa using h
  · simp only [Strs.split, List.length_map, gt_iff_lt, List.length_pos]
    exact splitL_ne_nil _ _

/-! ## Reference collection on the cyclic map -/

theorem findReferencedTypes_ref_none (fuel : Nat) (s : Schema) (t : Option Schema)
    (M : GoMap (Option Schema)) (R : List String) (hr : s.Ref ≠ "")
    (hk : M.get? (getRefName s.Ref) = some t)
    (hn : findReferencedTypes fuel t M (markRelated R (getRefName s.Ref)) = none) :
    findReferencedTypes (fuel + 1) (some s) M R = none := by
  simp only [findReferencedTypes, hr, hk, hn, ne_eq, not_false_eq_true, if_true, Option.none_bind]

theorem findReferencedTypes_prop_none (fuel : Nat) (s : Schema) (k : String) (p : Option Schema)
    (rest : GoMap (Option Schema)) (M : GoMap (Option Schema)) (R : List String)
    (hr : s.Ref = "") (hp : s.Properties = (k, p) :: rest)
    (hn : findReferencedTypes fuel p M R = none) :
    findReferencedTypes (fuel + 1) (some s) M R = none := by
  simp only [findReferencedTypes, hr, hp, hn, ne_eq, not_true_eq_false, if_false,
    List.foldlM_cons, Option.some_bind, Option.none_bind, Option.bind_eq_bind]

theorem findTypesInSchema_prop_none (fuel : Nat) (s : Schema) (k : String) (p : Option Schema)
    (rest : GoMap (Option Schema)) (M : GoMap (Option Schema)) (R : List String)
    (hr : s.Ref = "") (hp : s.Properties = (k, p) :: rest)
    (hn : findTypesInSchema fuel p M R = none) :
    findTypesInSchema (fuel + 1) (some s) M R = none := by
  simp only [findTypesInSchema, hr, hp, hn, ne_eq, not_true_eq_false, if_false,
    List.foldlM_cons, Option.some_bind, Option.none_bind, Option.bind_eq_bind]

theorem findTypesInSchema_ref_none (fuel : Nat) (s : Schema) (t : Option Schema)
    (M : GoMap (Option Schema)) (R : List String) (hr : s.Ref ≠ "")
    (hk : M.get? (getRefName s.Ref) = some t)
    (hn : findReferencedTypes fuel t M (markRelated R (getRefName s.Ref)) = none) :
    findTypesInSchema (fuel + 1) (some s) M R = none := by
  simp only [findTypesInSchema, hr, hk, hn, ne_eq, not_false_eq_true, if_true, Option.none_bind]

theorem findReferencedTypes_cyclic_none (fuel : Nat) :
    ∀ R : List String,
      findReferencedTypes fuel (some (propsSchema [("b", some (refSchema "#/definitions/B"))]))
          cyclicSchemas R = none ∧
      findReferencedTypes fuel (some (refSchema "#/definitions/B")) cyclicSchemas R = none ∧
      findReferencedTypes fuel (some (propsSchema [("a", some (refSchema "#/definitions/A"))]))
          cyclicSchemas R = none ∧
      findReferencedTypes fuel (some (refSchema "#/definitions/A")) cyclicSchemas R = none := by
  induction fuel with
  | zero => intro R; simp [findReferencedTypes]
  | succ n ih =>
    intro R
    refine ⟨?_, ?_, ?_, ?_⟩
    · exact findReferencedTypes_prop_none n _ "b" _ [] _ R rfl rfl (ih R).2.1
    · exact findReferencedTypes_ref_none n (refSchema "#/definitions/B") _ _ R (by decide)
        (by rfl) (ih _).2.2.1
    · exact findReferencedTypes_prop_none n _ "a" _ [] _ R rfl rfl (ih R).2.2.2
    · exact findReferencedTypes_ref_none n (refSchema "#/definitions/A") _ _ R (by decide)
        (by rfl) (ih _).1

theorem findTypesInSchema_cyclic_none (fuel : Nat) (R : List String) :
    findTypesInSchema fuel (some (propsSchema [("b", some (refSchema "#/definitions/B"))]))
      cyclicSchemas R = none := by
  cases fuel with
  | zero => simp [findTypesInSchema]
  | succ n =>
    apply findTypesInSchema_prop_none n (propsSchema [("b", some (refSchema "#/definitions/B"))]) "b" _ [] _ R rfl rfl
    cases n with
    | zero => simp [findTypesInSchema]
    | succ k =>
      exact findTypesInSchema_ref_none k (refSchema "#/definitions/B") _ _ R (by decide)
        (by rfl) (findReferencedTypes_cyclic_none k _).2.2.1

/-- C1 (the code diverges from the claim): on the map where schema `A` holds a property
referencing `B` and `B` a property referencing `A`, neither `findReferencedTypes` nor
`findTypesInSchema` started on `A` returns, whatever call depth is allowed and whatever set
has been accumulated; there is no check of the accumulated set before recursing. -/
theorem collectReferences_cycle_never_returns (fuel : Nat) (R : List String) :
    cyclicSchemas.get? "A" = some (some (propsSchema [("b", some (refSchema "#/definitions/B"))])) ∧
    findReferencedTypes fuel (some (propsSchema [("b", some (refSchema "#/definitions/B"))]))
      cyclicSchemas R = none ∧
    findTypesInSchema fuel (some (propsSchema [("b", some (refSchema "#/definitions/B"))]))
      cyclicSchemas R = none :=
  ⟨by rfl, (findReferencedTypes_cyclic_none fuel R).1, findTypesInSchema_cyclic_none fuel R⟩

/-- C2 (the code diverges from the claim): the map has the key `pkg.Response` and no
reference at all, the schema references `#/definitions/pkg.Response`, and the collection
returns the empty set: the name looked up is the sanitized `pkg_Response`. -/
theorem findReferencedTypes_misses_dotted_name (fuel : Nat) :
    "pkg.Response" ∈ dottedSchemas.keys ∧
    getRefName "#/definitions/pkg.Response" = "pkg_Response" ∧
    findReferencedTypes (fuel + 1) (some (refSchema "#/definitions/pkg.Response"))
      dottedSchemas [] = some [] := by
  refine ⟨by decide, by decide, ?_⟩
  have h : dottedSchemas.get? (getRefName "#/definitions/pkg.Response") = none := by
    rfl
  simp [findReferencedTypes, h, refSchema, Schema.Ref, Schema.Properties, Schema.Items, Schema.AllOf, Schema.OneOf, Schema.AnyOf]

/-! ## Identifier synthesis: examples and factorisation -/

/-- C8 (the code diverges from the claim): for `GET /pets/{id}` the synthesized identifier
is `getPetsId`; the placeholder is rendered as `Id`, not as `ById`. -/
theorem generateOperationID_get_pets_id :
    generateOperationID "GET" "/pets/{id}" = "getPetsId" ∧
    generateOperationID "GET" "/pets/{id}" ≠ "getPetsById" := by
  decide

/-- C9: the synthesized identifier is the lower-cased method followed by a text that
depends on the path alone; for `/pets` the identifiers of POST and GET are `postPets` and
`getPets`. -/
theorem generateOperationID_verb_only :
    ∃ g : String → String,
      (∀ m p : String, generateOperationID m p = Strs.toLower m ++ g p) ∧
      generateOperationID "POST" "/pets" = "postPets" ∧
      generateOperationID "GET" "/pets" = "getPets" ∧
      Strs.toLower "POST" = "post" ∧ Strs.toLower "GET" = "get" ∧ g "/pets" = "Pets" :=
  ⟨pathSuffix, generateOperationID_eq, by decide, by decide, by decide, by decide, by decide⟩

/-! ## Degradation -/

/-- C6: a schema with empty type, no properties, no reference and no enum resolves to the
type definition whose only set field is `Type = "any"`; `getTypeFromSchemaWithContext`
returns `any` for nil and for every schema without reference whose type is none of string,
number, integer, boolean, array. -/
theorem degradation_to_any :
    (∀ (name : String) (s : Schema) (spec : OpenAPISpec),
      s.Typ = "" → s.Properties = [] → s.Ref = "" → s.Enum = [] →
      schemaToTypeDef name s spec = { Typ := "any" } ∧
      (schemaToTypeDef name s spec).Typ = "any" ∧
      (schemaToTypeDef name s spec).IsReference = false ∧
      (schemaToTypeDef name s spec).IsArray = false ∧
      (schemaToTypeDef name s spec).IsEnum = false ∧
      (schemaToTypeDef name s spec).IsInterface = false) ∧
    (∀ (spec : OpenAPISpec) (isTypesFile : Bool),
      getTypeFromSchemaWithContext none spec isTypesFile = "any") ∧
    (∀ (s : Schema) (spec : OpenAPISpec) (isTypesFile : Bool),
      s.Ref = "" → s.Typ ≠ "string" → s.Typ ≠ "number" → s.Typ ≠ "integer" →
      s.Typ ≠ "boolean" → s.Typ ≠ "array" →
      getTypeFromSchemaWithContext (some s) spec isTypesFile = "any") := by
  refine ⟨?_, ?_, ?_⟩
  · intro name s spec ht hp hr he
    have h : schemaToTypeDef name s spec = { Typ := "any" } := by
      cases s with
      | mk t f p i r rf a o y e x =>
        simp only [Schema.Typ, Schema.Properties, Schema.Ref, Schema.Enum] at ht hp hr he
        subst ht hp hr he
        simp [schemaToTypeDef, Schema.Typ, Schema.Properties, Schema.Ref, Schema.Enum,
          Schema.Items, getTypeFromSchemaWithContext, getTypeOfSchema]
    rw [h]
    exact ⟨rfl, rfl, rfl, rfl, rfl, rfl⟩
  · intro spec b
    simp [getTypeFromSchemaWithContext]
  · intro s spec b hr h1 h2 h3 h4 h5
    cases s with
    | mk t f p i r rf a o y e x =>
      simp only [Schema.Typ, Schema.Ref] at hr h1 h2 h3 h4 h5
      simp [getTypeFromSchemaWithContext, getTypeOfSchema, hr, h1, h2, h3, h4, h5]

theorem degradation_to_any_witness :
    schemaToTypeDef "Blob" (Schema.mk "" "binary" [] none ["x"] "" [] [] [] [] ["A"]) {}
        = { Typ := "any" } ∧
    getTypeFromSchemaWithContext (some (Schema.mk "object" "" [] none [] "" [] [] [] [] [])) {}
        true = "any" :=
  ⟨(degradation_to_any.1 "Blob" (Schema.mk "" "binary" [] none ["x"] "" [] [] [] [] ["A"]) {}
      rfl rfl rfl rfl).1,
   degradation_to_any.2.2 (Schema.mk "object" "" [] none [] "" [] [] [] [] []) {} true
      rfl (by decide) (by decide) (by decide) (by decide) (by decide)⟩

/-! ## Dispatch order -/

/-- C3 (as stated, refuted): the array schema without items that lists an enum literal is
a schema of type array, so the stated order selects the array case, yet it resolves to an
enum. -/
theorem schemaToTypeDef_array_without_items_is_enum :
    arrayEnumSchema.Typ = "array" ∧ arrayEnumSchema.Enum ≠ [] ∧
    claimedFirstMatch arrayEnumSchema = Shape.array ∧
    (schemaToTypeDef "E" arrayEnumSchema {}).IsArray = false ∧
    (schemaToTypeDef "E" arrayEnumSchema {}).IsEnum = true ∧
    ¬ (schemaToTypeDef "E" arrayEnumSchema {}).hasShape (claimedFirstMatch arrayEnumSchema) := by
  refine ⟨by decide, by decide, by decide, by decide, by decide, ?_⟩
  have h : claimedFirstMatch arrayEnumSchema = Shape.array := by decide
  rw [h]
  simp only [TypeDef.hasShape]
  decide

/-- C3 (amended): every schema resolves to the shape of the first matching case in the
order reference (non-empty reference), array (type array and items present), enum
(non-empty enum), object (type object or a property), primitive (alias of `string`,
`number` or `boolean`), array without items (alias of `any[]`), fallback (alias of `any`).
In particular reference wins over enum, an array with items wins over enum, and enum wins
over properties. -/
theorem schemaToTypeDef_dispatch_order (name : String) (s : Schema) (spec : OpenAPISpec) :
    (schemaToTypeDef name s spec).hasShape (firstMatch s) ∧
    (s.Ref ≠ "" → s.Enum ≠ [] → (schemaToTypeDef name s spec).hasShape Shape.reference) ∧
    (s.Ref = "" → s.Typ = "array" → s.Items.isSome → s.Enum ≠ [] →
      (schemaToTypeDef name s spec).hasShape Shape.array) ∧
    (s.Ref = "" → ¬ (s.Typ = "array" ∧ s.Items.isSome) → s.Enum ≠ [] → s.Properties ≠ [] →
      (schemaToTypeDef name s spec).hasShape Shape.enum) := by
  have main : (schemaToTypeDef name s spec).hasShape (firstMatch s) := by
    cases s with
    | mk t f p i r rf a o y e x =>
      simp only [schemaToTypeDef, firstMatch, Schema.Ref, Schema.Typ, Schema.Items,
        Schema.Enum, Schema.Properties, Schema.XEnumVarnames, Schema.Required]
      by_cases h1 : rf ≠ ""
      · simp [h1, TypeDef.hasShape]
      · rw [if_neg h1, if_neg h1]
        by_cases h2 : t = "array" ∧ i.isSome = true
        · rw [if_pos h2, if_pos h2]; simp [TypeDef.hasShape]
        · rw [if_neg h2, if_neg h2]
          by_cases h3 : e ≠ []
          · have h3' : e.length > 0 := List.length_pos.mpr h3
            rw [if_pos h3', if_pos h3]
            split <;> simp [TypeDef.hasShape]
          · have h3' : ¬ e.length > 0 := by
              simp only [ne_eq, not_not] at h3; simp [h3]
            rw [if_neg h3', if_neg h3]
            by_cases h4 : t = "object" ∨ p.length > 0
            · rw [if_pos h4, if_pos h4]; simp [TypeDef.hasShape]
            · rw [if_neg h4, if_neg h4]
              have hrf : rf = "" := by simpa using h1
              simp only [getTypeFromSchemaWithContext, getTypeOfSchema, hrf, ne_eq,
                not_true_eq_false, if_false]
              by_cases p1 : t = "string"
              · simp [p1, TypeDef.hasShape]
              · by_cases p2 : t = "number" ∨ t = "integer"
                · have hp : t = "string" ∨ t = "number" ∨ t = "integer" ∨ t = "boolean" := by
                    tauto
                  rw [if_neg p1, if_pos p2, if_pos hp]
                  simp [TypeDef.hasShape]
                · by_cases p3 : t = "boolean"
                  · simp [p3, TypeDef.hasShape]
                  · have hn : ¬ (t = "string" ∨ t = "number" ∨ t = "integer" ∨
                        t = "boolean") := by tauto
                    rw [if_neg p1, if_neg p2, if_neg p3, if_neg hn]
                    by_cases p4 : t = "array"
                    · rw [if_pos p4, if_pos p4]
                      have hi : i = none := by
                        cases i with
                        | none => rfl
                        | some v => exact absurd ⟨p4, rfl⟩ h2
                      rw [hi]
                      simp only [getTypeFromSchemaWithContext, TypeDef.hasShape, true_and]
                      decide
                    · rw [if_neg p4, if_neg p4]
                      simp [TypeDef.hasShape]
  refine ⟨main, ?_, ?_, ?_⟩
  · intro h1 _
    have : firstMatch s = Shape.reference := by simp [firstMatch, h1]
    rw [← this]; exact main
  · intro h1 h2 h3 _
    have : firstMatch s = Shape.array := by simp [firstMatch, h1, h2, h3]
    rw [← this]; exact main
  · intro h1 h2 h3 _
    have : firstMatch s = Shape.enum := by
      unfold firstMatch
      rw [if_neg (by simp [h1]), if_neg h2, if_pos h3]
    rw [← this]; exact main

theorem schemaToTypeDef_dispatch_order_witness :
    (schemaToTypeDef "S" (Schema.mk "" "" [] none [] "#/definitions/Pet" [] [] [] [.str "a"] [])
        {}).hasShape Shape.reference ∧
    (schemaToTypeDef "S" (Schema.mk "array" "" [] (some Schema.zero) [] "" [] [] []
        [.str "a"] []) {}).hasShape Shape.array ∧
    (schemaToTypeDef "S" (Schema.mk "object" "" [("p", some Schema.zero)] none [] "" [] [] []
        [.str "a"] []) {}).hasShape Shape.enum ∧
    (schemaToTypeDef "S" (Schema.mk "array" "" [] none [] "" [] [] [] [] []) {}).hasShape
      Shape.dynamicArray ∧
    (schemaToTypeDef "S" Schema.zero {}).hasShape Shape.fallback :=
  ⟨(schemaToTypeDef_dispatch_order "S"
      (Schema.mk "" "" [] none [] "#/definitions/Pet" [] [] [] [.str "a"] []) {}).2.1
      (by decide) (by decide),
   (schemaToTypeDef_dispatch_order "S"
      (Schema.mk "array" "" [] (some Schema.zero) [] "" [] [] [] [.str "a"] []) {}).2.2.1
      rfl rfl rfl (by decide),
   (schemaToTypeDef_dispatch_order "S"
      (Schema.mk "object" "" [("p", some Schema.zero)] none [] "" [] [] [] [.str "a"] []) {}).2.2.2
      rfl (by decide) (by decide) (by simp [Schema.Properties]),
   (schemaToTypeDef_dispatch_order "S"
      (Schema.mk "array" "" [] none [] "" [] [] [] [] []) {}).1,
   (schemaToTypeDef_dispatch_order "S" Schema.zero {}).1⟩

/-! ## Enum resolution -/

theorem foldl_append_singleton {α β : Type} (f : α → β) (l : List α) (acc : List β) :
    l.foldl (fun acc val => acc ++ [f val]) acc = acc ++ l.map f := by
  induction l generalizing acc with
  | nil => simp
  | cons a l ih => simp [ih]

theorem enumMembersLoop_eq (names : List String) (es : List EnumVal) :
    ∀ (i : Nat) (acc : List EnumMember), i + es.length ≤ names.length →
      enumMembersLoop names i es acc =
        acc ++ List.zipWith (fun n e => { Name := n, Value := quoteV e }) (names.drop i) es := by
  induction es with
  | nil => intro i acc _; simp [enumMembersLoop]
  | cons e rest ih =>
    intro i acc h
    simp only [List.length_cons] at h
    have hi : i < names.length := by omega
    rw [enumMembersLoop, ih (i + 1) _ (by omega), List.drop_eq_getElem_cons hi,
      List.getD_eq_getElem _ _ hi]
    simp only [List.zipWith_cons_cons, List.append_assoc, List.singleton_append]

/-- C4: a schema that reaches the enum case (no reference, not an array with items, a
non-empty enum).  When the name sequence is as long as the literal sequence, the members
are the pairs of the i-th name and the i-th quoted literal, in input order, and there are
no enum values; otherwise there are no members and the enum values are the quoted literals
in input order. -/
theorem schemaToTypeDef_enum (name : String) (s : Schema) (spec : OpenAPISpec)
    (hr : s.Ref = "") (ha : ¬ (s.Typ = "array" ∧ s.Items.isSome)) (he : s.Enum ≠ []) :
    (schemaToTypeDef name s spec).IsEnum = true ∧
    (s.XEnumVarnames.length = s.Enum.length →
      (schemaToTypeDef name s spec).EnumMembers.length = s.Enum.length ∧
      (schemaToTypeDef name s spec).EnumMembers =
        List.zipWith (fun n e => { Name := n, Value := "\"" ++ e.fmtV ++ "\"" })
          s.XEnumVarnames s.Enum ∧
      (∀ i : Nat, i < s.Enum.length →
        ((schemaToTypeDef name s spec).EnumMembers.map EnumMember.Name)[i]?
          = s.XEnumVarnames[i]? ∧
        ((schemaToTypeDef name s spec).EnumMembers.map EnumMember.Value)[i]?
          = (s.Enum[i]?).map (fun e => "\"" ++ e.fmtV ++ "\"")) ∧
      (schemaToTypeDef name s spec).EnumValues = []) ∧
    (s.XEnumVarnames.length ≠ s.Enum.length →
      (schemaToTypeDef name s spec).EnumMembers = [] ∧
      (schemaToTypeDef name s spec).EnumValues = s.Enum.map (fun e => "\"" ++ e.fmtV ++ "\"")) := by
  have he' : s.Enum.length > 0 := List.length_pos.mpr he
  have hr' : ¬ s.Ref ≠ "" := by simp [hr]
  refine ⟨?_, ?_, ?_⟩
  · unfold schemaToTypeDef
    simp only [if_neg hr', if_neg ha, if_pos he']
    split <;> rfl
  · intro hl
    have hm : (schemaToTypeDef name s spec).EnumMembers =
        List.zipWith (fun n e => { Name := n, Value := "\"" ++ e.fmtV ++ "\"" })
          s.XEnumVarnames s.Enum := by
      unfold schemaToTypeDef
      simp only [if_neg hr', if_neg ha, if_pos he', if_pos hl]
      rw [enumMembersLoop_eq _ _ 0 [] (by omega)]
      simp [quoteV]
    have hv : (schemaToTypeDef name s spec).EnumValues = [] := by
      unfold schemaToTypeDef
      simp only [if_neg hr', if_neg ha, if_pos he', if_pos hl]
    refine ⟨?_, hm, ?_, hv⟩
    · rw [hm]; simp [hl]
    · intro i hi
      rw [hm]
      have hi' : i < s.XEnumVarnames.length := by omega
      constructor
      · simp only [List.getElem?_map, List.getElem?_zipWith]
        rw [List.getElem?_eq_getElem hi, List.getElem?_eq_getElem hi']
        rfl
      · simp only [List.getElem?_map, List.getElem?_zipWith]
        rw [List.getElem?_eq_getElem hi, List.getElem?_eq_getElem hi']
        rfl
  · intro hl
    unfold schemaToTypeDef
    simp only [if_neg hr', if_neg ha, if_pos he', if_neg hl]
    refine ⟨trivial, ?_⟩
    rw [foldl_append_singleton]
    simp [quoteV]

theorem schemaToTypeDef_enum_witness :
    (schemaToTypeDef "Status"
        (Schema.mk "string" "" [] none [] "" [] [] [] [.str "on", .str "off"] ["On", "Off"])
        {}).EnumMembers = [⟨"On", "\"on\""⟩, ⟨"Off", "\"off\""⟩] ∧
    (schemaToTypeDef "Status"
        (Schema.mk "string" "" [] none [] "" [] [] [] [.str "on", .str "off"] ["On"])
        {}).EnumValues = ["\"on\"", "\"off\""] :=
  ⟨((schemaToTypeDef_enum "Status"
      (Schema.mk "string" "" [] none [] "" [] [] [] [.str "on", .str "off"] ["On", "Off"]) {}
      rfl (by decide) (by decide)).2.1 rfl).2.1,
   ((schemaToTypeDef_enum "Status"
      (Schema.mk "string" "" [] none [] "" [] [] [] [.str "on", .str "off"] ["On"]) {}
      rfl (by decide) (by decide)).2.2 (by decide)).2⟩

/-! ## Object resolution -/

theorem contains_iff (slice : List String) (item : String) :
    contains slice item = true ↔ item ∈ slice := by
  induction slice with
  | nil => simp [contains]
  | cons s rest ih =>
    simp only [contains, List.mem_cons]
    by_cases h : s = item
    · simp [h]
    · simp only [if_neg h, ih]
      constructor
      · intro h1; exact Or.inr h1
      · rintro (h1 | h1)
        · exact absurd h1.symm h
        · exact h1

theorem GoMap.mem_keys_set {α : Type} (m : GoMap α) (k : String) (v : α) (p : String) :
    p ∈ (m.set k v).keys ↔ p = k ∨ p ∈ m.keys := by
  induction m with
  | nil => simp [GoMap.set, GoMap.keys]
  | cons kv rest ih =>
    obtain ⟨k1, v1⟩ := kv
    simp only [GoMap.set]
    by_cases h : k1 = k
    · subst h
      simp [GoMap.keys]
    · rw [if_neg h]
      simp only [GoMap.keys, List.map_cons, List.mem_cons] at ih ⊢
      rw [ih]
      tauto

theorem GoMap.get?_set {α : Type} (m : GoMap α) (k : String) (v : α) (p : String) :
    (m.set k v).get? p = if k = p then some v else m.get? p := by
  induction m with
  | nil => simp [GoMap.set, GoMap.get?]
  | cons kv rest ih =>
    obtain ⟨k1, v1⟩ := kv
    simp only [GoMap.set]
    by_cases h : k1 = k
    · subst h
      by_cases h2 : k1 = p <;> simp [GoMap.get?, h2]
    · rw [if_neg h]
      simp only [GoMap.get?, ih]
      by_cases h2 : k1 = p
      · have : ¬ k = p := fun h3 => h (h2.trans h3.symm)
        simp [h2, this]
      · simp [h2]

theorem GoMap.get?_isSome_iff {α : Type} (m : GoMap α) (p : String) :
    (m.get? p).isSome ↔ p ∈ m.keys := by
  induction m with
  | nil => simp [GoMap.get?, GoMap.keys]
  | cons kv rest ih =>
    obtain ⟨k1, v1⟩ := kv
    simp only [GoMap.get?, GoMap.keys, List.map_cons, List.mem_cons]
    by_cases h : k1 = p
    · simp [h]
    · simp only [if_neg h]
      rw [ih]
      simp only [GoMap.keys]
      constructor
      · intro h1; exact Or.inr h1
      · rintro (h1 | h1)
        · exact absurd h1.symm h
        · exact h1

theorem foldl_set_keys {α β : Type} (f : String × α → β) (l : List (String × α))
    (m : GoMap β) (p : String) :
    p ∈ (l.foldl (fun props kv => props.set kv.1 (f kv)) m).keys ↔
      p ∈ m.keys ∨ p ∈ l.map Prod.fst := by
  induction l generalizing m with
  | nil => simp
  | cons kv rest ih =>
    simp only [List.foldl_cons, List.map_cons, List.mem_cons]
    rw [ih, GoMap.mem_keys_set]
    tauto

theorem foldl_set_get? {α β : Type} (f : String × α → β) (Q : String → β → Prop)
    (hQ : ∀ kv, Q kv.1 (f kv)) (l : List (String × α)) (m : GoMap β)
    (hm : ∀ p d, m.get? p = some d → Q p d) :
    ∀ p d, (l.foldl (fun props kv => props.set kv.1 (f kv)) m).get? p = some d → Q p d := by
  induction l generalizing m with
  | nil => simpa using hm
  | cons kv rest ih =>
    simp only [List.foldl_cons]
    apply ih
    intro p d h
    rw [GoMap.get?_set] at h
    by_cases h2 : kv.1 = p
    · rw [if_pos h2] at h
      cases h
      rw [← h2]
      exact hQ kv
    · rw [if_neg h2] at h
      exact hm p d h

/-- C5: a schema that reaches the object case (no reference, not an array with items, no
enum, type object or a property).  The resulting properties have exactly the property
names of the schema, every property name has an entry, and an entry is optional if and
only if its name does not occur in the required list. -/
theorem schemaToTypeDef_object (name : String) (s : Schema) (spec : OpenAPISpec)
    (hr : s.Ref = "") (ha : ¬ (s.Typ = "array" ∧ s.Items.isSome)) (he : s.Enum = [])
    (ho : s.Typ = "object" ∨ s.Properties ≠ []) :
    (schemaToTypeDef name s spec).IsInterface = true ∧
    (∀ p : String, p ∈ (schemaToTypeDef name s spec).Properties.keys ↔ p ∈ s.Properties.keys) ∧
    (∀ p : String, p ∈ s.Properties.keys →
      ∃ d, (schemaToTypeDef name s spec).Properties.get? p = some d) ∧
    (∀ (p : String) (d : PropertyDef),
      (schemaToTypeDef name s spec).Properties.get? p = some d →
        (d.Optional = true ↔ p ∉ s.Required)) := by
  have hr' : ¬ s.Ref ≠ "" := by simp [hr]
  have he' : ¬ s.Enum.length > 0 := by simp [he]
  have ho' : s.Typ = "object" ∨ s.Properties.length > 0 := by
    rcases ho with h | h
    · exact Or.inl h
    · exact Or.inr (List.length_pos.mpr h)
  have hk : ∀ p : String,
      p ∈ (schemaToTypeDef name s spec).Properties.keys ↔ p ∈ s.Properties.keys := by
    intro p
    unfold schemaToTypeDef
    simp only [if_neg hr', if_neg ha, if_neg he', if_pos ho']
    have key := foldl_set_keys (fun kv : String × Option Schema =>
      PropertyDef.mk (getTypeFromSchemaWithContext kv.2 spec true) (!contains s.Required kv.1))
      s.Properties [] p
    rw [key]
    simp [GoMap.keys]
  refine ⟨?_, hk, ?_, ?_⟩
  · unfold schemaToTypeDef
    simp only [if_neg hr', if_neg ha, if_neg he', if_pos ho']
  · intro p hp
    have := (GoMap.get?_isSome_iff _ p).mpr ((hk p).mpr hp)
    exact Option.isSome_iff_exists.mp this
  · unfold schemaToTypeDef
    simp only [if_neg hr', if_neg ha, if_neg he', if_pos ho']
    apply foldl_set_get? (fun kv : String × Option Schema =>
      PropertyDef.mk (getTypeFromSchemaWithContext kv.2 spec true) (!contains s.Required kv.1))
      (fun p d => d.Optional = true ↔ p ∉ s.Required)
    · intro kv
      simp only [Bool.not_eq_true', ← contains_iff]
      cases contains s.Required kv.1 <;> simp
    · intro p d h
      simp [GoMap.get?] at h

theorem schemaToTypeDef_object_witness :
    "id" ∈ (schemaToTypeDef "Pet" petSchema {}).Properties.keys ∧
    (∃ d, (schemaToTypeDef "Pet" petSchema {}).Properties.get? "tag" = some d) ∧
    (∀ d, (schemaToTypeDef "Pet" petSchema {}).Properties.get? "tag" = some d →
      (d.Optional = true ↔ "tag" ∉ petSchema.Required)) :=
  ⟨((schemaToTypeDef_object "Pet" petSchema {} rfl (by decide) rfl (Or.inl rfl)).2.1 "id").mpr
      (by decide),
   (schemaToTypeDef_object "Pet" petSchema {} rfl (by decide) rfl (Or.inl rfl)).2.2.1 "tag"
      (by decide),
   (schemaToTypeDef_object "Pet" petSchema {} rfl (by decide) rfl (Or.inl rfl)).2.2.2 "tag"⟩

/-! ## Reference rendering by context -/

theorem getTypeOfSchema_ref (t f : String) (p : List (String × Option Schema))
    (i : Option Schema) (r : List String) (rf : String) (a o y : List (Option Schema))
    (e : List EnumVal) (x : List String) (spec : OpenAPISpec) (b : Bool) (h : rf ≠ "") :
    getTypeOfSchema (.mk t f p i r rf a o y e x) spec b
      = if b then getRefName rf else "Types." ++ getRefName rf := by
  simp [getTypeOfSchema, h]

theorem getTypeOfSchema_array (f : String) (p : List (String × Option Schema))
    (i : Option Schema) (r : List String) (a o y : List (Option Schema))
    (e : List EnumVal) (x : List String) (spec : OpenAPISpec) (b : Bool) :
    getTypeOfSchema (.mk "array" f p i r "" a o y e x) spec b
      = getTypeFromSchemaWithContext i spec b ++ "[]" := by
  simp [getTypeOfSchema]

theorem getTypeOfSchema_other (t f : String) (p : List (String × Option Schema))
    (i : Option Schema) (r : List String) (a o y : List (Option Schema))
    (e : List EnumVal) (x : List String) (spec : OpenAPISpec) (b : Bool) (h : t ≠ "array") :
    getTypeOfSchema (.mk t f p i r "" a o y e x) spec b
      = getTypeOfSchema (.mk t f p i r "" a o y e x) spec true := by
  simp [getTypeOfSchema, h]

mutual
theorem renders_by_context_schema (spec : OpenAPISpec) :
    ∀ s : Schema,
      (∀ ref levels, innermostRefOf s = some (ref, levels) →
        getTypeOfSchema s spec true = getRefName ref ++ brackets levels ∧
        getTypeOfSchema s spec false = "Types." ++ getTypeOfSchema s spec true) ∧
      (innermostRefOf s = none → getTypeOfSchema s spec false = getTypeOfSchema s spec true)
  | .mk t f p i r rf a o y e x => by
    have ih := renders_by_context_option spec i
    by_cases h1 : rf ≠ ""
    · constructor
      · intro ref levels h
        simp only [innermostRefOf, if_pos h1, Option.some.injEq, Prod.mk.injEq] at h
        obtain ⟨rfl, rfl⟩ := h
        rw [getTypeOfSchema_ref _ _ _ _ _ _ _ _ _ _ _ _ _ h1,
          getTypeOfSchema_ref _ _ _ _ _ _ _ _ _ _ _ _ _ h1]
        simp [brackets]
      · intro h
        simp [innermostRefOf, h1] at h
    · have hrf : rf = "" := by simpa using h1
      subst hrf
      by_cases h2 : t = "array"
      · subst h2
        rw [getTypeOfSchema_array, getTypeOfSchema_array]
        constructor
        · intro ref levels h
          simp only [innermostRefOf, ne_eq, not_true_eq_false, if_false, if_true] at h
          cases hi : innermostRef i with
          | none => rw [hi] at h; simp at h
          | some rk =>
            obtain ⟨r0, k0⟩ := rk
            rw [hi] at h
            simp only [Option.some.injEq, Prod.mk.injEq] at h
            obtain ⟨rfl, rfl⟩ := h
            obtain ⟨e1, e2⟩ := ih.1 r0 k0 hi
            rw [e2, e1]
            simp [brackets, String.append_assoc]
        · intro h
          simp only [innermostRefOf, ne_eq, not_true_eq_false, if_false, if_true] at h
          cases hi : innermostRef i with
          | none => rw [ih.2 hi]
          | some rk => rw [hi] at h; simp at h
      · constructor
        · intro ref levels h
          simp [innermostRefOf, h2] at h
        · intro _
          exact getTypeOfSchema_other _ _ _ _ _ _ _ _ _ _ _ _ h2
theorem renders_by_context_option (spec : OpenAPISpec) :
    ∀ s : Option Schema,
      (∀ ref levels, innermostRef s = some (ref, levels) →
        getTypeFromSchemaWithContext s spec true = getRefName ref ++ brackets levels ∧
        getTypeFromSchemaWithContext s spec false
          = "Types." ++ getTypeFromSchemaWithContext s spec true) ∧
      (innermostRef s = none →
        getTypeFromSchemaWithContext s spec false = getTypeFromSchemaWithContext s spec true)
  | none => by simp [innermostRef, getTypeFromSchemaWithContext]
  | some s => by
    have ih := renders_by_context_schema spec s
    simpa only [innermostRef, getTypeFromSchemaWithContext] using ih
end

/-- C7: when following `items` through nested arrays ends in a reference, the types-file
rendering is the sanitized reference name followed by one `[]` per array level, and the
usage rendering is `Types.` followed by the types-file rendering; otherwise the two
contexts render the same text. -/
theorem reference_rendering_by_context (s : Option Schema) (spec : OpenAPISpec) :
    (∀ ref levels, innermostRef s = some (ref, levels) →
      getTypeFromSchemaWithContext s spec true = getRefName ref ++ brackets levels ∧
      getTypeFromSchemaWithContext s spec false
        = "Types." ++ getTypeFromSchemaWithContext s spec true) ∧
    (innermostRef s = none →
      getTypeFromSchemaWithContext s spec false = getTypeFromSchemaWithContext s spec true) :=
  renders_by_context_option spec s

theorem reference_rendering_by_context_witness :
    (getTypeFromSchemaWithContext (some petMatrixSchema) {} true = "Pet[][]" ∧
      getTypeFromSchemaWithContext (some petMatrixSchema) {} false = "Types.Pet[][]") ∧
    getTypeFromSchemaWithContext (some petSchema) {} false
      = getTypeFromSchemaWithContext (some petSchema) {} true :=
  ⟨(reference_rendering_by_context (some petMatrixSchema) {}).1 "#/components/schemas/Pet" 2 rfl,
   (reference_rendering_by_context (some petSchema) {}).2 rfl⟩

/-! ## Identifier synthesis on well-formed paths -/

theorem replaceAllL_append (old : Char) (new a b : List Char) :
    Strs.replaceAllL old new (a ++ b) = Strs.replaceAllL old new a ++ Strs.replaceAllL old new b := by
  induction a with
  | nil => simp [Strs.replaceAllL]
  | cons c cs ih => simp [Strs.replaceAllL, ih]

theorem replaceAllL_id (old : Char) (new l : List Char) (h : ∀ c ∈ l, c ≠ old) :
    Strs.replaceAllL old new l = l := by
  induction l with
  | nil => simp [Strs.replaceAllL]
  | cons c cs ih =>
    have hc : c ≠ old := h c (List.mem_cons_self _ _)
    simp only [Strs.replaceAllL, if_neg hc, List.singleton_append]
    rw [ih (fun d hd => h d (List.mem_cons_of_mem _ hd))]

theorem cleanL_append (a b : List Char) : cleanL (a ++ b) = cleanL a ++ cleanL b := by
  simp only [cleanL, replaceAllL_append]

theorem isLowerOrDigit_ne (c d : Char) (h : isLowerOrDigit c)
    (hd : ¬ isLowerOrDigit d) : c ≠ d := by
  intro e; subst e; exact hd h

theorem cleanL_name (l : List Char) (h : ∀ c ∈ l, isLowerOrDigit c) : cleanL l = l := by
  unfold cleanL
  rw [replaceAllL_id '/' _ l (fun c hc => isLowerOrDigit_ne c _ (h c hc) (by decide)),
    replaceAllL_id '\x7b' _ l (fun c hc => isLowerOrDigit_ne c _ (h c hc) (by decide)),
    replaceAllL_id '\x7d' _ l (fun c hc => isLowerOrDigit_ne c _ (h c hc) (by decide)),
    replaceAllL_id '-' _ l (fun c hc => isLowerOrDigit_ne c _ (h c hc) (by decide)),
    replaceAllL_id '.' _ l (fun c hc => isLowerOrDigit_ne c _ (h c hc) (by decide))]

theorem splitL_append_sep (sep : Char) (a b : List Char) :
    Strs.splitL sep (a ++ sep :: b) = Strs.splitL sep a ++ Strs.splitL sep b := by
  induction a with
  | nil => simp [Strs.splitL]
  | cons c cs ih =>
    simp only [List.cons_append, Strs.splitL]
    by_cases h : c = sep
    · simp [h, ih]
    · rw [if_neg h, if_neg h]
      have ih2 : Strs.splitL sep (cs.append (sep :: b))
          = Strs.splitL sep cs ++ Strs.splitL sep b := ih
      rw [ih2]
      cases hs : Strs.splitL sep cs with
      | nil => exact absurd hs (splitL_ne_nil sep cs)
      | cons p ps => simp

theorem splitL_no_sep (sep : Char) (l : List Char) (h : ∀ c ∈ l, c ≠ sep) :
    Strs.splitL sep l = [l] := by
  induction l with
  | nil => simp [Strs.splitL]
  | cons c cs ih =>
    have hc : c ≠ sep := h c (List.mem_cons_self _ _)
    simp only [Strs.splitL, if_neg hc]
    rw [ih (fun d hd => h d (List.mem_cons_of_mem _ hd))]

theorem foldl_writePart_nil (parts : List String) (a : String) :
    parts.foldl writePart a = a ++ parts.foldl writePart "" := by
  have := foldl_writePart_append parts a ""
  simpa using this

theorem camelL_append_sep (a b : List Char) :
    camelL (a ++ '_' :: b) = camelL a ++ camelL b := by
  unfold camelL
  rw [splitL_append_sep, List.map_append, List.foldl_append, foldl_writePart_nil]

theorem camelL_nil : camelL [] = "" := by decide

theorem map_toLower_id (l : List Char) (h : ∀ c ∈ l, isLowerOrDigit c) :
    l.map Char.toLower = l := by
  induction l with
  | nil => rfl
  | cons c cs ih =>
    have hc := h c (List.mem_cons_self _ _)
    have : c.toLower = c := by
      unfold Char.toLower
      simp only
      rw [if_neg]
      unfold isLowerOrDigit at hc
      omega
    simp only [List.map_cons, this]
    rw [ih (fun d hd => h d (List.mem_cons_of_mem _ hd))]

theorem camelL_name (name : String) (hne : name.data ≠ [])
    (h : ∀ c ∈ name.data, isLowerOrDigit c) : camelL name.data = capitalize name := by
  unfold camelL
  rw [splitL_no_sep '_' _ (fun c hc => isLowerOrDigit_ne c _ (h c hc) (by decide))]
  have hn : (⟨name.data⟩ : String) ≠ "" := by
    intro e
    apply hne
    have := congrArg String.data e
    simpa using this
  have hl : (⟨name.data⟩ : String).length > 0 := by
    simp only [String.length, gt_iff_lt, List.length_pos]
    exact hne
  simp only [List.map_cons, List.map_nil, List.foldl_cons, List.foldl_nil, writePart,
    if_pos hn, if_pos hl]
  unfold capitalize Strs.toLower Strs.sliceFrom Strs.sliceTo
  rw [map_toLower_id _ (fun c hc => h c (List.mem_of_mem_drop hc))]
  apply String.ext
  simp [String.data_append]

theorem pathSuffix_eq (path : String) :
    pathSuffix path = camelL (cleanL (Strs.trimLeadingL '/' path.data)) := rfl

theorem text_data (sg : Segment) :
    sg.text.data = if sg.isParam then '\x7b' :: (sg.name.data ++ ['\x7d']) else sg.name.data := by
  unfold Segment.text
  cases sg.isParam <;> simp [String.data_append]

theorem cleanL_text (sg : Segment) (h : sg.wellFormed) : cleanL sg.text.data = sg.piece := by
  rw [text_data]
  unfold Segment.piece
  cases sg.isParam with
  | false => simpa using cleanL_name _ h.2
  | true =>
    simp only [if_true]
    have e : '\x7b' :: (sg.name.data ++ ['\x7d']) = ['\x7b'] ++ (sg.name.data ++ ['\x7d']) := rfl
    rw [e, cleanL_append, cleanL_append, cleanL_name _ h.2]
    have e1 : cleanL ['\x7b'] = ['_'] := by decide
    have e2 : cleanL ['\x7d'] = [] := by decide
    rw [e1, e2]
    simp

theorem slashJoin_cons_cons (x y : String) (rest : List String) :
    (slashJoin (x :: y :: rest)).data = x.data ++ '/' :: (slashJoin (y :: rest)).data := by
  simp [slashJoin, String.data_append]

theorem cleanL_slashJoin (segs : List Segment) (h : ∀ sg ∈ segs, sg.wellFormed) :
    cleanL (slashJoin (segs.map Segment.text)).data = underscoreJoin segs := by
  induction segs with
  | nil => decide
  | cons sg rest ih =>
    cases rest with
    | nil =>
      simp only [List.map_cons, List.map_nil, slashJoin, underscoreJoin]
      exact cleanL_text sg (h sg (List.mem_cons_self _ _))
    | cons sg2 rest2 =>
      simp only [List.map_cons, underscoreJoin] at ih ⊢
      rw [slashJoin_cons_cons]
      have e : sg.text.data ++ '/' :: (slashJoin (sg2.text :: List.map Segment.text rest2)).data
          = sg.text.data ++ (['/'] ++ (slashJoin (sg2.text :: List.map Segment.text rest2)).data) :=
        rfl
      rw [e, cleanL_append, cleanL_append, cleanL_text sg (h sg (List.mem_cons_self _ _)),
        ih (fun s hs => h s (List.mem_cons_of_mem _ hs))]
      have e1 : cleanL ['/'] = ['_'] := by decide
      rw [e1]
      rfl

theorem camelL_piece (sg : Segment) (h : sg.wellFormed) :
    camelL sg.piece = capitalize sg.name := by
  unfold Segment.piece
  cases sg.isParam with
  | false => simpa using camelL_name sg.name h.1 h.2
  | true =>
    simp only [if_true]
    have e : '_' :: sg.name.data = [] ++ '_' :: sg.name.data := rfl
    rw [e, camelL_append_sep, camelL_nil, camelL_name sg.name h.1 h.2]
    simp

theorem camelL_underscoreJoin (segs : List Segment) (h : ∀ sg ∈ segs, sg.wellFormed) :
    camelL (underscoreJoin segs) = camelConcat segs := by
  induction segs with
  | nil => decide
  | cons sg rest ih =>
    cases rest with
    | nil =>
      simp only [underscoreJoin, camelConcat]
      rw [camelL_piece sg (h sg (List.mem_cons_self _ _))]
      simp
    | cons sg2 rest2 =>
      rw [underscoreJoin, camelL_append_sep, camelL_piece sg (h sg (List.mem_cons_self _ _)),
        ih (fun s hs => h s (List.mem_cons_of_mem _ hs))]
      rfl

theorem trimLeadingL_slashJoin (segs : List Segment) (h : ∀ sg ∈ segs, sg.wellFormed) :
    Strs.trimLeadingL '/' (slashJoin (segs.map Segment.text)).data
      = (slashJoin (segs.map Segment.text)).data := by
  have key : ∀ (sg : Segment) (tl : List Char), sg.wellFormed →
      Strs.trimLeadingL '/' (sg.text.data ++ tl) = sg.text.data ++ tl := by
    intro sg tl hw
    rw [text_data]
    cases sg.isParam with
    | true =>
      simp only [if_true, List.cons_append, Strs.trimLeadingL]
      rw [if_neg (by decide)]
    | false =>
      simp only [Bool.false_eq_true, if_false]
      cases hd : sg.name.data with
      | nil => exact absurd hd hw.1
      | cons c cs =>
        have hc : isLowerOrDigit c := hw.2 c (by rw [hd]; exact List.mem_cons_self _ _)
        simp only [List.cons_append, Strs.trimLeadingL]
        rw [if_neg (isLowerOrDigit_ne c _ hc (by decide))]
  cases segs with
  | nil => decide
  | cons sg rest =>
    cases rest with
    | nil =>
      simp only [List.map_cons, List.map_nil, slashJoin]
      have := key sg [] (h sg (List.mem_cons_self _ _))
      simpa using this
    | cons sg2 rest2 =>
      simp only [List.map_cons]
      rw [slashJoin_cons_cons]
      exact key sg _ (h sg (List.mem_cons_self _ _))

/-- C10: for a path made of segments that are non-empty runs of lower-case ASCII letters
and digits, each optionally wrapped in braces, joined with `/` and with or without a
leading slash, the synthesized identifier is the lower-cased method followed by the
segment names, braces removed and first character upper-cased, in path order. -/
theorem generateOperationID_wellFormed_path (m : String) (leadingSlash : Bool)
    (segs : List Segment) (h : ∀ sg ∈ segs, sg.wellFormed) :
    generateOperationID m (pathOfSegments leadingSlash segs)
      = Strs.toLower m ++ camelConcat segs := by
  rw [generateOperationID_eq, pathSuffix_eq]
  congr 1
  have ht : Strs.trimLeadingL '/' (pathOfSegments leadingSlash segs).data
      = (slashJoin (segs.map Segment.text)).data := by
    unfold pathOfSegments
    cases leadingSlash with
    | true =>
      simp only [if_true, String.data_append]
      rfl
    | false =>
      simp only [Bool.false_eq_true, if_false, String.data_append]
      rw [List.nil_append]
      exact trimLeadingL_slashJoin segs h
  rw [ht, cleanL_slashJoin segs h, camelL_underscoreJoin segs h]

theorem generateOperationID_wellFormed_path_witness :
    generateOperationID "GET" "/pets/{id}/v2" = "getPetsIdV2" :=
  generateOperationID_wellFormed_path "GET" true
    [⟨"pets", false⟩, ⟨"id", true⟩, ⟨"v2", false⟩] (by decide)

/-! ## The grouping loop as a fold over the defined operations -/

theorem resourceNameOf_withOperationID (methodName path : String) (op : Operation) :
    resourceNameOf (withOperationID methodName path op) path = resourceNameOf op path := by
  unfold withOperationID
  split <;> rfl

theorem processMethod_snd (spec : OpenAPISpec) (path : String)
    (resources : GoMap (List MethodDef)) (methodName : String) (operation : Option Operation) :
    (processMethod spec path resources methodName operation).map Prod.snd
      = stepMethod spec path resources (methodName, operation) := by
  cases operation with
  | none => rfl
  | some op =>
    simp only [processMethod, stepMethod, fileOp, resourceNameOf_withOperationID]
    cases buildMethodDef spec methodName path (withOperationID methodName path op) <;> rfl

theorem processPathItem_snd (spec : OpenAPISpec) (path : String) (pathItem : PathItem)
    (resources : GoMap (List MethodDef)) :
    (processPathItem spec path pathItem resources).map Prod.snd
      = pathItem.methods.foldlM (stepMethod spec path) resources := by
  simp only [PathItem.methods, List.foldlM_cons, List.foldlM_nil, ← processMethod_snd,
    processPathItem]
  cases processMethod spec path resources "GET" pathItem.Get with
  | none => rfl
  | some r1 =>
    simp only [Option.some_bind, Option.map_some', Option.bind_eq_bind]
    cases processMethod spec path r1.2 "POST" pathItem.Post with
    | none => rfl
    | some r2 =>
      simp only [Option.some_bind, Option.map_some', Option.bind_eq_bind]
      cases processMethod spec path r2.2 "PUT" pathItem.Put with
      | none => rfl
      | some r3 =>
        simp only [Option.some_bind, Option.map_some', Option.bind_eq_bind]
        cases processMethod spec path r3.2 "DELETE" pathItem.Delete with
        | none => rfl
        | some r4 =>
          simp only [Option.some_bind, Option.map_some', Option.bind_eq_bind]
          cases processMethod spec path r4.2 "PATCH" pathItem.Patch with
          | none => rfl
          | some r5 => rfl

theorem foldlM_stepMethod (spec : OpenAPISpec) (path : String)
    (methods : List (String × Option Operation)) (resources : GoMap (List MethodDef)) :
    methods.foldlM (stepMethod spec path) resources
      = (methods.filterMap fun method => method.2.map fun op => (path, method.1, op)).foldlM
          (fileOp spec) resources := by
  induction methods generalizing resources with
  | nil => rfl
  | cons method rest ih =>
    obtain ⟨name, o⟩ := method
    cases o with
    | none =>
      simp only [List.foldlM_cons, stepMethod, List.filterMap_cons, Option.map_none']
      exact ih resources
    | some op =>
      simp only [List.foldlM_cons, stepMethod, List.filterMap_cons, Option.map_some']
      cases fileOp spec resources (path, name, op) with
      | none => rfl
      | some r => exact ih r

theorem groupLoop_snd (spec : OpenAPISpec) (paths : GoMap PathItem)
    (state : GoMap PathItem × GoMap (List MethodDef)) :
    (groupLoop spec paths state).map Prod.snd
      = (operationsOf paths).foldlM (fileOp spec) state.2 := by
  induction paths generalizing state with
  | nil => rfl
  | cons entry rest ih =>
    obtain ⟨path, pathItem⟩ := entry
    simp only [groupLoop, operationsOf, List.foldlM_append]
    have h := processPathItem_snd spec path pathItem state.2
    rw [foldlM_stepMethod] at h
    unfold definedOps
    rw [← h]
    cases processPathItem spec path pathItem state.2 with
    | none => rfl
    | some r =>
      simp only [Option.some_bind, Option.map_some', Option.bind_eq_bind]
      exact ih _

theorem groupOperationsByTag_snd (spec : OpenAPISpec) :
    (groupOperationsByTag spec).map Prod.snd
      = (operationsOf spec.Paths).foldlM (fileOp spec) [] := by
  unfold groupOperationsByTag
  rw [← groupLoop_snd spec spec.Paths ([], [])]
  cases groupLoop spec spec.Paths ([], []) <;> rfl
theorem filed_fileUnder (resources : GoMap (List MethodDef)) (k0 : String) (m0 : MethodDef)
    (k : String) (m : MethodDef) :
    Filed (fileUnder resources k0 m0) k m ↔ Filed resources k m ∨ (k = k0 ∧ m = m0) := by
  unfold Filed fileUnder
  rw [GoMap.get?_set]
  by_cases h : k0 = k
  · subst h
    simp only [if_true, Option.some.injEq, exists_eq_left', List.mem_append, List.mem_singleton,
      true_and]
    cases hg : GoMap.get? resources k0 with
    | none => simp
    | some old => simp
  · simp only [if_neg h]
    constructor
    · intro hx; exact Or.inl hx
    · rintro (hx | ⟨hk, _⟩)
      · exact hx
      · exact absurd hk.symm h

theorem not_filed_nil (k : String) (m : MethodDef) : ¬ Filed [] k m := by
  rintro ⟨ms, h, _⟩
  simp [GoMap.get?] at h

theorem foldlM_fileOp_filed (spec : OpenAPISpec) (ops : List (String × String × Operation))
    (r0 res : GoMap (List MethodDef)) (h : ops.foldlM (fileOp spec) r0 = some res)
    (k : String) (m : MethodDef) :
    Filed res k m ↔ Filed r0 k m ∨
      ∃ e ∈ ops, buildMethodDef spec e.2.1 e.1 (withOperationID e.2.1 e.1 e.2.2) = some m ∧
        k = resourceNameOf e.2.2 e.1 := by
  induction ops generalizing r0 with
  | nil =>
    simp only [List.foldlM_nil, Option.pure_def, Option.some.injEq] at h
    subst h
    simp
  | cons e rest ih =>
    simp only [List.foldlM_cons, Option.bind_eq_bind] at h
    cases hb : buildMethodDef spec e.2.1 e.1 (withOperationID e.2.1 e.1 e.2.2) with
    | none => simp [fileOp, hb] at h
    | some m0 =>
      simp only [fileOp, hb, Option.map_some', Option.some_bind] at h
      rw [ih _ h, filed_fileUnder]
      constructor
      · rintro ((hx | ⟨hk, hm⟩) | ⟨e2, he2, hx⟩)
        · exact Or.inl hx
        · exact Or.inr ⟨e, List.mem_cons_self _ _, by rw [hb, hm], hk⟩
        · exact Or.inr ⟨e2, List.mem_cons_of_mem _ he2, hx⟩
      · rintro (hx | ⟨e2, he2, hx⟩)
        · exact Or.inl (Or.inl hx)
        · rcases List.mem_cons.mp he2 with rfl | he3
          · rw [hb] at hx
            simp only [Option.some.injEq] at hx
            exact Or.inl (Or.inr ⟨hx.2, hx.1.symm⟩)
          · exact Or.inr ⟨e2, he3, hx⟩

theorem foldlM_fileOp_isSome (spec : OpenAPISpec) (ops : List (String × String × Operation))
    (r0 : GoMap (List MethodDef)) :
    (ops.foldlM (fileOp spec) r0).isSome ↔
      ∀ e ∈ ops, (generateReturnType e.2.2 spec).isSome := by
  induction ops generalizing r0 with
  | nil => simp
  | cons e rest ih =>
    have hg : generateReturnType (withOperationID e.2.1 e.1 e.2.2) spec
        = generateReturnType e.2.2 spec := by
      unfold withOperationID generateReturnType
      split <;> rfl
    simp only [List.foldlM_cons, Option.bind_eq_bind, List.mem_cons, forall_eq_or_imp]
    cases hr : generateReturnType e.2.2 spec with
    | none =>
      have : fileOp spec r0 e = none := by
        simp [fileOp, buildMethodDef, hg, hr]
      simp [this]
    | some t =>
      have : ∃ r1, fileOp spec r0 e = some r1 := by
        simp [fileOp, buildMethodDef, hg, hr]
      obtain ⟨r1, h1⟩ := this
      simp [h1, ih r1]

theorem mem_operationsOf (paths : GoMap PathItem) (e : String × String × Operation) :
    e ∈ operationsOf paths ↔
      ∃ pathItem, (e.1, pathItem) ∈ paths ∧ (e.2.1, some e.2.2) ∈ pathItem.methods := by
  induction paths with
  | nil => simp [operationsOf]
  | cons entry rest ih =>
    obtain ⟨path, item⟩ := entry
    simp only [operationsOf, List.mem_append, ih, definedOps, List.mem_filterMap,
      List.mem_cons, Prod.mk.injEq]
    constructor
    · rintro (⟨method, hm, hx⟩ | ⟨pi, hp, hm⟩)
      · obtain ⟨name, o⟩ := method
        cases o with
        | none => simp at hx
        | some op =>
          simp only [Option.map_some', Option.some.injEq] at hx
          subst hx
          exact ⟨item, Or.inl ⟨rfl, rfl⟩, hm⟩
      · exact ⟨pi, Or.inr hp, hm⟩
    · rintro ⟨pi, (⟨h1, h2⟩ | hp), hm⟩
      · subst h2
        refine Or.inl ⟨(e.2.1, some e.2.2), hm, ?_⟩
        simp [← h1]
      · exact Or.inr ⟨pi, hp, hm⟩

/-- What `groupOperationsByTag` files: exactly the method definitions built from the
defined operations of the document, each under the resource name of its operation. -/
theorem groupOperationsByTag_filed (spec spec2 : OpenAPISpec) (res : GoMap (List MethodDef))
    (h : groupOperationsByTag spec = some (spec2, res)) (k : String) (m : MethodDef) :
    Filed res k m ↔
      ∃ path pathItem methodName op,
        (path, pathItem) ∈ spec.Paths ∧ (methodName, some op) ∈ pathItem.methods ∧
        buildMethodDef spec methodName path (withOperationID methodName path op) = some m ∧
        k = resourceNameOf op path := by
  have h2 : (operationsOf spec.Paths).foldlM (fileOp spec) [] = some res := by
    rw [← groupOperationsByTag_snd, h]; rfl
  rw [foldlM_fileOp_filed spec _ _ _ h2]
  constructor
  · rintro (hx | ⟨e, he, hb, hk⟩)
    · exact absurd hx (not_filed_nil k m)
    · obtain ⟨pi, hp, hm⟩ := (mem_operationsOf _ e).mp he
      exact ⟨e.1, pi, e.2.1, e.2.2, hp, hm, hb, hk⟩
  · rintro ⟨path, pi, name, op, hp, hm, hb, hk⟩
    exact Or.inr ⟨(path, name, op), (mem_operationsOf _ _).mpr ⟨pi, hp, hm⟩, hb, hk⟩

/-- The function `groupOperationsByTag` returns exactly when the return type inference
returns for every defined operation. -/
theorem groupOperationsByTag_isSome (spec : OpenAPISpec) :
    (groupOperationsByTag spec).isSome ↔
      ∀ path pathItem methodName op,
        (path, pathItem) ∈ spec.Paths → (methodName, some op) ∈ pathItem.methods →
        (generateReturnType op spec).isSome := by
  have h1 : (groupOperationsByTag spec).isSome
      = ((groupOperationsByTag spec).map Prod.snd).isSome := by
    cases groupOperationsByTag spec <;> rfl
  rw [h1, groupOperationsByTag_snd, foldlM_fileOp_isSome]
  constructor
  · intro hx path pi name op hp hm
    exact hx (path, name, op) ((mem_operationsOf _ _).mpr ⟨pi, hp, hm⟩)
  · intro hx e he
    obtain ⟨pi, hp, hm⟩ := (mem_operationsOf _ e).mp he
    exact hx e.1 pi e.2.1 e.2.2 hp hm

/-! ## What a built method definition holds -/

theorem foldl_processParam_frame (spec : OpenAPISpec) (params : List Parameter)
    (md : MethodDef) :
    (params.foldl (processParam spec) md).Name = md.Name ∧
    (params.foldl (processParam spec) md).Path = md.Path ∧
    (params.foldl (processParam spec) md).HttpMethod = md.HttpMethod ∧
    (params.foldl (processParam spec) md).ReturnType = md.ReturnType := by
  induction params generalizing md with
  | nil => exact ⟨rfl, rfl, rfl, rfl⟩
  | cons p rest ih =>
    simp only [List.foldl_cons]
    obtain ⟨h1, h2, h3, h4⟩ := ih (processParam spec md p)
    rw [h1, h2, h3, h4]
    unfold processParam
    split
    · exact ⟨rfl, rfl, rfl, rfl⟩
    · split
      · exact ⟨rfl, rfl, rfl, rfl⟩
      · split <;> exact ⟨rfl, rfl, rfl, rfl⟩

theorem foldl_processParam_query (spec : OpenAPISpec) (params : List Parameter)
    (md : MethodDef) :
    (params.foldl (processParam spec) md).QueryParams
      = md.QueryParams ++ (params.filter (fun p => p.In = "query")).map queryParamOf ∧
    ((params.foldl (processParam spec) md).HasQueryParams
      = (md.HasQueryParams || params.any (fun p => p.In = "query"))) := by
  induction params generalizing md with
  | nil => simp
  | cons p rest ih =>
    simp only [List.foldl_cons]
    obtain ⟨h1, h2⟩ := ih (processParam spec md p)
    rw [h1, h2]
    unfold processParam
    by_cases hq : p.In = "query"
    · simp [hq, queryParamOf]
    · rw [if_neg hq]
      split
      · simp [hq]
      · split <;> simp [hq]

theorem foldl_processParam_path (spec : OpenAPISpec) (params : List Parameter)
    (md : MethodDef) :
    (params.foldl (processParam spec) md).PathParams
      = md.PathParams ++ (params.filter (fun p => p.In = "path")).map pathParamOf ∧
    ((params.foldl (processParam spec) md).HasPathParams
      = (md.HasPathParams || params.any (fun p => p.In = "path"))) := by
  induction params generalizing md with
  | nil => simp
  | cons p rest ih =>
    simp only [List.foldl_cons]
    obtain ⟨h1, h2⟩ := ih (processParam spec md p)
    rw [h1, h2]
    unfold processParam
    by_cases hq : p.In = "query"
    · have hp : ¬ p.In = "path" := by rw [hq]; decide
      simp [hq]
    · rw [if_neg hq]
      by_cases hp : p.In = "path"
      · simp [hp, pathParamOf]
      · rw [if_neg hp]
        split <;> simp [hp]

theorem foldl_processParam_no_body (spec : OpenAPISpec) (params : List Parameter)
    (md : MethodDef) (h : ∀ p ∈ params, p.In ≠ "body") :
    (params.foldl (processParam spec) md).RequestBodyType = md.RequestBodyType ∧
    (params.foldl (processParam spec) md).HasRequestBody = md.HasRequestBody := by
  induction params generalizing md with
  | nil => exact ⟨rfl, rfl⟩
  | cons p rest ih =>
    simp only [List.foldl_cons]
    obtain ⟨h1, h2⟩ := ih (processParam spec md p) (fun q hq => h q (List.mem_cons_of_mem _ hq))
    rw [h1, h2]
    have hb : ¬ p.In = "body" := h p (List.mem_cons_self _ _)
    unfold processParam
    by_cases hq : p.In = "query"
    · rw [if_pos hq]
      exact ⟨rfl, rfl⟩
    · rw [if_neg hq]
      by_cases hp : p.In = "path"
      · rw [if_pos hp]
        exact ⟨rfl, rfl⟩
      · rw [if_neg hp, if_neg hb]
        exact ⟨rfl, rfl⟩

theorem processParam_body (spec : OpenAPISpec) (md : MethodDef) (p : Parameter)
    (h : p.In = "body") :
    (processParam spec md p).RequestBodyType = bodyParamType spec p ∧
    (processParam spec md p).HasRequestBody = true := by
  unfold processParam
  rw [if_neg (by rw [h]; decide), if_neg (by rw [h]; decide), if_pos h]
  exact ⟨rfl, rfl⟩

theorem foldl_processParam_last_body (spec : OpenAPISpec) (pre post : List Parameter)
    (p : Parameter) (md : MethodDef) (hp : p.In = "body") (h : ∀ q ∈ post, q.In ≠ "body") :
    ((pre ++ p :: post).foldl (processParam spec) md).RequestBodyType = bodyParamType spec p ∧
    ((pre ++ p :: post).foldl (processParam spec) md).HasRequestBody = true := by
  rw [List.foldl_append, List.foldl_cons]
  obtain ⟨h1, h2⟩ := foldl_processParam_no_body spec post
    (processParam spec (pre.foldl (processParam spec) md) p) h
  rw [h1, h2]
  exact processParam_body spec _ p hp

theorem applyRequestBody_frame (spec : OpenAPISpec) (rb : Option RequestBody) (md : MethodDef) :
    (applyRequestBody spec rb md).Name = md.Name ∧
    (applyRequestBody spec rb md).Path = md.Path ∧
    (applyRequestBody spec rb md).HttpMethod = md.HttpMethod ∧
    (applyRequestBody spec rb md).ReturnType = md.ReturnType ∧
    (applyRequestBody spec rb md).QueryParams = md.QueryParams ∧
    (applyRequestBody spec rb md).HasQueryParams = md.HasQueryParams ∧
    (applyRequestBody spec rb md).PathParams = md.PathParams ∧
    (applyRequestBody spec rb md).HasPathParams = md.HasPathParams := by
  unfold applyRequestBody
  cases rb with
  | none => exact ⟨rfl, rfl, rfl, rfl, rfl, rfl, rfl, rfl⟩
  | some body =>
    simp only
    split <;> exact ⟨rfl, rfl, rfl, rfl, rfl, rfl, rfl, rfl⟩

/-- The fields of a built method definition. -/
theorem buildMethodDef_fields (spec : OpenAPISpec) (methodName path : String) (op : Operation)
    (m : MethodDef) (h : buildMethodDef spec methodName path op = some m) :
    m.Name = op.OperationID ∧ m.Path = path ∧ m.HttpMethod = methodName ∧
    generateReturnType op spec = some m.ReturnType ∧
    m.QueryParams = (op.Parameters.filter (fun p => p.In = "query")).map queryParamOf ∧
    m.HasQueryParams = op.Parameters.any (fun p => p.In = "query") ∧
    m.PathParams = (op.Parameters.filter (fun p => p.In = "path")).map pathParamOf ∧
    m.HasPathParams = op.Parameters.any (fun p => p.In = "path") := by
  unfold buildMethodDef at h
  cases hr : generateReturnType op spec with
  | none => rw [hr] at h; simp at h
  | some t =>
    rw [hr] at h
    simp only [Option.some.injEq] at h
    subst h
    obtain ⟨a1, a2, a3, a4, a5, a6, a7, a8⟩ := applyRequestBody_frame spec op.RequestBody
      (op.Parameters.foldl (processParam spec)
        { Name := op.OperationID, HttpMethod := methodName, Path := path, PathTemplate := path,
          Method := Strs.toLower methodName, ReturnType := t,
          Description := getOperationDescription op, Summary := getOperationSummary op,
          Tags := getOperationTags op, HasQueryParams := false, HasPathParams := false,
          HasRequestBody := false, QueryParams := [], PathParams := [],
          RequestBodyType := "any" })
    rw [a1, a2, a3, a4, a5, a6, a7, a8]
    obtain ⟨b1, b2, b3, b4⟩ := foldl_processParam_frame spec op.Parameters
        { Name := op.OperationID, HttpMethod := methodName, Path := path, PathTemplate := path,
          Method := Strs.toLower methodName, ReturnType := t,
          Description := getOperationDescription op, Summary := getOperationSummary op,
          Tags := getOperationTags op, HasQueryParams := false, HasPathParams := false,
          HasRequestBody := false, QueryParams := [], PathParams := [],
          RequestBodyType := "any" }
    obtain ⟨c1, c2⟩ := foldl_processParam_query spec op.Parameters
        { Name := op.OperationID, HttpMethod := methodName, Path := path, PathTemplate := path,
          Method := Strs.toLower methodName, ReturnType := t,
          Description := getOperationDescription op, Summary := getOperationSummary op,
          Tags := getOperationTags op, HasQueryParams := false, HasPathParams := false,
          HasRequestBody := false, QueryParams := [], PathParams := [],
          RequestBodyType := "any" }
    obtain ⟨d1, d2⟩ := foldl_processParam_path spec op.Parameters
        { Name := op.OperationID, HttpMethod := methodName, Path := path, PathTemplate := path,
          Method := Strs.toLower methodName, ReturnType := t,
          Description := getOperationDescription op, Summary := getOperationSummary op,
          Tags := getOperationTags op, HasQueryParams := false, HasPathParams := false,
          HasRequestBody := false, QueryParams := [], PathParams := [],
          RequestBodyType := "any" }
    rw [b1, b2, b3, b4, c1, c2, d1, d2]
    simp

theorem applyRequestBody_body (spec : OpenAPISpec) (rb : Option RequestBody) (md : MethodDef) :
    (md.HasRequestBody = true →
      (applyRequestBody spec rb md).RequestBodyType = md.RequestBodyType ∧
      (applyRequestBody spec rb md).HasRequestBody = true) ∧
    (md.HasRequestBody = false → ∀ body, rb = some body →
      (applyRequestBody spec rb md).RequestBodyType = requestBodyJsonType spec body ∧
      (applyRequestBody spec rb md).HasRequestBody = true) := by
  constructor
  · intro h
    unfold applyRequestBody
    cases rb with
    | none => exact ⟨rfl, h⟩
    | some body =>
      simp only
      rw [if_neg (by simp [h])]
      exact ⟨rfl, h⟩
  · intro h body hb
    subst hb
    unfold applyRequestBody
    simp only
    rw [if_pos (by simp [h])]
    exact ⟨rfl, rfl⟩

/-- The request body type of a built method definition. -/
theorem buildMethodDef_requestBody (spec : OpenAPISpec) (methodName path : String)
    (op : Operation) (m : MethodDef) (h : buildMethodDef spec methodName path op = some m) :
    (∀ pre p post, op.Parameters = pre ++ p :: post → p.In = "body" →
      (∀ q ∈ post, q.In ≠ "body") →
      m.RequestBodyType = bodyParamType spec p ∧ m.HasRequestBody = true) ∧
    ((∀ p ∈ op.Parameters, p.In ≠ "body") → ∀ body, op.RequestBody = some body →
      m.RequestBodyType = requestBodyJsonType spec body ∧ m.HasRequestBody = true) := by
  unfold buildMethodDef at h
  cases hr : generateReturnType op spec with
  | none => rw [hr] at h; simp at h
  | some t =>
    rw [hr] at h
    simp only [Option.some.injEq] at h
    subst h
    constructor
    · intro pre p post hpar hp hpost
      rw [hpar]
      obtain ⟨h1, h2⟩ := foldl_processParam_last_body spec pre post p
        { Name := op.OperationID, HttpMethod := methodName, Path := path, PathTemplate := path,
          Method := Strs.toLower methodName, ReturnType := t,
          Description := getOperationDescription op, Summary := getOperationSummary op,
          Tags := getOperationTags op, HasQueryParams := false, HasPathParams := false,
          HasRequestBody := false, QueryParams := [], PathParams := [],
          RequestBodyType := "any" } hp hpost
      obtain ⟨h3, h4⟩ := (applyRequestBody_body spec op.RequestBody _).1 h2
      rw [h3, h4, h1]
      exact ⟨rfl, rfl⟩
    · intro hno body hb
      obtain ⟨h1, h2⟩ := foldl_processParam_no_body spec op.Parameters
        { Name := op.OperationID, HttpMethod := methodName, Path := path, PathTemplate := path,
          Method := Strs.toLower methodName, ReturnType := t,
          Description := getOperationDescription op, Summary := getOperationSummary op,
          Tags := getOperationTags op, HasQueryParams := false, HasPathParams := false,
          HasRequestBody := false, QueryParams := [], PathParams := [],
          RequestBodyType := "any" } hno
      exact (applyRequestBody_body spec op.RequestBody _).2 h2 body hb

/-- Every defined operation gets its method definition filed, provided the return type
inference returns for every defined operation. -/
theorem groupOperationsByTag_files (spec : OpenAPISpec)
    (hret : ∀ path pathItem methodName op,
      (path, pathItem) ∈ spec.Paths → (methodName, some op) ∈ pathItem.methods →
      (generateReturnType op spec).isSome)
    (path : String) (pathItem : PathItem) (methodName : String) (op : Operation)
    (hp : (path, pathItem) ∈ spec.Paths) (hm : (methodName, some op) ∈ pathItem.methods) :
    ∃ spec2 res m, groupOperationsByTag spec = some (spec2, res) ∧
      buildMethodDef spec methodName path (withOperationID methodName path op) = some m ∧
      Filed res (resourceNameOf op path) m := by
  have hs := (groupOperationsByTag_isSome spec).mpr hret
  obtain ⟨r, hr⟩ := Option.isSome_iff_exists.mp hs
  obtain ⟨spec2, res⟩ := r
  have hg : generateReturnType (withOperationID methodName path op) spec
      = generateReturnType op spec := by
    unfold withOperationID generateReturnType
    split <;> rfl
  obtain ⟨t, ht⟩ := Option.isSome_iff_exists.mp (hret path pathItem methodName op hp hm)
  have hb : ∃ m, buildMethodDef spec methodName path (withOperationID methodName path op)
      = some m := by
    simp [buildMethodDef, hg, ht]
  obtain ⟨m, hm2⟩ := hb
  exact ⟨spec2, res, m, hr, hm2,
    (groupOperationsByTag_filed spec spec2 res hr _ m).mpr
      ⟨path, pathItem, methodName, op, hp, hm, hm2, rfl⟩⟩

/-! ## Non-empty identifiers -/

theorem toLower_ne_empty (s : String) (h : s ≠ "") : Strs.toLower s ≠ "" := by
  intro e
  apply h
  have h1 : (Strs.toLower s).data = [] := by rw [e]
  simp only [Strs.toLower, List.map_eq_nil_iff] at h1
  exact String.ext h1

theorem generateOperationID_ne_empty (m path : String) (h : m ≠ "") :
    generateOperationID m path ≠ "" := by
  rw [generateOperationID_eq]
  intro e
  apply toLower_ne_empty m h
  have h1 : (Strs.toLower m ++ pathSuffix path).data = [] := by rw [e]
  rw [String.data_append, List.append_eq_nil] at h1
  exact String.ext h1.1

theorem methods_name_ne_empty (pathItem : PathItem) (methodName : String)
    (o : Option Operation) (h : (methodName, o) ∈ pathItem.methods) : methodName ≠ "" := by
  simp only [PathItem.methods, List.mem_cons, Prod.mk.injEq, List.mem_singleton,
    List.not_mem_nil, or_false] at h
  rcases h with h | h | h | h | h <;> (rw [h.1]; decide)

/-- C11: every method definition that `groupOperationsByTag` files has a non-empty name,
whether the operation declared its identifier or not. -/
theorem methodDef_name_nonempty (spec spec2 : OpenAPISpec) (res : GoMap (List MethodDef))
    (h : groupOperationsByTag spec = some (spec2, res))
    (key : String) (ms : List MethodDef) (hk : res.get? key = some ms)
    (m : MethodDef) (hm : m ∈ ms) : m.Name ≠ "" := by
  obtain ⟨path, pathItem, methodName, op, _, hmeth, hb, _⟩ :=
    (groupOperationsByTag_filed spec spec2 res h key m).mp ⟨ms, hk, hm⟩
  rw [(buildMethodDef_fields spec methodName path _ m hb).1]
  unfold withOperationID
  by_cases he : op.OperationID = ""
  · rw [if_pos he]
    exact generateOperationID_ne_empty _ _ (methods_name_ne_empty pathItem methodName _ hmeth)
  · rw [if_neg he]
    exact he

theorem methodDef_name_nonempty_witness :
    (groupOperationsByTag rootDoc).map
        (fun r => r.2.map (fun e => (e.1, e.2.map MethodDef.Name)))
      = some [("", ["get", "post"]), ("x", ["putIt"])] ∧
    ∃ r, groupOperationsByTag rootDoc = some r ∧
      ∀ key ms, r.2.get? key = some ms → ∀ m ∈ ms, m.Name ≠ "" := by
  refine ⟨by decide, ?_⟩
  have hs : (groupOperationsByTag rootDoc).isSome = true := by decide
  obtain ⟨r, hr⟩ := Option.isSome_iff_exists.mp hs
  exact ⟨r, hr, fun key ms hk m hm => methodDef_name_nonempty rootDoc r.1 r.2 hr key ms hk m hm⟩

/-- C12: two distinct paths synthesize the same identifier for the same method. -/
theorem generateOperationID_collision :
    ∃ (m p1 p2 : String), p1 ≠ p2 ∧ generateOperationID m p1 = generateOperationID m p2 ∧
      p1 = "/pets/{id}" ∧ p2 = "/pets/id" :=
  ⟨"GET", "/pets/{id}", "/pets/id", by decide, by decide, rfl, rfl⟩

/-- C14 (the code diverges from the claim): the tags `Pets` and `pets` are equal ignoring
case, yet the two operations are filed under two different keys. -/
theorem grouping_is_case_sensitive :
    Strs.equalFold "Pets" "pets" = true ∧
    (groupOperationsByTag caseDoc).map
        (fun r => r.2.map (fun e => (e.1, e.2.map MethodDef.Name)))
      = some [("Pets", ["getPets"]), ("pets", ["postPets"])] := by
  decide

/-! ## The owning resource -/

theorem splitL_head (sep : Char) (x : List Char) :
    ∃ tl, Strs.splitL sep x = x.takeWhile (fun c => c != sep) :: tl := by
  induction x with
  | nil => exact ⟨[], rfl⟩
  | cons c cs ih =>
    obtain ⟨tl, h⟩ := ih
    by_cases hc : c = sep
    · refine ⟨Strs.splitL sep cs, ?_⟩
      simp [Strs.splitL, hc]
    · refine ⟨tl, ?_⟩
      simp [Strs.splitL, hc, h]

theorem splitL_find_nonempty (sep : Char) (l seg : List Char)
    (h : (Strs.splitL sep l).find? (fun s => decide (s ≠ [])) = some seg) :
    seg = (l.dropWhile (fun c => c == sep)).takeWhile (fun c => c != sep) := by
  induction l with
  | nil => simp [Strs.splitL] at h
  | cons c cs ih =>
    by_cases hc : c = sep
    · subst hc
      simp only [Strs.splitL, if_true, List.find?_cons, ne_eq, not_true_eq_false,
        decide_False] at h
      simp only [List.dropWhile_cons, beq_self_eq_true, if_true]
      exact ih h
    · obtain ⟨tl, ht⟩ := splitL_head sep cs
      simp only [Strs.splitL, if_neg hc, ht, List.find?_cons, ne_eq, reduceCtorEq,
        not_false_eq_true, decide_True, Option.some.injEq] at h
      have hb : (c == sep) = false := by simpa using hc
      simp only [List.dropWhile_cons, hb, Bool.false_eq_true, if_false, List.takeWhile_cons]
      have hn : (c != sep) = true := by simpa using hc
      simp only [hn, if_true]
      exact h.symm

theorem takeWhile_append_of_all_fail (q : Char → Bool) (r t : List Char)
    (h : ∀ c ∈ t, q c = false) : (r ++ t).takeWhile q = r.takeWhile q := by
  induction r with
  | nil =>
    cases t with
    | nil => rfl
    | cons a t2 => simp [List.takeWhile_cons, h a (List.mem_cons_self _ _)]
  | cons a r2 ih =>
    simp only [List.cons_append, List.takeWhile_cons, ih]

theorem takeWhile_trimTrailing (sep : Char) (x : List Char) :
    ((x.reverse.dropWhile (fun c => c == sep)).reverse).takeWhile (fun c => c != sep)
      = x.takeWhile (fun c => c != sep) := by
  have hx : x = (x.reverse.dropWhile (fun c => c == sep)).reverse
      ++ (x.reverse.takeWhile (fun c => c == sep)).reverse := by
    rw [← List.reverse_append, List.takeWhile_append_dropWhile, List.reverse_reverse]
  conv_rhs => rw [hx]
  rw [takeWhile_append_of_all_fail]
  intro c hc
  have h1 := List.mem_takeWhile_imp (List.mem_reverse.mp hc)
  simp only [beq_iff_eq] at h1
  simp [h1]

theorem resourceNameOf_tag (op : Operation) (path tag : String) (rest : List String)
    (h : op.Tags = tag :: rest) : resourceNameOf op path = tag := by
  unfold resourceNameOf
  rw [h]

theorem resourceNameOf_segment (op : Operation) (path seg : String) (h : op.Tags = [])
    (hs : (Strs.split path '/').find? (fun s => decide (s ≠ "")) = some seg) :
    resourceNameOf op path = seg := by
  unfold resourceNameOf
  rw [h]
  simp only
  unfold Strs.split at hs
  rw [List.find?_map] at hs
  cases hf : (Strs.splitL '/' path.data).find? ((fun s => decide (s ≠ "")) ∘ String.mk) with
  | none => rw [hf] at hs; simp at hs
  | some segL =>
    rw [hf] at hs
    simp only [Option.map_some', Option.some.injEq] at hs
    have hf2 : (Strs.splitL '/' path.data).find? (fun s => decide (s ≠ [])) = some segL := by
      rw [← hf]
      congr 1
      funext s
      simp only [Function.comp, ne_eq, decide_not]
      congr 1
      have hiff : s = [] ↔ (⟨s⟩ : String) = "" := by
        constructor
        · intro e; exact congrArg String.mk e
        · intro e; exact congrArg String.data e
      exact decide_eq_decide.mpr hiff
    have hseg := splitL_find_nonempty '/' path.data segL hf2
    obtain ⟨tl, ht⟩ := splitL_head '/' (Strs.trimBoth path '/').data
    simp only [Strs.split, ht, List.map_cons]
    rw [← hs, hseg]
    congr 1
    exact takeWhile_trimTrailing '/' _

/-- C13: provided the return type inference returns for every defined operation, the
method definition of every defined operation is filed under the operation's first tag
when it has tags, and otherwise under the first non-empty `/`-delimited segment of the
path when there is one. -/
theorem owning_resource (spec : OpenAPISpec)
    (hret : ∀ path pathItem methodName op,
      (path, pathItem) ∈ spec.Paths → (methodName, some op) ∈ pathItem.methods →
      (generateReturnType op spec).isSome)
    (path : String) (pathItem : PathItem) (methodName : String) (op : Operation)
    (hp : (path, pathItem) ∈ spec.Paths) (hm : (methodName, some op) ∈ pathItem.methods) :
    ∃ spec2 res m, groupOperationsByTag spec = some (spec2, res) ∧
      m.Path = path ∧ m.HttpMethod = methodName ∧
      (∀ tag rest, op.Tags = tag :: rest → Filed res tag m) ∧
      (∀ seg, op.Tags = [] →
        (Strs.split path '/').find? (fun s => decide (s ≠ "")) = some seg → Filed res seg m) := by
  obtain ⟨spec2, res, m, hg, hb, hf⟩ :=
    groupOperationsByTag_files spec hret path pathItem methodName op hp hm
  obtain ⟨_, h2, h3, _⟩ := buildMethodDef_fields spec methodName path _ m hb
  refine ⟨spec2, res, m, hg, h2, h3, ?_, ?_⟩
  · intro tag rest ht
    rw [← resourceNameOf_tag op path tag rest ht]
    exact hf
  · intro seg ht hs
    rw [← resourceNameOf_segment op path seg ht hs]
    exact hf

theorem owning_resource_witness :
    (∃ spec2 res m, groupOperationsByTag searchDoc = some (spec2, res) ∧
      m.Path = "//orders//{id}" ∧ Filed res "orders" m) ∧
    (∃ spec2 res m, groupOperationsByTag createDoc = some (spec2, res) ∧
      m.Path = "/orders" ∧ Filed res "Orders" m) := by
  constructor
  · obtain ⟨spec2, res, m, h1, h2, _, _, h4⟩ := owning_resource searchDoc
      ((groupOperationsByTag_isSome searchDoc).mp (by decide))
      "//orders//{id}" { Post := some searchOp } "POST" searchOp
      (List.Mem.head _) (List.Mem.tail _ (List.Mem.head _))
    exact ⟨spec2, res, m, h1, h2, h4 "orders" rfl (by decide)⟩
  · obtain ⟨spec2, res, m, h1, h2, _, h3, _⟩ := owning_resource createDoc
      ((groupOperationsByTag_isSome createDoc).mp (by decide))
      "/orders" { Post := some createOp } "POST" createOp
      (List.Mem.head _) (List.Mem.tail _ (List.Mem.head _))
    exact ⟨spec2, res, m, h1, h2, h3 "Orders" ["Admin"] rfl⟩

/-! ## Parameter buckets and request body -/

theorem withOperationID_fields (methodName path : String) (op : Operation) :
    (withOperationID methodName path op).Parameters = op.Parameters ∧
    (withOperationID methodName path op).RequestBody = op.RequestBody ∧
    (withOperationID methodName path op).Responses = op.Responses ∧
    (withOperationID methodName path op).Tags = op.Tags := by
  unfold withOperationID
  split <;> exact ⟨rfl, rfl, rfl, rfl⟩

theorem any_eq_true_iff_filter_map_ne_nil {α β : Type} (l : List α) (q : α → Bool) (f : α → β) :
    l.any q = true ↔ (l.filter q).map f ≠ [] := by
  induction l with
  | nil => simp
  | cons a rest ih =>
    by_cases h : q a = true
    · simp [List.filter_cons, h]
    · have hf : q a = false := by simpa using h
      simp only [List.any_cons, hf, Bool.false_or, List.filter_cons, Bool.false_eq_true,
        if_false]
      exact ih

/-- C15: provided the return type inference returns for every defined operation, the
method definition filed for a defined operation has as query parameters exactly the
parameters located in `query` and as path parameters exactly those located in `path`, each
in input order with name, required flag (query only), description and the type from
`getParamTypeString`; each flag is set exactly when its list is non-empty. -/
theorem parameter_bucketing (spec : OpenAPISpec)
    (hret : ∀ path pathItem methodName op,
      (path, pathItem) ∈ spec.Paths → (methodName, some op) ∈ pathItem.methods →
      (generateReturnType op spec).isSome)
    (path : String) (pathItem : PathItem) (methodName : String) (op : Operation)
    (hp : (path, pathItem) ∈ spec.Paths) (hm : (methodName, some op) ∈ pathItem.methods) :
    ∃ spec2 res m, groupOperationsByTag spec = some (spec2, res) ∧
      Filed res (resourceNameOf op path) m ∧ m.Path = path ∧ m.HttpMethod = methodName ∧
      m.QueryParams = (op.Parameters.filter (fun p => p.In = "query")).map
        (fun p => { Name := p.Name, Typ := getParamTypeString p, Required := p.Required,
                    Description := p.Description }) ∧
      m.PathParams = (op.Parameters.filter (fun p => p.In = "path")).map
        (fun p => { Name := p.Name, Typ := getParamTypeString p,
                    Description := p.Description }) ∧
      (m.HasQueryParams = true ↔ m.QueryParams ≠ []) ∧
      (m.HasPathParams = true ↔ m.PathParams ≠ []) := by
  obtain ⟨spec2, res, m, hg, hb, hf⟩ :=
    groupOperationsByTag_files spec hret path pathItem methodName op hp hm
  obtain ⟨_, h2, h3, _, h5, h6, h7, h8⟩ := buildMethodDef_fields spec methodName path _ m hb
  rw [(withOperationID_fields methodName path op).1] at h5 h6 h7 h8
  refine ⟨spec2, res, m, hg, hf, h2, h3, h5, h7, ?_, ?_⟩
  · rw [h6, h5]
    exact any_eq_true_iff_filter_map_ne_nil _ _ _
  · rw [h8, h7]
    exact any_eq_true_iff_filter_map_ne_nil _ _ _

theorem parameter_bucketing_witness :
    ∃ spec2 res m, groupOperationsByTag searchDoc = some (spec2, res) ∧
      Filed res "orders" m ∧
      m.QueryParams = [{ Name := "q", Typ := "string", Required := true },
                       { Name := "limit", Typ := "number" }] ∧
      m.PathParams = [{ Name := "id", Typ := "number" }] ∧
      m.HasQueryParams = true ∧ m.HasPathParams = true := by
  obtain ⟨spec2, res, m, h1, h2, _, _, h5, h6, h7, h8⟩ := parameter_bucketing searchDoc
    ((groupOperationsByTag_isSome searchDoc).mp (by decide))
    "//orders//{id}" { Post := some searchOp } "POST" searchOp
    (List.Mem.head _) (List.Mem.tail _ (List.Mem.head _))
  refine ⟨spec2, res, m, h1, h2, h5, h6, h7.mpr ?_, h8.mpr ?_⟩
  · rw [h5]; decide
  · rw [h6]; decide

/-- C16: provided the return type inference returns for every defined operation, the
request body type of the method definition filed for a defined operation is the one
derived from its last parameter located in `body` whenever it has one, whether or not it
also has a request body; without such a parameter and with a request body it is the type
of the `application/json` schema of the request body, or `any` when that media type or its
schema is absent. -/
theorem request_body_precedence (spec : OpenAPISpec)
    (hret : ∀ path pathItem methodName op,
      (path, pathItem) ∈ spec.Paths → (methodName, some op) ∈ pathItem.methods →
      (generateReturnType op spec).isSome)
    (path : String) (pathItem : PathItem) (methodName : String) (op : Operation)
    (hp : (path, pathItem) ∈ spec.Paths) (hm : (methodName, some op) ∈ pathItem.methods) :
    ∃ spec2 res m, groupOperationsByTag spec = some (spec2, res) ∧
      Filed res (resourceNameOf op path) m ∧ m.Path = path ∧ m.HttpMethod = methodName ∧
      (∀ pre p post, op.Parameters = pre ++ p :: post → p.In = "body" →
        (∀ q ∈ post, q.In ≠ "body") →
        m.HasRequestBody = true ∧
        m.RequestBodyType =
          (match p.Schema with
            | some schema => getTypeFromSchema (some schema) spec
            | none => "any")) ∧
      ((∀ p ∈ op.Parameters, p.In ≠ "body") → ∀ body, op.RequestBody = some body →
        m.HasRequestBody = true ∧
        m.RequestBodyType =
          (match body.Content.get? "application/json" with
            | some content =>
              (match content.Schema with
                | some schema => getTypeFromSchema (some schema) spec
                | none => "any")
            | none => "any")) := by
  obtain ⟨spec2, res, m, hg, hb, hf⟩ :=
    groupOperationsByTag_files spec hret path pathItem methodName op hp hm
  obtain ⟨_, h2, h3, _⟩ := buildMethodDef_fields spec methodName path _ m hb
  obtain ⟨r1, r2⟩ := buildMethodDef_requestBody spec methodName path _ m hb
  obtain ⟨w1, w2, _, _⟩ := withOperationID_fields methodName path op
  rw [w1] at r1 r2
  rw [w2] at r2
  refine ⟨spec2, res, m, hg, hf, h2, h3, ?_, ?_⟩
  · intro pre p post hpar hpb hpost
    obtain ⟨a, b⟩ := r1 pre p post hpar hpb hpost
    exact ⟨b, a⟩
  · intro hno body hbody
    obtain ⟨a, b⟩ := r2 hno body hbody
    exact ⟨b, a⟩

theorem request_body_precedence_witness :
    (∃ spec2 res m, groupOperationsByTag searchDoc = some (spec2, res) ∧
      Filed res "orders" m ∧ m.RequestBodyType = "Types.Pet") ∧
    (∃ spec2 res m, groupOperationsByTag createDoc = some (spec2, res) ∧
      Filed res "Orders" m ∧ m.RequestBodyType = "Types.Order") := by
  constructor
  · obtain ⟨spec2, res, m, h1, h2, _, _, h5, _⟩ := request_body_precedence searchDoc
      ((groupOperationsByTag_isSome searchDoc).mp (by decide))
      "//orders//{id}" { Post := some searchOp } "POST" searchOp
      (List.Mem.head _) (List.Mem.tail _ (List.Mem.head _))
    refine ⟨spec2, res, m, h1, h2, ?_⟩
    exact (h5 [{ Name := "q", In := "query", Required := true, Typ := "string" },
        { Name := "id", In := "path",
          Schema := some (.mk "integer" "" [] none [] "" [] [] [] [] []) },
        { Name := "X-Trace", In := "header", Typ := "string" }]
      { Name := "payload", In := "body", Schema := some (refSchema "#/definitions/Pet") }
      [{ Name := "limit", In := "query", Typ := "integer" }] rfl rfl (by decide)).2
  · obtain ⟨spec2, res, m, h1, h2, _, _, _, h6⟩ := request_body_precedence createDoc
      ((groupOperationsByTag_isSome createDoc).mp (by decide))
      "/orders" { Post := some createOp } "POST" createOp
      (List.Mem.head _) (List.Mem.tail _ (List.Mem.head _))
    refine ⟨spec2, res, m, h1, h2, ?_⟩
    exact (h6 (by decide)
      { Content := [("application/json", { Schema := some (refSchema "#/definitions/Order") })] }
      rfl).2

/-! ## Return type inference -/

theorem returnTypeLoop_first_success (spec : OpenAPISpec) (pre : GoMap Response)
    (code : String) (response : Response) (rest : GoMap Response) (t : String)
    (hpre : ∀ e ∈ pre, e.1 ≠ "200" ∧ e.1 ≠ "201") (hc : code = "200" ∨ code = "201")
    (ht : responseStep spec response = some (some t)) :
    returnTypeLoop spec (pre ++ (code, response) :: rest) = some t := by
  induction pre with
  | nil => simp only [List.nil_append, returnTypeLoop, if_pos hc, ht]
  | cons e pre2 ih =>
    obtain ⟨c, r⟩ := e
    have hc2 := hpre (c, r) (List.mem_cons_self _ _)
    have hn : ¬ (c = "200" ∨ c = "201") := by
      rintro (h | h)
      · exact hc2.1 h
      · exact hc2.2 h
    simp only [List.cons_append, returnTypeLoop, if_neg hn]
    exact ih (fun e he => hpre e (List.mem_cons_of_mem _ he))

/-- C17 (the code diverges from the claim): the two operations hold the same responses
mapping, `200` yielding `number` and `201` yielding `string`; enumerated with `200` first
the result is `number`, enumerated with `201` first it is `string`, so `200` has no
priority and the result depends on the enumeration order. -/
theorem generateReturnType_follows_enumeration_order :
    responseStep {} (typedResponse "number") = some (some "number") ∧
    responseStep {} (typedResponse "string") = some (some "string") ∧
    createdFirstOp.Responses.get? "200" = okFirstOp.Responses.get? "200" ∧
    createdFirstOp.Responses.get? "201" = okFirstOp.Responses.get? "201" ∧
    createdFirstOp.Responses.Perm okFirstOp.Responses ∧
    generateReturnType okFirstOp {} = some "number" ∧
    generateReturnType createdFirstOp {} = some "string" ∧
    generateReturnType createdFirstOp {} ≠ some "number" := by
  refine ⟨by decide, by decide, rfl, rfl, ?_, by decide, by decide, by decide⟩
  exact List.Perm.swap _ _ _

theorem getTypeFromSchema_any (schema : Schema) (spec : OpenAPISpec) (href : schema.Ref = "")
    (htype : schema.Typ ≠ "string" ∧ schema.Typ ≠ "number" ∧ schema.Typ ≠ "integer" ∧
      schema.Typ ≠ "boolean" ∧ schema.Typ ≠ "array") :
    getTypeFromSchema (some schema) spec = "any" := by
  cases schema with
  | mk t f p i r rf a o y e x =>
    simp only [Schema.Typ, Schema.Ref] at href htype
    simp [getTypeFromSchema, getTypeFromSchemaWithContext, getTypeOfSchema, href, htype.1,
      htype.2.1, htype.2.2.1, htype.2.2.2.1, htype.2.2.2.2]

theorem lastOr_append_singleton (xs : List String) (x : String) :
    Strs.lastOr (xs ++ [x]) = x := by
  induction xs with
  | nil => rfl
  | cons a rest ih =>
    cases rest with
    | nil => rfl
    | cons b rest2 =>
      simp only [List.cons_append] at ih ⊢
      rw [Strs.lastOr]
      exact ih

theorem getRefName_last_segment (refPre name : String) (h : '/' ∉ name.data) :
    getRefName (refPre ++ "/" ++ name) = sanitizeTypeName name := by
  unfold getRefName
  simp only
  congr 1
  unfold Strs.split
  have hd : (refPre ++ "/" ++ name).data = refPre.data ++ '/' :: name.data := by
    simp [String.data_append]
  rw [hd, splitL_append_sep, splitL_no_sep '/' name.data
    (fun c hc e => h (e ▸ hc)), List.map_append]
  exact lastOr_append_singleton _ _

/-- C18: an operation whose first success response has no content and a direct schema
without reference and without primitive or array type, composed as
`allOf [properties.data: allOf [properties.data: array of a reference ending in /N]]`,
gets the envelope type around `Types.` followed by the sanitized `N`. -/
theorem envelope_inference (spec : OpenAPISpec) (op : Operation)
    (pre : GoMap Response) (code : String) (response : Response) (rest : GoMap Response)
    (schema outer data inner array items : Schema) (refPre name : String)
    (hop : op.Responses = pre ++ (code, response) :: rest)
    (hpre : ∀ e ∈ pre, e.1 ≠ "200" ∧ e.1 ≠ "201") (hc : code = "200" ∨ code = "201")
    (hcontent : response.Content = []) (hschema : response.Schema = some schema)
    (href : schema.Ref = "")
    (htype : schema.Typ ≠ "string" ∧ schema.Typ ≠ "number" ∧ schema.Typ ≠ "integer" ∧
      schema.Typ ≠ "boolean" ∧ schema.Typ ≠ "array")
    (hallOf : schema.AllOf = [some outer])
    (houter : outer.Properties = [("data", some data)])
    (hdata : data.AllOf = [some inner])
    (hinner : inner.Properties = [("data", some array)])
    (harray : array.Typ = "array") (hitems : array.Items = some items)
    (hitemsRef : items.Ref = refPre ++ "/" ++ name) (hname : '/' ∉ name.data) :
    generateReturnType op spec =
      some ("\x7b data: \x7b data: " ++ ("Types." ++ sanitizeTypeName name)
        ++ "[]; pagination: any \x7d; error: boolean; message: string \x7d") := by
  unfold generateReturnType
  rw [hop]
  apply returnTypeLoop_first_success spec pre code response rest _ hpre hc
  have hne : items.Ref ≠ "" := by
    rw [hitemsRef]
    intro e
    have := congrArg String.data e
    simp [String.data_append] at this
  have hitemsType : getTypeFromSchema (some items) spec = "Types." ++ sanitizeTypeName name := by
    cases items with
    | mk t f p i r rf a o y e x =>
      simp only [Schema.Ref] at hitemsRef hne
      simp only [getTypeFromSchema, getTypeFromSchemaWithContext, getTypeOfSchema, hne, ne_eq,
        not_false_eq_true, if_true, Bool.false_eq_true, if_false]
      rw [hitemsRef, getRefName_last_segment refPre name hname]
  have hany : getTypeFromSchema (some schema) spec = "any" :=
    getTypeFromSchema_any schema spec href htype
  have hnested : nestedDataLoop spec [some inner] =
      some (some ("\x7b data: \x7b data: " ++ ("Types." ++ sanitizeTypeName name)
        ++ "[]; pagination: any \x7d; error: boolean; message: string \x7d")) := by
    simp only [nestedDataLoop, hinner, GoMap.get?, if_true, hitems, harray, hne, ne_eq,
      not_false_eq_true, and_self, hitemsType]
  have hstep : dataPropertyStep spec outer =
      some (some ("\x7b data: \x7b data: " ++ ("Types." ++ sanitizeTypeName name)
        ++ "[]; pagination: any \x7d; error: boolean; message: string \x7d")) := by
    simp only [dataPropertyStep, houter, GoMap.get?, if_true, hdata, List.length_singleton,
      gt_iff_lt, Nat.lt_one_iff, Nat.zero_lt_one, hnested]
  simp only [responseStep, hcontent, contentLoop, hschema, hany, ne_eq, not_true_eq_false,
    if_false, hallOf, List.length_singleton, gt_iff_lt, Nat.zero_lt_one, if_true,
    generateAllOfReturnType, hstep, Option.map_some']

theorem envelope_inference_witness :
    generateReturnType listPetsOp {} =
      some "\x7b data: \x7b data: Types.Pet[]; pagination: any \x7d; error: boolean; message: string \x7d" :=
  envelope_inference {} listPetsOp [("404", {})] "200"
    { Schema := some (envelopeSchema "#/definitions/Pet") } []
    (envelopeSchema "#/definitions/Pet")
    (propsSchema [("data", some (.mk "" "" [] none [] ""
      [some (propsSchema [("data", some (.mk "array" "" [] (some (refSchema "#/definitions/Pet"))
        [] "" [] [] [] [] []))])] [] [] [] []))])
    (.mk "" "" [] none [] ""
      [some (propsSchema [("data", some (.mk "array" "" [] (some (refSchema "#/definitions/Pet"))
        [] "" [] [] [] [] []))])] [] [] [] [])
    (propsSchema [("data", some (.mk "array" "" [] (some (refSchema "#/definitions/Pet"))
        [] "" [] [] [] [] []))])
    (.mk "array" "" [] (some (refSchema "#/definitions/Pet")) [] "" [] [] [] [] [])
    (refSchema "#/definitions/Pet") "#/definitions" "Pet"
    rfl (by decide) (Or.inl rfl) rfl rfl rfl (by decide) rfl rfl rfl rfl rfl rfl rfl (by decide)

/-! ## Degenerate references -/

theorem containsL_append_left (sub a b : List Char) (h : Strs.containsL sub b = true) :
    Strs.containsL sub (a ++ b) = true := by
  induction a with
  | nil => exact h
  | cons c a2 ih =>
    simp only [List.cons_append, Strs.containsL, Bool.or_eq_true]
    exact Or.inr ih

theorem returnTypeLoop_no_concrete (spec : OpenAPISpec) (responses : GoMap Response)
    (h : ∀ e ∈ responses, (e.1 = "200" ∨ e.1 = "201") →
      responseStep spec e.2 = some none ∨ responseStep spec e.2 = some (some "any")) :
    returnTypeLoop spec responses = some "any" := by
  induction responses with
  | nil => rfl
  | cons e rest ih =>
    obtain ⟨code, response⟩ := e
    have ih2 := ih (fun e he => h e (List.mem_cons_of_mem _ he))
    simp only [returnTypeLoop]
    by_cases hc : code = "200" ∨ code = "201"
    · rw [if_pos hc]
      rcases h (code, response) (List.mem_cons_self _ _) hc with h1 | h1
      · simp only [h1]; exact ih2
      · simp only [h1]
    · rw [if_neg hc]; exact ih2

theorem generateAllOfReturnType_degenerate (spec : OpenAPISpec) (allOf : List (Option Schema))
    (h : ∀ sub ∈ allOf, ∃ s, sub = some s ∧ s.Properties.get? "data" = none ∧
      (s.Ref = "" ∨ Strs.containsStr (getRefName s.Ref) "pkg_" = true ∨
        Strs.containsStr (getRefName s.Ref) "fiber_" = true)) :
    generateAllOfReturnType spec allOf = some "any" := by
  induction allOf with
  | nil => rfl
  | cons sub rest ih =>
    obtain ⟨s, hs, hdata, href⟩ := h sub (List.mem_cons_self _ _)
    subst hs
    have ih2 := ih (fun e he => h e (List.mem_cons_of_mem _ he))
    have hstep : dataPropertyStep spec s = some none := by
      simp only [dataPropertyStep, hdata]
    have hdirect : directRefStep spec s = none := by
      unfold directRefStep
      by_cases hr : s.Ref ≠ ""
      · rw [if_pos hr]
        simp only
        have hty : getTypeFromSchema (some s) spec = "Types." ++ getRefName s.Ref := by
          cases s with
          | mk t f p i r rf a o y e x =>
            simp only [Schema.Ref] at hr
            simp [getTypeFromSchema, getTypeFromSchemaWithContext, getTypeOfSchema, hr,
              Schema.Ref]
        rw [hty]
        rcases href with h0 | h1 | h2
        · exact absurd h0 hr
        · have : Strs.containsStr ("Types." ++ getRefName s.Ref) "pkg_" = true := by
            unfold Strs.containsStr at h1 ⊢
            rw [String.data_append]
            exact containsL_append_left _ _ _ h1
          rw [if_neg (by simp [this])]
        · have : Strs.containsStr ("Types." ++ getRefName s.Ref) "fiber_" = true := by
            unfold Strs.containsStr at h2 ⊢
            rw [String.data_append]
            exact containsL_append_left _ _ _ h2
          rw [if_neg (by simp [this])]
      · rw [if_neg hr]
    simp only [generateAllOfReturnType, hstep, hdirect]
    exact ih2

/-- C19 (as stated, refuted): the only reference in the success response is the
degenerate `pkg.Response`, whose sanitized name contains `pkg_`, and the result is
`Types.pkg_Response`, not `any`. -/
theorem generateReturnType_direct_degenerate_reference :
    Strs.containsStr (sanitizeTypeName "pkg.Response") "pkg_" = true ∧
    generateReturnType degenerateOp {} = some "Types.pkg_Response" ∧
    generateReturnType degenerateOp {} ≠ some "any" := by
  decide

/-- C19 (amended): when no success response yields a concrete type the result is `any`;
and a success response without content whose direct schema has no reference, no primitive
or array type, and composes only members without a `data` property that hold no reference
or a degenerate one (sanitized name containing `pkg_` or `fiber_`) yields no concrete
type. -/
theorem generateReturnType_any (spec : OpenAPISpec) :
    (∀ op : Operation,
      (∀ e ∈ op.Responses, (e.1 = "200" ∨ e.1 = "201") →
        responseStep spec e.2 = some none ∨ responseStep spec e.2 = some (some "any")) →
      generateReturnType op spec = some "any") ∧
    (∀ (response : Response) (schema : Schema),
      response.Content = [] → response.Schema = some schema → schema.Ref = "" →
      (schema.Typ ≠ "string" ∧ schema.Typ ≠ "number" ∧ schema.Typ ≠ "integer" ∧
        schema.Typ ≠ "boolean" ∧ schema.Typ ≠ "array") →
      (∀ sub ∈ schema.AllOf, ∃ s, sub = some s ∧ s.Properties.get? "data" = none ∧
        (s.Ref = "" ∨ Strs.containsStr (getRefName s.Ref) "pkg_" = true ∨
          Strs.containsStr (getRefName s.Ref) "fiber_" = true)) →
      responseStep spec response = some none ∨
        responseStep spec response = some (some "any")) := by
  constructor
  · intro op h
    exact returnTypeLoop_no_concrete spec op.Responses h
  · intro response schema hcontent hschema href htype hall
    have hany : getTypeFromSchema (some schema) spec = "any" :=
      getTypeFromSchema_any schema spec href htype
    simp only [responseStep, hcontent, contentLoop, hschema, hany, ne_eq, not_true_eq_false,
      if_false]
    by_cases hl : schema.AllOf.length > 0
    · rw [if_pos hl, generateAllOfReturnType_degenerate spec schema.AllOf hall]
      exact Or.inr rfl
    · rw [if_neg hl]
      exact Or.inl rfl

theorem generateReturnType_any_witness :
    generateReturnType composedDegenerateOp {} = some "any" :=
  (generateReturnType_any {}).1 composedDegenerateOp (by
    intro e he _
    simp only [composedDegenerateOp, List.mem_singleton] at he
    subst he
    exact (generateReturnType_any {}).2 _
      (.mk "" "" [] none [] "" [some (refSchema "#/definitions/pkg.Response")] [] [] [] [])
      rfl rfl rfl (by decide) (by
        intro sub hsub
        simp only [Schema.AllOf, List.mem_singleton] at hsub
        subst hsub
        exact ⟨_, rfl, rfl, Or.inr (Or.inl (by decide))⟩))

/-! ## The two collectors agree -/

theorem findTypesInSchema_eq (fuel : Nat) :
    ∀ (s : Option Schema) (M : GoMap (Option Schema)) (R : List String),
      findTypesInSchema fuel s M R = findReferencedTypes fuel s M R := by
  induction fuel with
  | zero => intro s M R; rfl
  | succ n ih =>
    intro s M R
    cases s with
    | none => rfl
    | some schema =>
      simp only [findTypesInSchema, findReferencedTypes, ih]

/-! ## Termination of the collector when the graph it walks has no cycle -/

theorem findReferencedTypes_succ (fuel : Nat) (schema : Schema) (M : GoMap (Option Schema))
    (R : List String) :
    findReferencedTypes (fuel + 1) (some schema) M R =
      ((if schema.Ref ≠ "" then
          (match M.get? (getRefName schema.Ref) with
            | some refSchema =>
              findReferencedTypes fuel refSchema M (markRelated R (getRefName schema.Ref))
            | none => some R)
        else some R).bind fun r1 =>
      (schema.Properties.foldlM (fun acc kv => findReferencedTypes fuel kv.2 M acc) r1).bind
        fun r2 =>
      (if schema.Items.isSome then findReferencedTypes fuel schema.Items M r2
        else some r2).bind fun r3 =>
      (schema.AllOf.foldlM (fun acc sub => findReferencedTypes fuel sub M acc) r3).bind
        fun r4 =>
      (schema.OneOf.foldlM (fun acc sub => findReferencedTypes fuel sub M acc) r4).bind
        fun r5 =>
      schema.AnyOf.foldlM (fun acc sub => findReferencedTypes fuel sub M acc) r5) := rfl

theorem subset_markRelated (R : List String) (name : String) : R ⊆ markRelated R name := by
  unfold markRelated
  split
  · exact List.Subset.refl _
  · exact List.subset_append_left _ _

theorem mem_markRelated (R : List String) (name : String) : name ∈ markRelated R name := by
  unfold markRelated
  split
  · assumption
  · simp

theorem terminates_pure : Terminates (fun _ R => some R) :=
  ⟨0, fun _ _ R => ⟨R, rfl, List.Subset.refl _⟩⟩

theorem terminates_bind (f g : Nat → List String → Option (List String))
    (hf : Terminates f) (hg : Terminates g) :
    Terminates (fun fuel R => (f fuel R).bind (g fuel)) := by
  obtain ⟨N1, h1⟩ := hf
  obtain ⟨N2, h2⟩ := hg
  refine ⟨max N1 N2, fun fuel hfuel R => ?_⟩
  obtain ⟨R1, e1, s1⟩ := h1 fuel (le_trans (le_max_left _ _) hfuel) R
  obtain ⟨R2, e2, s2⟩ := h2 fuel (le_trans (le_max_right _ _) hfuel) R1
  exact ⟨R2, by simp only [e1, Option.some_bind]; exact e2, List.Subset.trans s1 s2⟩

theorem terminates_ite (c : Prop) [Decidable c] (f : Nat → List String → Option (List String))
    (hf : c → Terminates f) : Terminates (fun fuel R => if c then f fuel R else some R) := by
  by_cases h : c
  · simp only [if_pos h]; exact hf h
  · simp only [if_neg h]; exact terminates_pure

theorem terminates_marked (f : Nat → List String → Option (List String)) (name : String)
    (hf : Terminates f) : Terminates (fun fuel R => f fuel (markRelated R name)) := by
  obtain ⟨N, h⟩ := hf
  refine ⟨N, fun fuel hfuel R => ?_⟩
  obtain ⟨R2, e, s⟩ := h fuel hfuel (markRelated R name)
  exact ⟨R2, e, List.Subset.trans (subset_markRelated R name) s⟩

theorem terminates_foldlM {α : Type} (step : α → Nat → List String → Option (List String))
    (l : List α) (h : ∀ x ∈ l, Terminates (step x)) :
    Terminates (fun fuel R => l.foldlM (fun acc x => step x fuel acc) R) := by
  induction l with
  | nil => exact terminates_pure
  | cons x rest ih =>
    have h1 := h x (List.mem_cons_self _ _)
    have h2 := ih (fun y hy => h y (List.mem_cons_of_mem _ hy))
    have := terminates_bind _ _ h1 h2
    simpa only [List.foldlM_cons, Option.bind_eq_bind] using this

theorem terminates_succ (f g : Nat → List String → Option (List String))
    (hg : Terminates g) (h : ∀ fuel R, f (fuel + 1) R = g fuel R) : Terminates f := by
  obtain ⟨N, hN⟩ := hg
  refine ⟨N + 1, fun fuel hfuel R => ?_⟩
  obtain ⟨k, rfl⟩ : ∃ k, fuel = k + 1 := ⟨fuel - 1, by omega⟩
  rw [h]
  exact hN k (by omega) R

theorem terminates_none (M : GoMap (Option Schema)) :
    Terminates (fun fuel R => findReferencedTypes fuel none M R) :=
  terminates_succ _ (fun _ R => some R) terminates_pure (fun _ _ => rfl)

theorem terminates_refStep (M : GoMap (Option Schema)) (ref : String)
    (h : ref ≠ "" → ∀ t, M.get? (getRefName ref) = some t →
      Terminates (fun fuel R => findReferencedTypes fuel t M R)) :
    Terminates (fun fuel R =>
      if ref ≠ "" then
        (match M.get? (getRefName ref) with
          | some refSchema =>
            findReferencedTypes fuel refSchema M (markRelated R (getRefName ref))
          | none => some R)
      else some R) := by
  by_cases hr : ref ≠ ""
  · simp only [if_pos hr]
    cases hg : M.get? (getRefName ref) with
    | none => exact terminates_pure
    | some t =>
      exact terminates_marked (fun fuel R => findReferencedTypes fuel t M R) _ (h hr t hg)
  · simp only [if_neg hr]
    exact terminates_pure

mutual
theorem terminates_schema (M : GoMap (Option Schema)) :
    ∀ s : Schema,
      (∀ ref ∈ s.refs, ref ≠ "" → ∀ t, M.get? (getRefName ref) = some t →
        Terminates (fun fuel R => findReferencedTypes fuel t M R)) →
      Terminates (fun fuel R => findReferencedTypes fuel (some s) M R)
  | .mk t f p i r rf a o y e x => fun h => by
    have hrefs : (Schema.mk t f p i r rf a o y e x).refs
        = rf :: (refsOfProps p ++ refsOfOption i ++ refsOfList a ++ refsOfList o
          ++ refsOfList y) := by
      simp only [Schema.refs]
    rw [hrefs] at h
    have h0 := terminates_refStep M rf (fun hr t ht => h rf (List.mem_cons_self _ _) hr t ht)
    have h1 := terminates_props M p (fun ref hm => h ref (by simp [hm]))
    have h2 := terminates_option M i (fun ref hm => h ref (by simp [hm]))
    have h3 := terminates_list M a (fun ref hm => h ref (by simp [hm]))
    have h4 := terminates_list M o (fun ref hm => h ref (by simp [hm]))
    have h5 := terminates_list M y (fun ref hm => h ref (by simp [hm]))
    have h2b := terminates_ite (i.isSome = true)
      (fun fuel R => findReferencedTypes fuel i M R) (fun _ => h2)
    exact terminates_succ _ _
      (terminates_bind _ _ h0 (terminates_bind _ _ h1 (terminates_bind _ _ h2b
        (terminates_bind _ _ h3 (terminates_bind _ _ h4 h5)))))
      (fun fuel R => findReferencedTypes_succ fuel _ M R)
theorem terminates_option (M : GoMap (Option Schema)) :
    ∀ u : Option Schema,
      (∀ ref ∈ refsOfOption u, ref ≠ "" → ∀ t, M.get? (getRefName ref) = some t →
        Terminates (fun fuel R => findReferencedTypes fuel t M R)) →
      Terminates (fun fuel R => findReferencedTypes fuel u M R)
  | none => fun _ => terminates_none M
  | some s => fun h => terminates_schema M s (fun ref hm => h ref (by simpa [refsOfOption] using hm))
theorem terminates_list (M : GoMap (Option Schema)) :
    ∀ l : List (Option Schema),
      (∀ ref ∈ refsOfList l, ref ≠ "" → ∀ t, M.get? (getRefName ref) = some t →
        Terminates (fun fuel R => findReferencedTypes fuel t M R)) →
      Terminates (fun fuel R =>
        l.foldlM (fun acc sub => findReferencedTypes fuel sub M acc) R)
  | [] => fun _ => terminates_pure
  | u :: rest => fun h => by
    have h1 := terminates_option M u (fun ref hm => h ref (by simp [refsOfList, hm]))
    have h2 := terminates_list M rest (fun ref hm => h ref (by simp [refsOfList, hm]))
    have := terminates_bind _ _ h1 h2
    simpa only [List.foldlM_cons, Option.bind_eq_bind] using this
theorem terminates_props (M : GoMap (Option Schema)) :
    ∀ l : List (String × Option Schema),
      (∀ ref ∈ refsOfProps l, ref ≠ "" → ∀ t, M.get? (getRefName ref) = some t →
        Terminates (fun fuel R => findReferencedTypes fuel t M R)) →
      Terminates (fun fuel R =>
        l.foldlM (fun acc kv => findReferencedTypes fuel kv.2 M acc) R)
  | [] => fun _ => terminates_pure
  | (k, u) :: rest => fun h => by
    have h1 := terminates_option M u (fun ref hm => h ref (by simp [refsOfProps, hm]))
    have h2 := terminates_props M rest (fun ref hm => h ref (by simp [refsOfProps, hm]))
    have := terminates_bind _ _ h1 h2
    simpa only [List.foldlM_cons, Option.bind_eq_bind] using this
end

theorem terminates_named (M : GoMap (Option Schema)) (rank : String → Nat)
    (hacyc : ∀ name schema, M.get? name = some (some schema) →
      ∀ ref ∈ schema.refs, ref ≠ "" → (M.get? (getRefName ref)).isSome →
        rank (getRefName ref) < rank name) :
    ∀ (b : Nat) (name : String) (t : Option Schema), rank name < b → M.get? name = some t →
      Terminates (fun fuel R => findReferencedTypes fuel t M R) := by
  intro b
  induction b with
  | zero => intro name t h; exact absurd h (Nat.not_lt_zero _)
  | succ b ih =>
    intro name t hlt hget
    cases t with
    | none => exact terminates_none M
    | some s =>
      apply terminates_schema M s
      intro ref hm hne t2 ht2
      have hr := hacyc name s hget ref hm hne (by simp [ht2])
      exact ih (getRefName ref) t2 (by omega) ht2

/-- When the graph the collector walks has no cycle, the collector returns on every
schema, for every large enough fuel. -/
theorem lookupAcyclic_terminates (M : GoMap (Option Schema)) (h : LookupAcyclic M) (u : Option Schema) :
    Terminates (fun fuel R => findReferencedTypes fuel u M R) := by
  obtain ⟨rank, hacyc⟩ := h
  apply terminates_option M u
  intro ref _ _ t ht
  exact terminates_named M rank hacyc (rank (getRefName ref) + 1) (getRefName ref) t
    (Nat.lt_succ_self _) ht

theorem terminates_collectSchema (M : GoMap (Option Schema)) (h : LookupAcyclic M)
    (u : Option Schema) : Terminates (fun fuel R => collectSchema fuel M u R) := by
  unfold collectSchema
  simp only [findTypesInSchema_eq]
  exact terminates_ite _ _ (fun _ => lookupAcyclic_terminates M h u)

theorem terminates_collectContent (M : GoMap (Option Schema)) (h : LookupAcyclic M)
    (content : GoMap MediaTypeObject) :
    Terminates (fun fuel R => collectContent fuel M content R) :=
  terminates_foldlM (fun (kv : String × MediaTypeObject) fuel R =>
      collectSchema fuel M kv.2.Schema R) content
    (fun kv _ => terminates_collectSchema M h kv.2.Schema)

theorem terminates_collectParams (M : GoMap (Option Schema)) (h : LookupAcyclic M)
    (params : List Parameter) : Terminates (fun fuel R => collectParams fuel M params R) :=
  terminates_foldlM (fun (p : Parameter) fuel R => collectSchema fuel M p.Schema R) params
    (fun p _ => terminates_collectSchema M h p.Schema)

theorem terminates_collectResponses (M : GoMap (Option Schema)) (h : LookupAcyclic M)
    (responses : GoMap Response) :
    Terminates (fun fuel R => collectResponses fuel M responses R) :=
  terminates_foldlM (fun (kv : String × Response) fuel R =>
      (collectContent fuel M kv.2.Content R).bind fun acc2 =>
        collectSchema fuel M kv.2.Schema acc2) responses
    (fun kv _ => terminates_bind _ _ (terminates_collectContent M h kv.2.Content)
      (terminates_collectSchema M h kv.2.Schema))

theorem terminates_collectOperation (M : GoMap (Option Schema)) (h : LookupAcyclic M)
    (resourceName path : String) (operation : Option Operation) :
    Terminates (fun fuel R => collectOperation fuel M resourceName path operation R) := by
  cases operation with
  | none => exact terminates_pure
  | some op =>
    simp only [collectOperation]
    apply terminates_ite
    intro _
    apply terminates_bind _ _ (terminates_collectParams M h op.Parameters)
    refine terminates_bind (fun fuel r1 => match op.RequestBody with
        | some body => collectContent fuel M body.Content r1
        | none => some r1) _ ?_ (terminates_collectResponses M h op.Responses)
    cases op.RequestBody with
    | none => exact terminates_pure
    | some body => exact terminates_collectContent M h body.Content

theorem terminates_collectPaths (M : GoMap (Option Schema)) (h : LookupAcyclic M)
    (resourceName : String) (paths : GoMap PathItem) :
    Terminates (fun fuel R => collectPaths fuel M resourceName paths R) :=
  terminates_foldlM (fun (entry : String × PathItem) fuel R =>
      entry.2.methods.foldlM
        (fun acc2 (method : String × Option Operation) =>
          collectOperation fuel M resourceName entry.1 method.2 acc2) R)
    paths
    (fun entry _ =>
      terminates_foldlM (fun (method : String × Option Operation) fuel R =>
          collectOperation fuel M resourceName entry.1 method.2 R) entry.2.methods
        (fun method _ => terminates_collectOperation M h resourceName entry.1 method.2))

theorem terminates_namedStep (M : GoMap (Option Schema)) (h : LookupAcyclic M)
    (resourceName : String) (kv : String × Option Schema) :
    Terminates (fun fuel R =>
      if Strs.containsStr (Strs.toLower kv.1) (Strs.toLower resourceName) ||
          Strs.equalFold kv.1 resourceName then
        findReferencedTypes fuel kv.2 M (markRelated R kv.1)
      else some R) :=
  terminates_ite _ (fun fuel R => findReferencedTypes fuel kv.2 M (markRelated R kv.1))
    (fun _ => terminates_marked _ kv.1 (lookupAcyclic_terminates M h kv.2))

theorem terminates_collectNamed (M : GoMap (Option Schema)) (h : LookupAcyclic M)
    (resourceName : String) (entries : GoMap (Option Schema)) :
    Terminates (fun fuel R => collectNamed fuel M resourceName entries R) :=
  terminates_foldlM (fun (kv : String × Option Schema) fuel R =>
      if Strs.containsStr (Strs.toLower kv.1) (Strs.toLower resourceName) ||
          Strs.equalFold kv.1 resourceName then
        findReferencedTypes fuel kv.2 M (markRelated R kv.1)
      else some R) entries
    (fun kv _ => terminates_namedStep M h resourceName kv)

/-! ## Conversion of the related names -/

theorem GoMap.mem_of_get? {α : Type} (m : GoMap α) (k : String) (v : α)
    (h : m.get? k = some v) : (k, v) ∈ m := by
  induction m with
  | nil => simp [GoMap.get?] at h
  | cons kv rest ih =>
    obtain ⟨k1, v1⟩ := kv
    simp only [GoMap.get?] at h
    by_cases hk : k1 = k
    · rw [if_pos hk] at h
      simp only [Option.some.injEq] at h
      rw [hk, h]
      exact List.mem_cons_self _ _
    · rw [if_neg hk] at h
      exact List.mem_cons_of_mem _ (ih h)

theorem convertTypes_keys (spec : OpenAPISpec) (M : GoMap (Option Schema))
    (hnonnil : ∀ k v, M.get? k = some v → v.isSome) (related : List String) :
    ∀ types0 : GoMap TypeDef, ∃ types,
      related.foldlM
        (fun types name =>
          match M.get? name with
          | some (some schema) =>
            some (GoMap.set types (sanitizeTypeName name) (schemaToTypeDef name schema spec))
          | some none => none
          | none => some types)
        types0 = some types ∧
      (∀ key ∈ types0.keys, key ∈ types.keys) ∧
      (∀ n ∈ related, (M.get? n).isSome → sanitizeTypeName n ∈ types.keys) := by
  induction related with
  | nil => intro types0; exact ⟨types0, rfl, fun _ h => h, fun _ h => absurd h (List.not_mem_nil _)⟩
  | cons name rest ih =>
    intro types0
    cases hg : M.get? name with
    | none =>
      obtain ⟨types, e, k1, k2⟩ := ih types0
      refine ⟨types, ?_, k1, ?_⟩
      · simp only [List.foldlM_cons, hg, Option.bind_eq_bind, Option.some_bind]
        exact e
      · intro n hn hs
        rcases List.mem_cons.mp hn with rfl | hn2
        · rw [hg] at hs; simp at hs
        · exact k2 n hn2 hs
    | some v =>
      cases v with
      | none =>
        have := hnonnil name none hg
        simp at this
      | some schema =>
        obtain ⟨types, e, k1, k2⟩ :=
          ih (GoMap.set types0 (sanitizeTypeName name) (schemaToTypeDef name schema spec))
        refine ⟨types, ?_, ?_, ?_⟩
        · simp only [List.foldlM_cons, hg, Option.bind_eq_bind, Option.some_bind]
          exact e
        · intro key hkey
          exact k1 key ((GoMap.mem_keys_set _ _ _ _).mpr (Or.inr hkey))
        · intro n hn hs
          rcases List.mem_cons.mp hn with rfl | hn2
          · exact k1 _ ((GoMap.mem_keys_set _ _ _ _).mpr (Or.inl rfl))
          · exact k2 n hn2 hs

/-! ## Dialect equivalence -/

theorem lastOr_append_of_ne_nil (xs ys : List String) (h : ys ≠ []) :
    Strs.lastOr (xs ++ ys) = Strs.lastOr ys := by
  induction xs with
  | nil => rfl
  | cons a rest ih =>
    cases rest with
    | nil =>
      cases ys with
      | nil => exact absurd rfl h
      | cons b tl => rfl
    | cons c rest2 =>
      have e : Strs.lastOr (a :: c :: rest2 ++ ys) = Strs.lastOr (c :: rest2 ++ ys) := rfl
      exact e.trans ih

theorem getRefName_after_slash (refPre name : String) :
    getRefName (refPre ++ "/" ++ name) = getRefName name := by
  unfold getRefName
  simp only
  congr 1
  unfold Strs.split
  have hd : (refPre ++ "/" ++ name).data = refPre.data ++ '/' :: name.data := by
    simp [String.data_append]
  rw [hd, splitL_append_sep, List.map_append]
  apply lastOr_append_of_ne_nil
  intro e
  exact splitL_ne_nil '/' name.data (List.map_eq_nil_iff.mp e)

/-- C26: a parameter with direct type `t` and no schema gets the same type text as a
parameter whose schema has type `t` and no items; a reference to `n` under
`#/definitions/` and under `#/components/schemas/` has the same name, so the two reference
schemas resolve to the same type definition. -/
theorem dialect_equivalence :
    (∀ (t : String) (v2 v3 : Parameter) (schema : Schema),
      v2.Schema = none → v2.Typ = t → v3.Schema = some schema → schema.Typ = t →
      schema.Items = none → getParamTypeString v2 = getParamTypeString v3) ∧
    (∀ n : String,
      getRefName ("#/definitions/" ++ n) = getRefName ("#/components/schemas/" ++ n)) ∧
    (∀ (n name : String) (spec : OpenAPISpec),
      schemaToTypeDef name (refSchema ("#/definitions/" ++ n)) spec
        = schemaToTypeDef name (refSchema ("#/components/schemas/" ++ n)) spec) := by
  have href : ∀ n : String,
      getRefName ("#/definitions/" ++ n) = getRefName ("#/components/schemas/" ++ n) := by
    intro n
    have e1 : "#/definitions/" ++ n = "#/definitions" ++ "/" ++ n := by
      apply String.ext; simp [String.data_append]
    have e2 : "#/components/schemas/" ++ n = "#/components/schemas" ++ "/" ++ n := by
      apply String.ext; simp [String.data_append]
    rw [e1, e2, getRefName_after_slash, getRefName_after_slash]
  refine ⟨?_, href, ?_⟩
  · intro t v2 v3 schema h2 ht2 h3 ht3 hitems
    unfold getParamTypeString
    rw [h2, h3]
    simp only [ht2, ht3, hitems, getParamTypeFromDirectType]
    by_cases h0 : t = ""
    · subst h0; decide
    · rw [if_pos h0]
  · intro n name spec
    have hne : ∀ pre : String, pre ≠ "" → pre ++ n ≠ "" := by
      intro pre hp e
      apply hp
      have := congrArg String.data e
      rw [String.data_append, List.append_eq_nil] at this
      exact String.ext this.1
    have h1 := hne "#/definitions/" (by decide)
    have h2 := hne "#/components/schemas/" (by decide)
    simp only [schemaToTypeDef, refSchema, Schema.Ref, h1, h2, ne_eq, not_false_eq_true,
      if_true, href n]

theorem dialect_equivalence_witness :
    getParamTypeString tagsParamV2 = getParamTypeString tagsParamV3 :=
  dialect_equivalence.1 "array" tagsParamV2 tagsParamV3
    (.mk "array" "" [] none [] "" [] [] [] [] []) rfl rfl rfl rfl rfl

/-! ## Sanitized names -/

/-- C27 (the code diverges from the claim): the name `Page[Pet]` is returned unchanged,
and it is not a valid identifier; only `.`, `-` and the blank are replaced. -/
theorem sanitizeTypeName_keeps_invalid_characters :
    sanitizeTypeName "Page[Pet]" = "Page[Pet]" ∧
    validIdentifier (sanitizeTypeName "Page[Pet]") = false ∧
    sanitizeTypeName "2fa" = "2fa" ∧
    validIdentifier (sanitizeTypeName "2fa") = false := by
  decide

/-! ## Base URL -/

/-- C25 (the code diverges from the claim): the configuration supplies no base URL, the
document declares the host `api.pets.io`, and the base URL is the placeholder. -/
theorem determineBaseURL_ignores_host :
    hostDoc.Host = "api.pets.io" ∧
    determineBaseURL hostDoc {} = "https://api.example.com" := by
  decide

/-! ## Exactly one shape -/

theorem append_brackets_ne_empty (x : String) : x ++ "[]" ≠ "" := by
  intro e
  have := congrArg String.data e
  simp [String.data_append] at this

theorem getTypeOfSchema_ne_empty (t f : String) (p : List (String × Option Schema))
    (i : Option Schema) (r : List String) (a o y : List (Option Schema))
    (e : List EnumVal) (x : List String) (spec : OpenAPISpec) (b : Bool) :
    getTypeOfSchema (.mk t f p i r "" a o y e x) spec b ≠ "" := by
  simp only [getTypeOfSchema, ne_eq, not_true_eq_false, if_false]
  split
  · decide
  · split
    · decide
    · split
      · decide
      · split
        · exact append_brackets_ne_empty _
        · split <;> decide

/-- C28: at most one of the four flags of a resolved type definition is set, and its
`Type` is non-empty exactly when none of them is. -/
theorem schemaToTypeDef_one_shape (name : String) (s : Schema) (spec : OpenAPISpec) :
    ((schemaToTypeDef name s spec).IsReference = true →
      (schemaToTypeDef name s spec).IsArray = false ∧
      (schemaToTypeDef name s spec).IsEnum = false ∧
      (schemaToTypeDef name s spec).IsInterface = false) ∧
    ((schemaToTypeDef name s spec).IsArray = true →
      (schemaToTypeDef name s spec).IsEnum = false ∧
      (schemaToTypeDef name s spec).IsInterface = false) ∧
    ((schemaToTypeDef name s spec).IsEnum = true →
      (schemaToTypeDef name s spec).IsInterface = false) ∧
    ((schemaToTypeDef name s spec).Typ ≠ "" ↔
      ((schemaToTypeDef name s spec).IsReference = false ∧
       (schemaToTypeDef name s spec).IsArray = false ∧
       (schemaToTypeDef name s spec).IsEnum = false ∧
       (schemaToTypeDef name s spec).IsInterface = false)) := by
  cases s with
  | mk t f p i r rf a o y e x =>
    simp only [schemaToTypeDef, Schema.Ref, Schema.Typ, Schema.Items, Schema.Enum,
      Schema.Properties, Schema.XEnumVarnames, Schema.Required]
    by_cases h1 : rf ≠ ""
    · rw [if_pos h1]; simp
    · rw [if_neg h1]
      by_cases h2 : t = "array" ∧ i.isSome = true
      · rw [if_pos h2]; simp
      · rw [if_neg h2]
        by_cases h3 : e.length > 0
        · rw [if_pos h3]
          split <;> simp
        · rw [if_neg h3]
          by_cases h4 : t = "object" ∨ p.length > 0
          · rw [if_pos h4]; simp
          · rw [if_neg h4]
            have hrf : rf = "" := by simpa using h1
            subst hrf
            have hne := getTypeOfSchema_ne_empty t f p i r a o y e x spec true
            simp only [getTypeFromSchemaWithContext]
            simp [hne]

theorem schemaToTypeDef_one_shape_witness :
    (schemaToTypeDef "Ref" (refSchema "#/definitions/Pet") {}).IsArray = false ∧
    (schemaToTypeDef "Ref" (refSchema "#/definitions/Pet") {}).IsEnum = false ∧
    (schemaToTypeDef "Ref" (refSchema "#/definitions/Pet") {}).IsInterface = false :=
  (schemaToTypeDef_one_shape "Ref" (refSchema "#/definitions/Pet") {}).1 (by decide)

/-! ## Sorted resource lists -/

theorem lessEqL_total (a : List Char) : ∀ b, lessEqL a b = true ∨ lessEqL b a = true := by
  induction a with
  | nil => intro b; exact Or.inl rfl
  | cons x xs ih =>
    intro b
    cases b with
    | nil => exact Or.inr rfl
    | cons y ys =>
      simp only [lessEqL, Bool.or_eq_true, Bool.and_eq_true, decide_eq_true_eq]
      rcases Nat.lt_trichotomy x.toNat y.toNat with h | h | h
      · exact Or.inl (Or.inl h)
      · rcases ih ys with h2 | h2
        · exact Or.inl (Or.inr ⟨h, h2⟩)
        · exact Or.inr (Or.inr ⟨h.symm, h2⟩)
      · exact Or.inr (Or.inl h)

theorem lessEqL_trans (a : List Char) :
    ∀ b c, lessEqL a b = true → lessEqL b c = true → lessEqL a c = true := by
  induction a with
  | nil => intro b c _ _; rfl
  | cons x xs ih =>
    intro b c hab hbc
    cases b with
    | nil => simp [lessEqL] at hab
    | cons y ys =>
      cases c with
      | nil => simp [lessEqL] at hbc
      | cons z zs =>
        simp only [lessEqL, Bool.or_eq_true, Bool.and_eq_true, decide_eq_true_eq] at hab hbc ⊢
        rcases hab with h1 | ⟨h1, h2⟩
        · rcases hbc with h3 | ⟨h3, _⟩
          · exact Or.inl (by omega)
          · exact Or.inl (by omega)
        · rcases hbc with h3 | ⟨h3, h4⟩
          · exact Or.inl (by omega)
          · exact Or.inr ⟨by omega, ih ys zs h2 h4⟩

theorem lessEqL_antisymm (a : List Char) :
    ∀ b, lessEqL a b = true → lessEqL b a = true → a = b := by
  induction a with
  | nil =>
    intro b _ hba
    cases b with
    | nil => rfl
    | cons y ys => simp [lessEqL] at hba
  | cons x xs ih =>
    intro b hab hba
    cases b with
    | nil => simp [lessEqL] at hab
    | cons y ys =>
      simp only [lessEqL, Bool.or_eq_true, Bool.and_eq_true, decide_eq_true_eq] at hab hba
      have hxy : x.toNat = y.toNat := by
        rcases hab with h1 | ⟨h1, _⟩
        · rcases hba with h3 | ⟨h3, _⟩ <;> omega
        · exact h1
      have h2 : lessEqL xs ys = true := by
        rcases hab with h1 | ⟨_, h2⟩
        · omega
        · exact h2
      have h4 : lessEqL ys xs = true := by
        rcases hba with h1 | ⟨_, h2⟩
        · omega
        · exact h2
      have hc : x = y := by
        apply Char.ext
        apply UInt32.ext
        exact hxy
      rw [hc, ih ys h2 h4]

theorem lessEq_isTotal : IsTotal String lessEq :=
  ⟨fun a b => lessEqL_total a.data b.data⟩

theorem lessEq_isTrans : IsTrans String lessEq :=
  ⟨fun a b c => lessEqL_trans a.data b.data c.data⟩

theorem lessEq_isAntisymm : IsAntisymm String lessEq :=
  ⟨fun a b h1 h2 => String.ext (lessEqL_antisymm a.data b.data h1 h2)⟩

theorem byResourceName_isTotal :
    IsTotal ResourceEntry (fun a b => lessEq a.ResourceName b.ResourceName) :=
  ⟨fun a b => lessEqL_total a.ResourceName.data b.ResourceName.data⟩

theorem byResourceName_isTrans :
    IsTrans ResourceEntry (fun a b => lessEq a.ResourceName b.ResourceName) :=
  ⟨fun a b c => lessEqL_trans a.ResourceName.data b.ResourceName.data c.ResourceName.data⟩

theorem mainIndexResources_names_sorted (resources : GoMap (List MethodDef)) :
    List.Sorted lessEq ((mainIndexResources resources).map ResourceEntry.ResourceName) := by
  haveI := byResourceName_isTotal
  haveI := byResourceName_isTrans
  unfold mainIndexResources sortByResourceName
  rw [List.Sorted, List.pairwise_map]
  exact List.sorted_insertionSort
      (fun a b : ResourceEntry => lessEq a.ResourceName b.ResourceName) _

theorem mainIndexResources_names_perm (resources : GoMap (List MethodDef)) :
    ((mainIndexResources resources).map ResourceEntry.ResourceName).Perm
      (resources.keys.map toTitleCase) := by
  unfold mainIndexResources sortByResourceName
  refine ((List.perm_insertionSort _ _).map _).trans ?_
  rw [GoMap.keys, List.map_map, List.map_map]
  exact List.Perm.of_eq rfl

/-- C24: whatever the order in which the resources are enumerated, the resource list of
the main index is in ascending order of resource name and its names are a permutation of
the title-cased resource keys, so that two enumerations of the same resources give the
same list of names; and the export list of the types index is in ascending order. -/
theorem sorted_resource_lists :
    (∀ resources : GoMap (List MethodDef),
      List.Sorted (fun a b => lessEq a.ResourceName b.ResourceName)
        (mainIndexResources resources) ∧
      ((mainIndexResources resources).map ResourceEntry.ResourceName).Perm
        (resources.keys.map toTitleCase)) ∧
    (∀ r1 r2 : GoMap (List MethodDef), r1.Perm r2 →
      (mainIndexResources r1).map ResourceEntry.ResourceName
        = (mainIndexResources r2).map ResourceEntry.ResourceName) ∧
    (∀ (fuel : Nat) (spec : OpenAPISpec) (resources : GoMap (List MethodDef))
      (names : List String),
      typesIndexNames fuel spec resources = some names → List.Sorted lessEq names) := by
  refine ⟨?_, ?_, ?_⟩
  · intro resources
    refine ⟨?_, mainIndexResources_names_perm resources⟩
    haveI := byResourceName_isTotal
    haveI := byResourceName_isTrans
    unfold mainIndexResources sortByResourceName
    exact List.sorted_insertionSort
      (fun a b : ResourceEntry => lessEq a.ResourceName b.ResourceName) _
  · intro r1 r2 hperm
    haveI := lessEq_isAntisymm
    apply List.eq_of_perm_of_sorted ?_ (mainIndexResources_names_sorted r1)
      (mainIndexResources_names_sorted r2)
    refine (mainIndexResources_names_perm r1).trans ?_
    refine List.Perm.trans ?_ (mainIndexResources_names_perm r2).symm
    exact (hperm.map Prod.fst).map toTitleCase
  · intro fuel spec resources names h
    unfold typesIndexNames at h
    cases hr : typedResourceNames fuel spec resources with
    | none => rw [hr] at h; simp at h
    | some l =>
      rw [hr] at h
      simp only [Option.map_some', Option.some.injEq] at h
      rw [← h]
      haveI := lessEq_isTotal
      haveI := lessEq_isTrans
      exact List.sorted_insertionSort lessEq l

theorem sorted_resource_lists_witness :
    typesIndexNames 10 shopDoc [("orders", []), ("Pet", []), ("zzz", [])]
      = some ["orders", "pet"] ∧
    List.Sorted lessEq ["orders", "pet"] ∧
    (mainIndexResources [("pets", []), ("orders", [])]).map ResourceEntry.ResourceName
      = (mainIndexResources [("orders", []), ("pets", [])]).map ResourceEntry.ResourceName :=
  ⟨by decide,
   sorted_resource_lists.2.2 10 shopDoc [("orders", []), ("Pet", []), ("zzz", [])]
     ["orders", "pet"] (by decide),
   sorted_resource_lists.2.1 [("pets", []), ("orders", [])] [("orders", []), ("pets", [])]
     (List.Perm.swap _ _ _)⟩

/-! ## The type text does not depend on the document -/

mutual
theorem getTypeOfSchema_spec (spec spec2 : OpenAPISpec) (b : Bool) :
    ∀ s : Schema, getTypeOfSchema s spec b = getTypeOfSchema s spec2 b
  | .mk t f p i r rf a o y e x => by
    simp only [getTypeOfSchema]
    rw [getTypeFromSchemaWithContext_spec spec spec2 b i]
theorem getTypeFromSchemaWithContext_spec (spec spec2 : OpenAPISpec) (b : Bool) :
    ∀ s : Option Schema,
      getTypeFromSchemaWithContext s spec b = getTypeFromSchemaWithContext s spec2 b
  | none => rfl
  | some s => by
    simp only [getTypeFromSchemaWithContext]
    exact getTypeOfSchema_spec spec spec2 b s
end

theorem getTypeFromSchema_spec (spec spec2 : OpenAPISpec) (s : Option Schema) :
    getTypeFromSchema s spec = getTypeFromSchema s spec2 :=
  getTypeFromSchemaWithContext_spec spec spec2 false s

theorem nestedDataLoop_spec (spec spec2 : OpenAPISpec) (l : List (Option Schema)) :
    nestedDataLoop spec l = nestedDataLoop spec2 l := by
  induction l with
  | nil => rfl
  | cons u rest ih =>
    cases u with
    | none => rfl
    | some d =>
      simp only [nestedDataLoop, ih, getTypeFromSchema_spec spec spec2]

theorem dataPropertyStep_spec (spec spec2 : OpenAPISpec) (s : Schema) :
    dataPropertyStep spec s = dataPropertyStep spec2 s := by
  simp only [dataPropertyStep, nestedDataLoop_spec spec spec2, getTypeFromSchema_spec spec spec2]

theorem directRefStep_spec (spec spec2 : OpenAPISpec) (s : Schema) :
    directRefStep spec s = directRefStep spec2 s := by
  simp only [directRefStep, getTypeFromSchema_spec spec spec2]

theorem generateAllOfReturnType_spec (spec spec2 : OpenAPISpec) (l : List (Option Schema)) :
    generateAllOfReturnType spec l = generateAllOfReturnType spec2 l := by
  induction l with
  | nil => rfl
  | cons u rest ih =>
    cases u with
    | none => rfl
    | some s =>
      simp only [generateAllOfReturnType, ih, dataPropertyStep_spec spec spec2,
        directRefStep_spec spec spec2]

theorem contentLoop_spec (spec spec2 : OpenAPISpec) (l : GoMap MediaTypeObject) :
    contentLoop spec l = contentLoop spec2 l := by
  induction l with
  | nil => rfl
  | cons kv rest ih =>
    obtain ⟨k, content⟩ := kv
    simp only [contentLoop, ih, getTypeFromSchema_spec spec spec2]

theorem responseStep_spec (spec spec2 : OpenAPISpec) (r : Response) :
    responseStep spec r = responseStep spec2 r := by
  simp only [responseStep, contentLoop_spec spec spec2, getTypeFromSchema_spec spec spec2,
    generateAllOfReturnType_spec spec spec2]

theorem returnTypeLoop_spec (spec spec2 : OpenAPISpec) (l : GoMap Response) :
    returnTypeLoop spec l = returnTypeLoop spec2 l := by
  induction l with
  | nil => rfl
  | cons kv rest ih =>
    obtain ⟨code, response⟩ := kv
    simp only [returnTypeLoop, ih, responseStep_spec spec spec2]

theorem processParam_spec (spec spec2 : OpenAPISpec) :
    processParam spec = processParam spec2 := by
  funext md param
  simp only [processParam, getTypeFromSchema_spec spec spec2]

theorem applyRequestBody_spec (spec spec2 : OpenAPISpec) :
    applyRequestBody spec = applyRequestBody spec2 := by
  funext rb md
  simp only [applyRequestBody, getTypeFromSchema_spec spec spec2]

theorem buildMethodDef_spec (spec spec2 : OpenAPISpec) (methodName path : String)
    (op : Operation) :
    buildMethodDef spec methodName path op = buildMethodDef spec2 methodName path op := by
  simp only [buildMethodDef, generateReturnType, returnTypeLoop_spec spec spec2,
    processParam_spec spec spec2, applyRequestBody_spec spec spec2]

/-! ## The document after classification -/

theorem processMethod_fst (spec : OpenAPISpec) (path : String)
    (resources : GoMap (List MethodDef)) (methodName : String) (operation : Option Operation)
    (r : Option Operation × GoMap (List MethodDef))
    (h : processMethod spec path resources methodName operation = some r) :
    r.1 = operation.map (withOperationID methodName path) := by
  cases operation with
  | none =>
    simp only [processMethod, Option.some.injEq] at h
    rw [← h]; rfl
  | some op =>
    simp only [processMethod] at h
    cases hb : buildMethodDef spec methodName path (withOperationID methodName path op) with
    | none => rw [hb] at h; simp at h
    | some m =>
      rw [hb] at h
      simp only [Option.some.injEq] at h
      rw [← h]; rfl

theorem processPathItem_fst (spec : OpenAPISpec) (path : String) (pathItem : PathItem)
    (resources : GoMap (List MethodDef)) (r : PathItem × GoMap (List MethodDef))
    (h : processPathItem spec path pathItem resources = some r) :
    r.1 = fillOperationIDs path pathItem := by
  unfold processPathItem at h
  cases h1 : processMethod spec path resources "GET" pathItem.Get with
  | none => rw [h1] at h; simp at h
  | some r1 =>
    rw [h1] at h
    simp only [Option.some_bind] at h
    cases h2 : processMethod spec path r1.2 "POST" pathItem.Post with
    | none => rw [h2] at h; simp at h
    | some r2 =>
      rw [h2] at h
      simp only [Option.some_bind] at h
      cases h3 : processMethod spec path r2.2 "PUT" pathItem.Put with
      | none => rw [h3] at h; simp at h
      | some r3 =>
        rw [h3] at h
        simp only [Option.some_bind] at h
        cases h4 : processMethod spec path r3.2 "DELETE" pathItem.Delete with
        | none => rw [h4] at h; simp at h
        | some r4 =>
          rw [h4] at h
          simp only [Option.some_bind] at h
          cases h5 : processMethod spec path r4.2 "PATCH" pathItem.Patch with
          | none => rw [h5] at h; simp at h
          | some r5 =>
            rw [h5] at h
            simp only [Option.some_bind, Option.some.injEq] at h
            rw [← h]
            simp only [fillOperationIDs, processMethod_fst _ _ _ _ _ _ h1,
              processMethod_fst _ _ _ _ _ _ h2, processMethod_fst _ _ _ _ _ _ h3,
              processMethod_fst _ _ _ _ _ _ h4, processMethod_fst _ _ _ _ _ _ h5]

theorem groupLoop_fst (spec : OpenAPISpec) (paths : GoMap PathItem) :
    ∀ (state r : GoMap PathItem × GoMap (List MethodDef)),
      groupLoop spec paths state = some r →
      r.1 = state.1 ++ paths.map (fun entry => (entry.1, fillOperationIDs entry.1 entry.2)) := by
  induction paths with
  | nil =>
    intro state r h
    simp only [groupLoop, Option.some.injEq] at h
    rw [← h]; simp
  | cons entry rest ih =>
    intro state r h
    obtain ⟨path, pathItem⟩ := entry
    simp only [groupLoop] at h
    cases hp : processPathItem spec path pathItem state.2 with
    | none => rw [hp] at h; simp at h
    | some r1 =>
      rw [hp] at h
      simp only [Option.some_bind] at h
      rw [ih _ r h, processPathItem_fst spec path pathItem state.2 r1 hp]
      simp

/-- C22 (as stated, refuted): the GET operation on `/` declares no identifier, and in the
document that `groupOperationsByTag` leaves behind its identifier is `get`. -/
theorem groupOperationsByTag_writes_operationId :
    getOperationIDs rootDoc = [("/", some ""), ("", none), ("/x", none)] ∧
    (groupOperationsByTag rootDoc).map (fun r => getOperationIDs r.1)
      = some [("/", some "get"), ("", none), ("/x", none)] ∧
    (∀ r, groupOperationsByTag rootDoc = some r → r.1 ≠ rootDoc) := by
  refine ⟨by decide, by decide, ?_⟩
  intro r hr heq
  have h2 : (groupOperationsByTag rootDoc).map (fun r => getOperationIDs r.1)
      = some [("/", some "get"), ("", none), ("/x", none)] := by decide
  rw [hr] at h2
  simp only [Option.map_some', Option.some.injEq] at h2
  rw [heq] at h2
  exact absurd h2 (by decide)

/-- C22 (amended): the document that `groupOperationsByTag` leaves behind is the input with
only its path items touched, and in them only the identifier of each operation that
declared none, which is set to the synthesized one. -/
theorem groupOperationsByTag_document (spec spec2 : OpenAPISpec)
    (res : GoMap (List MethodDef)) (h : groupOperationsByTag spec = some (spec2, res)) :
    spec2 = { spec with
      Paths := spec.Paths.map (fun entry => (entry.1, fillOperationIDs entry.1 entry.2)) } ∧
    (∀ (methodName path : String) (op : Operation),
      (withOperationID methodName path op).OperationID
        = (if op.OperationID = "" then generateOperationID methodName path
           else op.OperationID) ∧
      (withOperationID methodName path op).Summary = op.Summary ∧
      (withOperationID methodName path op).Tags = op.Tags ∧
      (withOperationID methodName path op).Parameters = op.Parameters ∧
      (withOperationID methodName path op).RequestBody = op.RequestBody ∧
      (withOperationID methodName path op).Responses = op.Responses) := by
  constructor
  · unfold groupOperationsByTag at h
    cases hg : groupLoop spec spec.Paths ([], []) with
    | none => rw [hg] at h; simp at h
    | some r =>
      rw [hg] at h
      simp only [Option.map_some', Option.some.injEq, Prod.mk.injEq] at h
      rw [← h.1, groupLoop_fst spec spec.Paths ([], []) r hg]
      simp
  · intro methodName path op
    unfold withOperationID
    split <;> exact ⟨rfl, rfl, rfl, rfl, rfl, rfl⟩

theorem groupOperationsByTag_document_witness :
    ∃ r, groupOperationsByTag rootDoc = some r ∧
      r.1 = { rootDoc with
        Paths := rootDoc.Paths.map (fun entry => (entry.1, fillOperationIDs entry.1 entry.2)) } := by
  have hs : (groupOperationsByTag rootDoc).isSome = true := by decide
  obtain ⟨r, hr⟩ := Option.isSome_iff_exists.mp hs
  exact ⟨r, hr, (groupOperationsByTag_document rootDoc r.1 r.2 hr).1⟩

/-! ## Idempotence of classification -/

theorem withOperationID_idem (methodName path : String) (op : Operation)
    (h : methodName ≠ "") :
    withOperationID methodName path (withOperationID methodName path op)
      = withOperationID methodName path op := by
  unfold withOperationID
  by_cases he : op.OperationID = ""
  · simp only [if_pos he]
    rw [if_neg (generateOperationID_ne_empty methodName path h)]
  · simp only [if_neg he]

theorem processMethod_filled (spec spec2 : OpenAPISpec) (path : String)
    (resources : GoMap (List MethodDef)) (methodName : String) (operation : Option Operation)
    (h : methodName ≠ "") :
    processMethod spec2 path resources methodName
        (operation.map (withOperationID methodName path))
      = processMethod spec path resources methodName operation := by
  cases operation with
  | none => rfl
  | some op =>
    simp only [Option.map_some', processMethod, withOperationID_idem methodName path op h,
      buildMethodDef_spec spec2 spec]

theorem processPathItem_filled (spec spec2 : OpenAPISpec) (path : String)
    (pathItem : PathItem) (resources : GoMap (List MethodDef)) :
    processPathItem spec2 path (fillOperationIDs path pathItem) resources
      = processPathItem spec path pathItem resources := by
  simp only [processPathItem, fillOperationIDs,
    processMethod_filled spec spec2 path _ "GET" _ (by decide),
    processMethod_filled spec spec2 path _ "POST" _ (by decide),
    processMethod_filled spec spec2 path _ "PUT" _ (by decide),
    processMethod_filled spec spec2 path _ "DELETE" _ (by decide),
    processMethod_filled spec spec2 path _ "PATCH" _ (by decide)]

theorem groupLoop_filled (spec spec2 : OpenAPISpec) (paths : GoMap PathItem) :
    ∀ state : GoMap PathItem × GoMap (List MethodDef),
      groupLoop spec2 (paths.map (fun entry => (entry.1, fillOperationIDs entry.1 entry.2)))
          state
        = (groupLoop spec paths state) := by
  induction paths with
  | nil => intro state; rfl
  | cons entry rest ih =>
    intro state
    obtain ⟨path, pathItem⟩ := entry
    simp only [List.map_cons, groupLoop, processPathItem_filled spec spec2]
    cases hp : processPathItem spec path pathItem state.2 with
    | none => rfl
    | some r1 =>
      simp only [Option.some_bind]
      rw [ih]

/-- The resource key and the identifier the grouping assigns to a defined operation. -/
theorem classify_filled (path : String) (pathItem : PathItem) :
    (definedOps path (fillOperationIDs path pathItem)).map (fun e =>
        (e.1, e.2.1, resourceNameOf e.2.2 e.1, (withOperationID e.2.1 e.1 e.2.2).OperationID))
      = (definedOps path pathItem).map (fun e =>
        (e.1, e.2.1, resourceNameOf e.2.2 e.1, (withOperationID e.2.1 e.1 e.2.2).OperationID)) := by
  have hG := fun op => withOperationID_idem "GET" path op (by decide)
  have hP := fun op => withOperationID_idem "POST" path op (by decide)
  have hU := fun op => withOperationID_idem "PUT" path op (by decide)
  have hD := fun op => withOperationID_idem "DELETE" path op (by decide)
  have hA := fun op => withOperationID_idem "PATCH" path op (by decide)
  obtain ⟨g, p, u, d, a⟩ := pathItem
  cases g <;> cases p <;> cases u <;> cases d <;> cases a <;>
    simp [definedOps, fillOperationIDs, PathItem.methods, hG, hP, hU, hD, hA,
      resourceNameOf_withOperationID]

theorem classify_operationsOf (paths : GoMap PathItem) :
    (operationsOf (paths.map (fun entry => (entry.1, fillOperationIDs entry.1 entry.2)))).map
        (fun e =>
          (e.1, e.2.1, resourceNameOf e.2.2 e.1, (withOperationID e.2.1 e.1 e.2.2).OperationID))
      = (operationsOf paths).map (fun e =>
          (e.1, e.2.1, resourceNameOf e.2.2 e.1, (withOperationID e.2.1 e.1 e.2.2).OperationID)) := by
  induction paths with
  | nil => rfl
  | cons entry rest ih =>
    obtain ⟨path, pathItem⟩ := entry
    simp only [List.map_cons, operationsOf, List.map_append, ih, classify_filled]

/-- C23: running `groupOperationsByTag` again on the document the first run left behind
returns, and returns the same document and the same resources; every defined operation,
by path and method, gets the same resource key and the same identifier in both runs. -/
theorem groupOperationsByTag_idempotent (spec spec2 : OpenAPISpec)
    (res : GoMap (List MethodDef)) (h : groupOperationsByTag spec = some (spec2, res)) :
    groupOperationsByTag spec2 = some (spec2, res) ∧
    (operationsOf spec2.Paths).map (fun e =>
        (e.1, e.2.1, resourceNameOf e.2.2 e.1, (withOperationID e.2.1 e.1 e.2.2).OperationID))
      = (operationsOf spec.Paths).map (fun e =>
        (e.1, e.2.1, resourceNameOf e.2.2 e.1, (withOperationID e.2.1 e.1 e.2.2).OperationID)) := by
  have hg : ∃ r, groupLoop spec spec.Paths ([], []) = some r ∧
      spec2 = { spec with Paths := r.1 } ∧ res = r.2 := by
    unfold groupOperationsByTag at h
    cases hg : groupLoop spec spec.Paths ([], []) with
    | none => rw [hg] at h; simp at h
    | some r =>
      rw [hg] at h
      simp only [Option.map_some', Option.some.injEq, Prod.mk.injEq] at h
      exact ⟨r, rfl, h.1.symm, h.2.symm⟩
  obtain ⟨r, hr, h2, h3⟩ := hg
  have hp : r.1 = spec.Paths.map (fun entry => (entry.1, fillOperationIDs entry.1 entry.2)) := by
    rw [groupLoop_fst spec spec.Paths ([], []) r hr]; simp
  have hpaths : spec2.Paths
      = spec.Paths.map (fun entry => (entry.1, fillOperationIDs entry.1 entry.2)) := by
    rw [h2]; exact hp
  constructor
  · unfold groupOperationsByTag
    rw [hpaths, groupLoop_filled spec spec2 spec.Paths ([], []), hr]
    simp only [Option.map_some', Option.some.injEq, Prod.mk.injEq]
    refine ⟨?_, h3.symm⟩
    rw [h2]
  · rw [hpaths, classify_operationsOf]

theorem groupOperationsByTag_idempotent_witness :
    ∃ r, groupOperationsByTag rootDoc = some r ∧ groupOperationsByTag r.1 = some r := by
  have hs : (groupOperationsByTag rootDoc).isSome = true := by decide
  obtain ⟨r, hr⟩ := Option.isSome_iff_exists.mp hs
  exact ⟨r, hr, (groupOperationsByTag_idempotent rootDoc r.1 r.2 hr).1⟩

/-! ## What the collector accumulates -/

theorem foldlM_invariant {α β : Type} (Q : β → Prop) (f : β → α → Option β) (l : List α)
    (h : ∀ x ∈ l, ∀ b b2, f b x = some b2 → Q b → Q b2) :
    ∀ b b2, l.foldlM f b = some b2 → Q b → Q b2 := by
  induction l with
  | nil =>
    intro b b2 e hb
    simp only [List.foldlM_nil] at e
    cases e
    exact hb
  | cons x rest ih =>
    intro b b2 e hb
    simp only [List.foldlM_cons, Option.bind_eq_bind] at e
    cases hx : f b x with
    | none => rw [hx] at e; simp at e
    | some b1 =>
      rw [hx, Option.some_bind] at e
      exact ih (fun y hy => h y (List.mem_cons_of_mem _ hy)) b1 b2 e
        (h x (List.mem_cons_self _ _) b b1 hx hb)

theorem mem_markRelated_iff (R : List String) (name n : String) :
    n ∈ markRelated R name ↔ n ∈ R ∨ n = name := by
  unfold markRelated
  split
  · constructor
    · intro h; exact Or.inl h
    · rintro (h | rfl)
      · exact h
      · assumption
  · simp

theorem refsOfProps_mem (l : List (String × Option Schema)) (kv : String × Option Schema)
    (h : kv ∈ l) : refsOfOption kv.2 ⊆ refsOfProps l := by
  induction l with
  | nil => exact absurd h (List.not_mem_nil _)
  | cons x rest ih =>
    obtain ⟨k, u⟩ := x
    intro ref hr
    simp only [refsOfProps, List.mem_append]
    rcases List.mem_cons.mp h with rfl | h2
    · exact Or.inl hr
    · exact Or.inr (ih h2 hr)

theorem refsOfList_mem (l : List (Option Schema)) (u : Option Schema)
    (h : u ∈ l) : refsOfOption u ⊆ refsOfList l := by
  induction l with
  | nil => exact absurd h (List.not_mem_nil _)
  | cons x rest ih =>
    intro ref hr
    simp only [refsOfList, List.mem_append]
    rcases List.mem_cons.mp h with rfl | h2
    · exact Or.inl hr
    · exact Or.inr (ih h2 hr)

/-- Whatever the collector adds has the property `P`, when `P` holds of the names the
starting schema refers to and is kept along the references of named schemas. -/
theorem findReferencedTypes_invariant (M : GoMap (Option Schema)) (P : String → Prop)
    (hclosed : ∀ name schema, P name → M.get? name = some (some schema) →
      ∀ ref ∈ schema.refs, ref ≠ "" → (M.get? (getRefName ref)).isSome → P (getRefName ref)) :
    ∀ (fuel : Nat) (u : Option Schema) (R R2 : List String),
      findReferencedTypes fuel u M R = some R2 →
      (∀ ref ∈ refsOfOption u, ref ≠ "" → (M.get? (getRefName ref)).isSome →
        P (getRefName ref)) →
      (∀ n ∈ R, P n) → ∀ n ∈ R2, P n := by
  intro fuel
  induction fuel with
  | zero => intro u R R2 e; simp [findReferencedTypes] at e
  | succ fuel ih =>
    intro u R R2 e hroots hR
    cases u with
    | none =>
      simp only [findReferencedTypes, Option.some.injEq] at e
      rw [← e]; exact hR
    | some s =>
      rw [findReferencedTypes_succ] at e
      obtain ⟨t, f, p, i, r, rf, a, o, y, en, x⟩ := s
      have hrefs : refsOfOption (some (Schema.mk t f p i r rf a o y en x))
          = rf :: (refsOfProps p ++ refsOfOption i ++ refsOfList a ++ refsOfList o
            ++ refsOfList y) := by
        simp only [refsOfOption, Schema.refs]
      rw [hrefs] at hroots
      simp only [Schema.Ref, Schema.Properties, Schema.Items, Schema.AllOf, Schema.OneOf,
        Schema.AnyOf] at e
      -- the direct reference
      cases e0 : (if rf ≠ "" then
          (match M.get? (getRefName rf) with
            | some refSchema => findReferencedTypes fuel refSchema M (markRelated R (getRefName rf))
            | none => some R)
          else some R) with
      | none => rw [e0] at e; simp at e
      | some r1 =>
        rw [e0, Option.some_bind] at e
        have h1 : ∀ n ∈ r1, P n := by
          by_cases hr : rf ≠ ""
          · rw [if_pos hr] at e0
            cases hg : M.get? (getRefName rf) with
            | none =>
              rw [hg] at e0
              simp only [Option.some.injEq] at e0
              rw [← e0]; exact hR
            | some target =>
              rw [hg] at e0
              simp only at e0
              have hP : P (getRefName rf) :=
                hroots rf (List.mem_cons_self _ _) hr (by rw [hg]; rfl)
              refine ih target _ r1 e0 ?_ ?_
              · cases target with
                | none => intro ref hm; simp [refsOfOption] at hm
                | some ts =>
                  intro ref hm hne hs
                  exact hclosed (getRefName rf) ts hP hg ref
                    (by simpa [refsOfOption] using hm) hne hs
              · intro n hn
                rcases (mem_markRelated_iff R _ n).mp hn with h | rfl
                · exact hR n h
                · exact hP
          · rw [if_neg hr] at e0
            simp only [Option.some.injEq] at e0
            rw [← e0]; exact hR
        -- properties
        cases e1 : p.foldlM (fun acc kv => findReferencedTypes fuel kv.2 M acc) r1 with
        | none => rw [e1] at e; simp at e
        | some r2 =>
          rw [e1, Option.some_bind] at e
          have h2 : ∀ n ∈ r2, P n :=
            foldlM_invariant (fun R => ∀ n ∈ R, P n) _ p
              (fun kv hkv b b2 eb hb => ih kv.2 b b2 eb
                (fun ref hm => hroots ref (by
                  have := refsOfProps_mem p kv hkv hm
                  simp [this])) hb) r1 r2 e1 h1
          -- items
          cases e2 : (if i.isSome then findReferencedTypes fuel i M r2 else some r2) with
          | none => rw [e2] at e; simp at e
          | some r3 =>
            rw [e2, Option.some_bind] at e
            have h3 : ∀ n ∈ r3, P n := by
              by_cases hi : i.isSome = true
              · rw [if_pos hi] at e2
                exact ih i r2 r3 e2 (fun ref hm => hroots ref (by simp [hm])) h2
              · rw [if_neg hi] at e2
                simp only [Option.some.injEq] at e2
                rw [← e2]; exact h2
            cases e3 : a.foldlM (fun acc sub => findReferencedTypes fuel sub M acc) r3 with
            | none => rw [e3] at e; simp at e
            | some r4 =>
              rw [e3, Option.some_bind] at e
              have h4 : ∀ n ∈ r4, P n :=
                foldlM_invariant (fun R => ∀ n ∈ R, P n) _ a
                  (fun sub hsub b b2 eb hb => ih sub b b2 eb
                    (fun ref hm => hroots ref (by
                      have := refsOfList_mem a sub hsub hm
                      simp [this])) hb) r3 r4 e3 h3
              cases e4 : o.foldlM (fun acc sub => findReferencedTypes fuel sub M acc) r4 with
              | none => rw [e4] at e; simp at e
              | some r5 =>
                rw [e4, Option.some_bind] at e
                have h5 : ∀ n ∈ r5, P n :=
                  foldlM_invariant (fun R => ∀ n ∈ R, P n) _ o
                    (fun sub hsub b b2 eb hb => ih sub b b2 eb
                      (fun ref hm => hroots ref (by
                        have := refsOfList_mem o sub hsub hm
                        simp [this])) hb) r4 r5 e4 h4
                exact foldlM_invariant (fun R => ∀ n ∈ R, P n) _ y
                  (fun sub hsub b b2 eb hb => ih sub b b2 eb
                    (fun ref hm => hroots ref (by
                      have := refsOfList_mem y sub hsub hm
                      simp [this])) hb) r5 R2 e h5

/-! ## References that name plain schemas -/

theorem sanitizeTypeName_plain (name : String) (h : plainName name = true) :
    sanitizeTypeName name = name := by
  have hall : ∀ c ∈ name.data, c ≠ '.' ∧ c ≠ '-' ∧ c ≠ ' ' := by
    intro c hc
    have h1 := List.all_eq_true.mp h c hc
    have h2 : (¬c = '.' ∧ ¬c = '-') ∧ ¬c = ' ' := by simpa using h1
    exact ⟨h2.1.1, h2.1.2, h2.2⟩
  unfold sanitizeTypeName Strs.replaceAll
  simp only
  rw [replaceAllL_id '.' _ name.data (fun c hc => (hall c hc).1),
    replaceAllL_id '-' _ name.data (fun c hc => (hall c hc).2.1),
    replaceAllL_id ' ' _ name.data (fun c hc => (hall c hc).2.2)]

theorem getRefName_plain (ref : String) (h : plainName (refTarget ref) = true) :
    getRefName ref = refTarget ref :=
  sanitizeTypeName_plain (refTarget ref) h

theorem refs_subset_schemaRefs (M : GoMap (Option Schema)) (name : String)
    (u : Option Schema) (h : (name, u) ∈ M) : refsOfOption u ⊆ schemaRefs M := by
  intro ref hr
  simp only [schemaRefs, List.mem_flatten, List.mem_map]
  exact ⟨_, ⟨(name, u), h, rfl⟩, hr⟩

theorem operationRefs_subset_pathRefs (paths : GoMap PathItem) (path : String)
    (pathItem : PathItem) (methodName : String) (op : Operation)
    (hp : (path, pathItem) ∈ paths) (hm : (methodName, some op) ∈ pathItem.methods) :
    operationRefs op ⊆ pathRefs paths := by
  intro ref hr
  simp only [pathRefs, List.mem_flatten, List.mem_map]
  exact ⟨_, ⟨(path, methodName, op),
    (mem_operationsOf paths (path, methodName, op)).mpr ⟨pathItem, hp, hm⟩, rfl⟩, hr⟩

/-- When the references in the named schemas name plain schemas, the collector looks up
the schema each reference names, so an acyclic schema graph is walked without a cycle. -/
theorem lookupAcyclic_of_plain (M : GoMap (Option Schema)) (h : Acyclic M)
    (hplain : PlainRefs (schemaRefs M)) : LookupAcyclic M := by
  obtain ⟨rank, hr⟩ := h
  refine ⟨rank, ?_⟩
  intro name schema hget ref hm hne hs
  have e : getRefName ref = refTarget ref :=
    getRefName_plain ref (hplain ref
      (refs_subset_schemaRefs M name (some schema) (GoMap.mem_of_get? _ _ _ hget)
        (by simpa [refsOfOption] using hm)))
  rw [e] at hs ⊢
  exact hr name schema hget ref hm hne hs

/-! ## The collector on names that differ only in a sanitized character -/

theorem dottedPair_acyclic : Acyclic dottedPair := by
  refine ⟨dottedRank, ?_⟩
  intro name schema hget ref href hne hkey
  have hm := GoMap.mem_of_get? _ _ _ hget
  simp only [dottedPair, List.mem_cons, Prod.mk.injEq, Option.some.injEq, List.mem_singleton,
    List.not_mem_nil, or_false] at hm
  rcases hm with ⟨rfl, rfl⟩ | ⟨rfl, rfl⟩
  · simp [propsSchema, Schema.refs, refsOfProps, refsOfOption, refsOfList] at href
    exact absurd href hne
  · simp [propsSchema, refSchema, Schema.refs, refsOfProps, refsOfOption, refsOfList] at href
    rcases href with rfl | rfl
    · exact absurd rfl hne
    · decide

theorem findReferencedTypes_dottedPair_none (fuel : Nat) :
    ∀ R : List String,
      findReferencedTypes fuel
          (some (propsSchema [("x", some (refSchema "#/definitions/a.b"))])) dottedPair R
        = none ∧
      findReferencedTypes fuel (some (refSchema "#/definitions/a.b")) dottedPair R = none := by
  induction fuel with
  | zero => intro R; simp [findReferencedTypes]
  | succ n ih =>
    intro R
    refine ⟨?_, ?_⟩
    · exact findReferencedTypes_prop_none n _ "x" _ [] _ R rfl rfl (ih R).2
    · exact findReferencedTypes_ref_none n (refSchema "#/definitions/a.b") _ _ R (by decide)
        (by rfl) (ih _).1

theorem foldlM_none_of_step {α β : Type} (f : β → α → Option β) (l : List α) (x : α)
    (hx : x ∈ l) (h : ∀ b, f b x = none) : ∀ b, l.foldlM f b = none := by
  induction l with
  | nil => exact absurd hx (List.not_mem_nil _)
  | cons y rest ih =>
    intro b
    simp only [List.foldlM_cons, Option.bind_eq_bind]
    rcases List.mem_cons.mp hx with rfl | hr
    · rw [h b]; rfl
    · cases f b y with
      | none => rfl
      | some b1 => exact ih hr b1

theorem collectNamed_dottedPair_none (fuel : Nat) (resourceName : String)
    (hmatch : nameMatches "a_b" resourceName = true) (R : List String) :
    collectNamed fuel dottedPair resourceName dottedPair R = none := by
  unfold collectNamed
  apply foldlM_none_of_step _ dottedPair
    ("a_b", some (propsSchema [("x", some (refSchema "#/definitions/a.b"))]))
  · simp [dottedPair]
  · intro b
    have hm : (Strs.containsStr (Strs.toLower "a_b") (Strs.toLower resourceName) ||
        Strs.equalFold "a_b" resourceName) = true := hmatch
    simp only [hm, if_true]
    exact (findReferencedTypes_dottedPair_none fuel _).1

/-- C29 (the code diverges from the claim): the map `dottedPair` is acyclic, its schema
`a_b` refers to `a.b` and `a.b` refers to nothing; started on a reference to `a.b` from the
empty set, neither `findTypesInSchema` nor `findReferencedTypes` returns, whatever call
depth is allowed, because the reference is looked up under `a_b`. -/
theorem collectors_never_return_on_dotted_names :
    Acyclic dottedPair ∧
    getRefName "#/definitions/a.b" = "a_b" ∧ refTarget "#/definitions/a.b" = "a.b" ∧
    ∀ fuel,
      findTypesInSchema fuel (some (refSchema "#/definitions/a.b")) dottedPair [] = none ∧
      findReferencedTypes fuel (some (refSchema "#/definitions/a.b")) dottedPair [] = none := by
  refine ⟨dottedPair_acyclic, by decide, by decide, fun fuel => ?_⟩
  rw [findTypesInSchema_eq]
  exact ⟨(findReferencedTypes_dottedPair_none fuel []).2,
    (findReferencedTypes_dottedPair_none fuel []).2⟩

/-- C20 (the code diverges from the claim): the definitions of `dottedDoc` form an acyclic
graph, the name `a.b` contains the resource name `a`, and `filterTypesForResource` does not
return for the resource `a`, whatever call depth is allowed. -/
theorem filterTypesForResource_never_returns_on_dotted_names :
    Acyclic (mergeSchemas dottedDoc) ∧
    "a.b" ∈ dottedDoc.Definitions.keys ∧
    Strs.containsStr (Strs.toLower "a.b") (Strs.toLower "a") = true ∧
    ∀ fuel, filterTypesForResource fuel dottedDoc "a" = none := by
  refine ⟨dottedPair_acyclic, by decide, by decide, fun fuel => ?_⟩
  have hM : mergeSchemas dottedDoc = dottedPair := rfl
  unfold filterTypesForResource
  rw [hM]
  have hp : collectPaths fuel dottedPair "a" dottedDoc.Paths [] = some [] := rfl
  rw [hp, Option.some_bind, collectNamed_dottedPair_none fuel "a" (by decide) []]
  rfl

/-! ## Partition soundness -/

theorem related_closed (spec : OpenAPISpec) (resourceName name : String) (schema : Schema)
    (hplain : PlainRefs (schemaRefs (mergeSchemas spec)))
    (h : Related spec resourceName name)
    (hget : (mergeSchemas spec).get? name = some (some schema))
    (ref : String) (hm : ref ∈ schema.refs) (hne : ref ≠ "")
    (hs : ((mergeSchemas spec).get? (getRefName ref)).isSome) :
    Related spec resourceName (getRefName ref) := by
  have e : getRefName ref = refTarget ref :=
    getRefName_plain ref (hplain ref
      (refs_subset_schemaRefs _ name (some schema) (GoMap.mem_of_get? _ _ _ hget)
        (by simpa [refsOfOption] using hm)))
  rw [e] at hs ⊢
  rcases h with ⟨path, pathItem, methodName, op, h1, h2, h3, h4⟩ | ⟨key, sch, h1, h2, h3⟩
  · exact Or.inl ⟨path, pathItem, methodName, op, h1, h2, h3,
      Reach.step name schema ref h4 hget hm hne hs⟩
  · rcases h3 with rfl | h3
    · exact Or.inr ⟨name, some schema, GoMap.mem_of_get? _ _ _ hget, h2,
        Or.inr (Reach.root ref (by simpa [refsOfOption] using hm) hne hs)⟩
    · exact Or.inr ⟨key, sch, h1, h2, Or.inr (Reach.step name schema ref h3 hget hm hne hs)⟩

theorem collectSchema_invariant (M : GoMap (Option Schema)) (P : String → Prop)
    (hclosed : ∀ name schema, P name → M.get? name = some (some schema) →
      ∀ ref ∈ schema.refs, ref ≠ "" → (M.get? (getRefName ref)).isSome → P (getRefName ref))
    (fuel : Nat) (u : Option Schema) (R R2 : List String)
    (e : collectSchema fuel M u R = some R2)
    (hroots : ∀ ref ∈ refsOfOption u, ref ≠ "" → (M.get? (getRefName ref)).isSome →
        P (getRefName ref))
    (hR : ∀ n ∈ R, P n) : ∀ n ∈ R2, P n := by
  unfold collectSchema at e
  by_cases hu : u.isSome = true
  · rw [if_pos hu, findTypesInSchema_eq] at e
    exact findReferencedTypes_invariant M P hclosed fuel u R R2 e hroots hR
  · rw [if_neg hu] at e
    simp only [Option.some.injEq] at e
    rw [← e]; exact hR

theorem collectContent_invariant (M : GoMap (Option Schema)) (P : String → Prop)
    (hclosed : ∀ name schema, P name → M.get? name = some (some schema) →
      ∀ ref ∈ schema.refs, ref ≠ "" → (M.get? (getRefName ref)).isSome → P (getRefName ref))
    (fuel : Nat) (content : GoMap MediaTypeObject) (R R2 : List String)
    (e : collectContent fuel M content R = some R2)
    (hroots : ∀ ref ∈ contentRefs content, ref ≠ "" → (M.get? (getRefName ref)).isSome →
        P (getRefName ref))
    (hR : ∀ n ∈ R, P n) : ∀ n ∈ R2, P n := by
  unfold collectContent at e
  refine foldlM_invariant (fun R => ∀ n ∈ R, P n) _ content ?_ R R2 e hR
  intro kv hkv b b2 eb hb
  refine collectSchema_invariant M P hclosed fuel kv.2.Schema b b2 eb ?_ hb
  intro ref hm
  apply hroots ref
  simp only [contentRefs, List.mem_flatten, List.mem_map]
  exact ⟨_, ⟨kv, hkv, rfl⟩, hm⟩

theorem collectParams_invariant (M : GoMap (Option Schema)) (P : String → Prop)
    (hclosed : ∀ name schema, P name → M.get? name = some (some schema) →
      ∀ ref ∈ schema.refs, ref ≠ "" → (M.get? (getRefName ref)).isSome → P (getRefName ref))
    (fuel : Nat) (params : List Parameter) (R R2 : List String)
    (e : collectParams fuel M params R = some R2)
    (hroots : ∀ ref ∈ (params.map fun param => refsOfOption param.Schema).flatten, ref ≠ "" →
        (M.get? (getRefName ref)).isSome → P (getRefName ref))
    (hR : ∀ n ∈ R, P n) : ∀ n ∈ R2, P n := by
  unfold collectParams at e
  refine foldlM_invariant (fun R => ∀ n ∈ R, P n) _ params ?_ R R2 e hR
  intro param hp b b2 eb hb
  refine collectSchema_invariant M P hclosed fuel param.Schema b b2 eb ?_ hb
  intro ref hm
  apply hroots ref
  simp only [List.mem_flatten, List.mem_map]
  exact ⟨_, ⟨param, hp, rfl⟩, hm⟩

theorem collectResponses_invariant (M : GoMap (Option Schema)) (P : String → Prop)
    (hclosed : ∀ name schema, P name → M.get? name = some (some schema) →
      ∀ ref ∈ schema.refs, ref ≠ "" → (M.get? (getRefName ref)).isSome → P (getRefName ref))
    (fuel : Nat) (responses : GoMap Response) (R R2 : List String)
    (e : collectResponses fuel M responses R = some R2)
    (hroots : ∀ ref ∈ (responses.map fun kv =>
          contentRefs kv.2.Content ++ refsOfOption kv.2.Schema).flatten, ref ≠ "" →
        (M.get? (getRefName ref)).isSome → P (getRefName ref))
    (hR : ∀ n ∈ R, P n) : ∀ n ∈ R2, P n := by
  unfold collectResponses at e
  refine foldlM_invariant (fun R => ∀ n ∈ R, P n) _ responses ?_ R R2 e hR
  intro kv hkv b b2 eb hb
  have hsub : ∀ ref ∈ contentRefs kv.2.Content ++ refsOfOption kv.2.Schema, ref ≠ "" →
      (M.get? (getRefName ref)).isSome → P (getRefName ref) := by
    intro ref hm
    apply hroots ref
    simp only [List.mem_flatten, List.mem_map]
    exact ⟨_, ⟨kv, hkv, rfl⟩, hm⟩
  simp only at eb
  cases ec : collectContent fuel M kv.2.Content b with
  | none => rw [ec] at eb; simp at eb
  | some b1 =>
    rw [ec, Option.some_bind] at eb
    have h1 := collectContent_invariant M P hclosed fuel kv.2.Content b b1 ec
      (fun ref hm => hsub ref (List.mem_append_left _ hm)) hb
    exact collectSchema_invariant M P hclosed fuel kv.2.Schema b1 b2 eb
      (fun ref hm => hsub ref (List.mem_append_right _ hm)) h1

theorem collectOperation_invariant (M : GoMap (Option Schema)) (P : String → Prop)
    (hclosed : ∀ name schema, P name → M.get? name = some (some schema) →
      ∀ ref ∈ schema.refs, ref ≠ "" → (M.get? (getRefName ref)).isSome → P (getRefName ref))
    (fuel : Nat) (resourceName path : String) (operation : Option Operation)
    (R R2 : List String)
    (e : collectOperation fuel M resourceName path operation R = some R2)
    (hroots : ∀ op, operation = some op →
      Strs.equalFold (resourceNameOf op path) resourceName = true →
      ∀ ref ∈ operationRefs op, ref ≠ "" → (M.get? (getRefName ref)).isSome →
        P (getRefName ref))
    (hR : ∀ n ∈ R, P n) : ∀ n ∈ R2, P n := by
  cases operation with
  | none =>
    simp only [collectOperation, Option.some.injEq] at e
    rw [← e]; exact hR
  | some op =>
    simp only [collectOperation] at e
    by_cases ho : Strs.equalFold (resourceNameOf op path) resourceName = true
    · rw [if_pos ho] at e
      have hr := hroots op rfl ho
      cases e1 : collectParams fuel M op.Parameters R with
      | none => rw [e1] at e; simp at e
      | some r1 =>
        rw [e1, Option.some_bind] at e
        have h1 := collectParams_invariant M P hclosed fuel op.Parameters R r1 e1
          (fun ref hm => hr ref (by simp only [operationRefs, List.mem_append]; tauto)) hR
        cases hb : op.RequestBody with
        | none =>
          rw [hb] at e
          simp only [Option.some_bind] at e
          exact collectResponses_invariant M P hclosed fuel op.Responses r1 R2 e
            (fun ref hm => hr ref (by simp only [operationRefs, List.mem_append]; tauto)) h1
        | some body =>
          rw [hb] at e
          simp only at e
          cases e2 : collectContent fuel M body.Content r1 with
          | none => rw [e2] at e; simp at e
          | some r2 =>
            rw [e2, Option.some_bind] at e
            have h2 := collectContent_invariant M P hclosed fuel body.Content r1 r2 e2
              (fun ref hm => hr ref (by
                simp only [operationRefs, List.mem_append, hb]; tauto)) h1
            exact collectResponses_invariant M P hclosed fuel op.Responses r2 R2 e
              (fun ref hm => hr ref (by simp only [operationRefs, List.mem_append]; tauto)) h2
    · rw [if_neg ho] at e
      simp only [Option.some.injEq] at e
      rw [← e]; exact hR

theorem collectPaths_related (spec : OpenAPISpec) (resourceName : String)
    (hplain : PlainRefs (documentRefs spec)) (fuel : Nat) (R R2 : List String)
    (e : collectPaths fuel (mergeSchemas spec) resourceName spec.Paths R = some R2)
    (hR : ∀ n ∈ R, Related spec resourceName n) : ∀ n ∈ R2, Related spec resourceName n := by
  have hplainS : PlainRefs (schemaRefs (mergeSchemas spec)) :=
    fun ref hr => hplain ref (List.mem_append_left _ hr)
  unfold collectPaths at e
  refine foldlM_invariant (fun R => ∀ n ∈ R, Related spec resourceName n) _ spec.Paths ?_
    R R2 e hR
  intro entry hentry b b2 eb hb
  refine foldlM_invariant (fun R => ∀ n ∈ R, Related spec resourceName n) _
    entry.2.methods ?_ b b2 eb hb
  intro method hmethod c c2 ec hc
  refine collectOperation_invariant (mergeSchemas spec) (Related spec resourceName)
    (fun name schema h hget ref hm hne hs =>
      related_closed spec resourceName name schema hplainS h hget ref hm hne hs)
    fuel resourceName entry.1 method.2 c c2 ec ?_ hc
  intro op hop ho ref hm hne hs
  have hmem : (method.1, some op) ∈ entry.2.methods := by
    rw [← hop]; exact hmethod
  have e2 : getRefName ref = refTarget ref :=
    getRefName_plain ref (hplain ref (List.mem_append_right _
      (operationRefs_subset_pathRefs spec.Paths entry.1 entry.2 method.1 op hentry hmem hm)))
  rw [e2] at hs ⊢
  exact Or.inl ⟨entry.1, entry.2, method.1, op, hentry, hmem, ho, Reach.root ref hm hne hs⟩

theorem collectNamed_related (spec : OpenAPISpec) (resourceName : String)
    (hplain : PlainRefs (schemaRefs (mergeSchemas spec))) (fuel : Nat) (R R2 : List String)
    (e : collectNamed fuel (mergeSchemas spec) resourceName (mergeSchemas spec) R = some R2)
    (hR : ∀ n ∈ R, Related spec resourceName n) : ∀ n ∈ R2, Related spec resourceName n := by
  unfold collectNamed at e
  refine foldlM_invariant (fun R => ∀ n ∈ R, Related spec resourceName n) _
    (mergeSchemas spec) ?_ R R2 e hR
  intro kv hkv b b2 eb hb
  simp only at eb
  by_cases hm : (Strs.containsStr (Strs.toLower kv.1) (Strs.toLower resourceName) ||
      Strs.equalFold kv.1 resourceName) = true
  · rw [if_pos hm] at eb
    refine findReferencedTypes_invariant (mergeSchemas spec) (Related spec resourceName)
      (fun name schema h hget ref hm hne hs =>
        related_closed spec resourceName name schema hplain h hget ref hm hne hs)
      fuel kv.2 _ b2 eb ?_ ?_
    · intro ref hr hne hs
      have e2 : getRefName ref = refTarget ref :=
        getRefName_plain ref (hplain ref (refs_subset_schemaRefs _ kv.1 kv.2 hkv hr))
      rw [e2] at hs ⊢
      exact Or.inr ⟨kv.1, kv.2, hkv, hm, Or.inr (Reach.root ref hr hne hs)⟩
    · intro n hn
      rcases (mem_markRelated_iff b kv.1 n).mp hn with h | rfl
      · exact hb n h
      · exact Or.inr ⟨kv.1, kv.2, hkv, hm, Or.inl rfl⟩
  · rw [if_neg hm] at eb
    simp only [Option.some.injEq] at eb
    rw [← eb]; exact hb

theorem convertTypes_keys_from (spec : OpenAPISpec) (M : GoMap (Option Schema))
    (related : List String) (types : GoMap TypeDef)
    (e : convertTypes spec M related = some types) :
    ∀ key ∈ types.keys, ∃ n ∈ related, (M.get? n).isSome ∧ key = sanitizeTypeName n := by
  unfold convertTypes at e
  refine foldlM_invariant
    (fun (t : GoMap TypeDef) => ∀ key ∈ t.keys, ∃ n ∈ related, (M.get? n).isSome ∧
      key = sanitizeTypeName n) _ related ?_ [] types e ?_
  · intro name hname b b2 eb hb
    simp only at eb
    cases hg : M.get? name with
    | none =>
      rw [hg] at eb
      simp only [Option.some.injEq] at eb
      rw [← eb]; exact hb
    | some v =>
      cases v with
      | none => rw [hg] at eb; simp at eb
      | some schema =>
        rw [hg] at eb
        simp only [Option.some.injEq] at eb
        rw [← eb]
        intro key hkey
        rcases (GoMap.mem_keys_set _ _ _ _).mp hkey with rfl | h
        · exact ⟨name, hname, by rw [hg]; rfl, rfl⟩
        · exact hb key h
  · intro key hkey
    simp [GoMap.keys] at hkey

/-- What `filterTypesForResource` returns, and that it returns, on an acyclic document
whose references name plain schemas and whose named schemas are not nil. -/
theorem filterTypesForResource_related (spec : OpenAPISpec) (resourceName : String)
    (hacyclic : Acyclic (mergeSchemas spec))
    (hplain : PlainRefs (documentRefs spec))
    (hnonnil : ∀ k v, (mergeSchemas spec).get? k = some v → v.isSome) :
    ∃ N, ∀ fuel, N ≤ fuel → ∃ types,
      filterTypesForResource fuel spec resourceName = some types ∧
      ∀ key ∈ types.keys, ∃ n, key = sanitizeTypeName n ∧
        ((mergeSchemas spec).get? n).isSome ∧ Related spec resourceName n := by
  have hplainS : PlainRefs (schemaRefs (mergeSchemas spec)) :=
    fun ref hr => hplain ref (List.mem_append_left _ hr)
  have hwalk := lookupAcyclic_of_plain (mergeSchemas spec) hacyclic hplainS
  obtain ⟨N1, h1⟩ := terminates_collectPaths (mergeSchemas spec) hwalk resourceName spec.Paths
  obtain ⟨N2, h2⟩ := terminates_collectNamed (mergeSchemas spec) hwalk resourceName
    (mergeSchemas spec)
  refine ⟨max N1 N2, fun fuel hfuel => ?_⟩
  obtain ⟨R1, e1, _⟩ := h1 fuel (le_trans (le_max_left _ _) hfuel) []
  obtain ⟨R2, e2, _⟩ := h2 fuel (le_trans (le_max_right _ _) hfuel) R1
  obtain ⟨types, e3, _, _⟩ := convertTypes_keys spec (mergeSchemas spec) hnonnil R2 []
  simp only at e1 e2
  have e3b : convertTypes spec (mergeSchemas spec) R2 = some types := e3
  refine ⟨types, ?_, ?_⟩
  · unfold filterTypesForResource
    rw [e1, Option.some_bind, e2, Option.some_bind]
    exact e3b
  · intro key hkey
    obtain ⟨n, hn, hs, hk⟩ := convertTypes_keys_from spec (mergeSchemas spec) R2 types e3b key hkey
    have hr1 := collectPaths_related spec resourceName hplain fuel [] R1 e1
      (fun n hn => absurd hn (List.not_mem_nil _))
    have hr2 := collectNamed_related spec resourceName hplainS fuel R1 R2 e2 hr1
    exact ⟨n, hk, hs, hr2 n hn⟩

theorem reach_untaggedOrderOp (n : String)
    (h : Reach (mergeSchemas partitionDoc) (operationRefs untaggedOrderOp) n) :
    n = "Order" := by
  induction h with
  | root ref hm hne hs =>
    simp [operationRefs, untaggedOrderOp, typedRefResponse, contentRefs, refsOfOption,
      refSchema, Schema.refs, refsOfProps, refsOfList] at hm
    rw [hm]
    decide
  | step name schema ref _ hget hm hne hs ih =>
    rw [ih] at hget
    have hO : (mergeSchemas partitionDoc).get? "Order" = some (some (propsSchema [])) := rfl
    rw [hO] at hget
    simp only [Option.some.injEq] at hget
    rw [← hget] at hm
    simp [propsSchema, Schema.refs, refsOfProps, refsOfOption, refsOfList] at hm
    exact absurd hm hne

/-- C21 (as stated, refuted): in the document with two operations tagged `Pets` and one
untagged operation on `/orders/{id}`, the grouping yields the resources `Pets` with two
operations and `orders` with one, the types of `orders` include `OrdersPage`, and
`OrdersPage` is not the sanitized name of any schema reachable from an operation of
`orders`. -/
theorem filterTypesForResource_includes_unreferenced :
    (groupOperationsByTag partitionDoc).map (fun r => r.2.map (fun kv => (kv.1, kv.2.length)))
      = some [("Pets", 2), ("orders", 1)] ∧
    (filterTypesForResource 10 partitionDoc "orders").map GoMap.keys
      = some ["Order", "OrdersPage"] ∧
    ¬ ∃ path pathItem methodName op n,
      (path, pathItem) ∈ partitionDoc.Paths ∧ (methodName, some op) ∈ pathItem.methods ∧
      Strs.equalFold (resourceNameOf op path) "orders" = true ∧
      Reach (mergeSchemas partitionDoc) (operationRefs op) n ∧
      sanitizeTypeName n = "OrdersPage" := by
  refine ⟨by decide, by decide, ?_⟩
  rintro ⟨path, pathItem, methodName, op, n, hp, hm, ho, hr, hs⟩
  simp only [partitionDoc, List.mem_cons, Prod.mk.injEq, List.mem_singleton,
    List.not_mem_nil, or_false] at hp
  rcases hp with ⟨rfl, rfl⟩ | ⟨rfl, rfl⟩
  · simp only [PathItem.methods, List.mem_cons, Prod.mk.injEq, Option.some.injEq,
      List.mem_singleton, List.not_mem_nil, or_false, reduceCtorEq, and_false, false_or] at hm
    rcases hm with ⟨_, h⟩ | ⟨_, h⟩ <;>
    · rw [h] at ho
      exact absurd ho (by decide)
  · simp only [PathItem.methods, List.mem_cons, Prod.mk.injEq, Option.some.injEq,
      List.mem_singleton, List.not_mem_nil, or_false, reduceCtorEq, and_false, false_or] at hm
    obtain ⟨_, h⟩ := hm
    rw [h] at hr
    rw [reach_untaggedOrderOp n hr] at hs
    exact absurd hs (by decide)

/-- C21 (amended): in a document whose schema graph is acyclic, whose references all name
schemas with plain names (no `.`, `-` or blank) and whose named schemas are not nil, for
every large enough call depth `filterTypesForResource` returns, and every type in the
result is the sanitized name of a named schema that is reachable from a parameter, request
body or response schema of an operation whose resource name equals the resource under case
folding, or whose name matches the resource, or that is reachable from a schema whose name
matches the resource. -/
theorem partition_soundness (spec : OpenAPISpec) (resourceName : String)
    (hacyclic : Acyclic (mergeSchemas spec))
    (hplain : PlainRefs (documentRefs spec))
    (hnonnil : ∀ k v, (mergeSchemas spec).get? k = some v → v.isSome) :
    ∃ N, ∀ fuel, N ≤ fuel → ∃ types,
      filterTypesForResource fuel spec resourceName = some types ∧
      ∀ key ∈ types.keys, ∃ n, key = sanitizeTypeName n ∧
        n ∈ (mergeSchemas spec).keys ∧ Related spec resourceName n := by
  obtain ⟨N, hN⟩ := filterTypesForResource_related spec resourceName hacyclic hplain hnonnil
  refine ⟨N, fun fuel hfuel => ?_⟩
  obtain ⟨types, e, h⟩ := hN fuel hfuel
  refine ⟨types, e, fun key hkey => ?_⟩
  obtain ⟨n, h1, h2, h3⟩ := h key hkey
  exact ⟨n, h1, (GoMap.get?_isSome_iff _ n).mp h2, h3⟩

theorem shopDoc_acyclic : Acyclic (mergeSchemas shopDoc) := by
  refine ⟨shopRank, ?_⟩
  intro name schema hget ref href hne hkey
  have hm := GoMap.mem_of_get? _ _ _ hget
  have hM : mergeSchemas shopDoc =
      [("OrderItem", some (propsSchema [])),
       ("Order", some (propsSchema [("items", some (.mk "array" "" []
          (some (refSchema "#/definitions/OrderItem")) [] "" [] [] [] [] []))])),
       ("OrdersPage", some (propsSchema [("data", some (refSchema "#/definitions/Order"))])),
       ("Pet", some (propsSchema []))] := rfl
  rw [hM] at hm
  simp only [List.mem_cons, Prod.mk.injEq, Option.some.injEq, List.mem_singleton,
    List.not_mem_nil, or_false] at hm
  rcases hm with ⟨rfl, rfl⟩ | ⟨rfl, rfl⟩ | ⟨rfl, rfl⟩ | ⟨rfl, rfl⟩
  · simp [propsSchema, Schema.refs, refsOfProps, refsOfOption, refsOfList] at href
    exact absurd href hne
  · simp [propsSchema, refSchema, Schema.refs, refsOfProps, refsOfOption, refsOfList] at href
    rcases href with rfl | rfl
    · exact absurd rfl hne
    · decide
  · simp [propsSchema, refSchema, Schema.refs, refsOfProps, refsOfOption, refsOfList] at href
    rcases href with rfl | rfl
    · exact absurd rfl hne
    · decide
  · simp [propsSchema, Schema.refs, refsOfProps, refsOfOption, refsOfList] at href
    exact absurd href hne

theorem shopDoc_plain : PlainRefs (documentRefs shopDoc) := by
  unfold PlainRefs
  decide

theorem shopDoc_nonnil :
    ∀ k v, (mergeSchemas shopDoc).get? k = some v → v.isSome := by
  intro k v hget
  have hm := GoMap.mem_of_get? _ _ _ hget
  have hM : mergeSchemas shopDoc =
      [("OrderItem", some (propsSchema [])),
       ("Order", some (propsSchema [("items", some (.mk "array" "" []
          (some (refSchema "#/definitions/OrderItem")) [] "" [] [] [] [] []))])),
       ("OrdersPage", some (propsSchema [("data", some (refSchema "#/definitions/Order"))])),
       ("Pet", some (propsSchema []))] := rfl
  rw [hM] at hm
  simp only [List.mem_cons, Prod.mk.injEq, List.mem_singleton, List.not_mem_nil,
    or_false] at hm
  rcases hm with ⟨_, rfl⟩ | ⟨_, rfl⟩ | ⟨_, rfl⟩ | ⟨_, rfl⟩ <;> rfl

theorem partition_soundness_witness :
    (filterTypesForResource 10 shopDoc "orders").map GoMap.keys
      = some ["Order", "OrderItem", "OrdersPage"] ∧
    ∃ N, ∀ fuel, N ≤ fuel → ∃ types,
      filterTypesForResource fuel shopDoc "orders" = some types ∧
      ∀ key ∈ types.keys, ∃ n, key = sanitizeTypeName n ∧
        n ∈ (mergeSchemas shopDoc).keys ∧ Related shopDoc "orders" n :=
  ⟨by decide, partition_soundness shopDoc "orders" shopDoc_acyclic shopDoc_plain shopDoc_nonnil⟩

/-! ## The root path -/

theorem dropWhile_all (l : List Char) (cut : Char) (h : ∀ c ∈ l, c = cut) :
    l.dropWhile (· == cut) = [] := by
  induction l with
  | nil => rfl
  | cons c rest ih =>
    have hc : c = cut := h c (List.mem_cons_self _ _)
    simp only [List.dropWhile_cons, hc, beq_self_eq_true, if_true]
    exact ih (fun d hd => h d (List.mem_cons_of_mem _ hd))

theorem trimBoth_all (path : String) (cut : Char) (h : ∀ c ∈ path.data, c = cut) :
    Strs.trimBoth path cut = "" := by
  unfold Strs.trimBoth
  rw [dropWhile_all path.data cut h]
  rfl

theorem resourceNameOf_root (op : Operation) (path : String) (htags : op.Tags = [])
    (hpath : ∀ c ∈ path.data, c = '/') : resourceNameOf op path = "" := by
  unfold resourceNameOf
  rw [htags, trimBoth_all path '/' hpath]
  rfl

/-- An untagged operation is filed under the first part of the split trimmed path; the
split is never empty. -/
theorem resourceNameOf_untagged (op : Operation) (path : String) (htags : op.Tags = []) :
    ∃ part rest, Strs.split (Strs.trimBoth path '/') '/' = part :: rest ∧
      resourceNameOf op path = part := by
  unfold resourceNameOf
  rw [htags]
  cases hs : Strs.split (Strs.trimBoth path '/') '/' with
  | nil =>
    unfold Strs.split at hs
    exact absurd (List.map_eq_nil_iff.mp hs) (splitL_ne_nil '/' _)
  | cons part rest => exact ⟨part, rest, rfl, rfl⟩

/-- C30 (the code diverges from the claim): the untagged operation on `/` is filed under
the empty resource name, the definitions of the document form an acyclic graph, and
`filterTypesForResource` does not return for the empty resource name, whatever call depth
is allowed. -/
theorem filterTypesForResource_root_never_returns :
    (groupOperationsByTag rootDottedDoc).map
      (fun r => r.2.map (fun kv => (kv.1, kv.2.length))) = some [("", 1)] ∧
    resourceNameOf {} "/" = "" ∧
    Acyclic (mergeSchemas rootDottedDoc) ∧
    ∀ fuel, filterTypesForResource fuel rootDottedDoc "" = none := by
  refine ⟨by decide, by decide, dottedPair_acyclic, fun fuel => ?_⟩
  have hM : mergeSchemas rootDottedDoc = dottedPair := rfl
  unfold filterTypesForResource
  rw [hM]
  have hp : collectPaths fuel dottedPair "" rootDottedDoc.Paths [] = some [] := rfl
  rw [hp, Option.some_bind, collectNamed_dottedPair_none fuel "" (by decide) []]
  rfl

end Sveger
